import Mathlib

/-!
# pika-algorithms: scan, find-family and includes strategies

A shallow embedding of the sequential and parallel strategies of
`inclusive_scan.hpp`, `find.hpp` and `includes.hpp`.

Conventions of the embedding

* An input range `[first, last)` is the list of its elements; an input
  iterator is the suffix of that list that is still ahead of it, so `last` is
  the empty suffix and dereferencing `last` has no value (`none`).
* A destination range is a position in a store `Mem T`; `*dest = v` is
  `Mem.write`.
* `std::size_t` arithmetic that can wrap is written modulo `2 ^ 64`.
* The scan is embedded twice: over one value type, and (`..._typed`) with the
  value types of the input, of the running value and of the destination kept
  apart, every conversion between them being a function.
* Positions returned by the find family are indices into the searched range,
  `last` being the length of the range.
* The chunks a partitioner hands out are a parameter, the list of their sizes.
* The chunk tasks of `partitioner::call_with_index` share one cancellation
  token. A task is a small step machine whose steps touch the token at most
  once; a run is a schedule, the list of the tasks that move, one step each.
  Results are stated for every schedule.
* Code of the repository that the sources do not include (the partitioners,
  the cancellation token, `loop_n`, `loop_idx_n`) is modelled from the
  specification and marked as such.
-/

namespace Pika

/-! ## Definitions -/

section Store

/-- Destination storage addressed by output position. -/
abbrev Mem (T : Type) := Nat → T

/-- The assignment `*p = v`. -/
def Mem.write {T : Type} (m : Mem T) (p : Nat) (v : T) : Mem T :=
  fun q => if q = p then v else m q

/-- The `n` stored values starting at position `d`. -/
def Mem.read {T : Type} (m : Mem T) (d n : Nat) : List T :=
  (List.range n).map (fun i => m (d + i))

/-- Number of values of `std::size_t`. -/
def size_t_mod : Nat := 2 ^ 64

end Store

section InclusiveScan

/-- The pair `in_out_result{in, out}`: the input iterator (a suffix of the
input range) and the output position. -/
structure in_out_result (T : Type) where
  in_iter : List T
  out_iter : Nat

/-- `sequential_inclusive_scan(first, last, dest, init, op)`:
`for (; first != last; ++first, ++dest) { init = op(init, *first); *dest = init; }`
returning `{first, dest}`. -/
def sequential_inclusive_scan {T : Type} (op : T → T → T) :
    List T → Nat → T → Mem T → in_out_result T × Mem T
  | [], dest, _, m => (⟨[], dest⟩, m)
  | x :: rest, dest, init, m =>
      sequential_inclusive_scan op rest (dest + 1) (op init x) (m.write dest (op init x))

/-- `sequential_inclusive_scan_n(first, count, dest, init, op)`:
`for (; count-- != 0; ++first, ++dest) { init = op(init, *first); *dest = init; }`
returning `init`. Reading past the end of the input has no value. -/
def sequential_inclusive_scan_n {T : Type} (op : T → T → T) :
    List T → Nat → Nat → T → Mem T → Option (T × Mem T)
  | [], count, _, init, m => if count = 0 then some (init, m) else none
  | x :: rest, count, dest, init, m =>
      if count = 0 then some (init, m)
      else sequential_inclusive_scan_n op rest (count - 1) (dest + 1) (op init x)
        (m.write dest (op init x))

/-- A `zip_iterator<FwdIter1, FwdIter2>`: an input iterator paired with an
output position. -/
structure zip_iterator (T : Type) where
  src : List T
  dst : Nat

/-- Advancing a zip iterator by `n` positions. -/
def zip_iterator.advance {T : Type} (it : zip_iterator T) (n : Nat) : zip_iterator T :=
  ⟨it.src.drop n, it.dst + n⟩

/-- Step 1 of `inclusive_scan::parallel`, the lambda
`[op, last](zip_iterator part_begin, std::size_t part_size) -> T`:
copy the first element of the chunk, then, unless the input iterator has
reached `last`, run `sequential_inclusive_scan_n` over `part_size - 1` further
elements (unsigned subtraction). -/
def inclusive_scan_step1 {T : Type} (op : T → T → T)
    (part_begin : zip_iterator T) (part_size : Nat) (m : Mem T) : Option (T × Mem T) :=
  match part_begin.src with
  | [] => none
  | part_init :: rest =>
      let m1 := m.write part_begin.dst part_init
      match rest with
      | [] => some (part_init, m1)
      | _ :: _ =>
          sequential_inclusive_scan_n op rest ((part_size + (size_t_mod - 1)) % size_t_mod)
            (part_begin.dst + 1) part_init m1

/-- Modelled from the spec: `loop_n(it, count, f)`, whose header is not among
the sources; the counted loop that calls `f` on `count` consecutive positions
starting at `it`. -/
def loop_n {S : Type} (f : Nat → S → S) : Nat → Nat → S → S
  | _, 0, s => s
  | it, count + 1, s => loop_n f (it + 1) count (f it s)

/-- Step 3 of `inclusive_scan::parallel`, the lambda `f3`:
`loop_n(dst, part_size, [=, &val](FwdIter2 it) { *it = op(val, *it); })`.
Input, `T` and destination have one value type here, so that the value read
back from the destination is the value step 1 wrote; `inclusive_scan_f3_typed`
keeps the value types apart. -/
def inclusive_scan_f3 {T : Type} (op : T → T → T)
    (part_begin : zip_iterator T) (part_size : Nat) (val : T) (m : Mem T) : Mem T :=
  loop_n (fun it (s : Mem T) => s.write it (op val (s it))) part_begin.dst part_size m

/-- Modelled from the spec: stage 1 of `scan_partitioner::call` (the header
`scan_partitioner.hpp` is not among the sources). The chunk function runs on
every chunk, the chunks being consecutive and given by their sizes; the chunk
totals are collected in chunk order. -/
def scan_stage1 {I T D : Type} (f1 : zip_iterator I → Nat → Mem D → Option (T × Mem D)) :
    zip_iterator I → List Nat → Mem D → Option (List T × Mem D)
  | _, [], m => some ([], m)
  | it, s :: ss, m =>
      match f1 it s m with
      | none => none
      | some (t, m1) =>
          match scan_stage1 f1 (it.advance s) ss m1 with
          | none => none
          | some (ts, m2) => some (t :: ts, m2)

/-- Modelled from the spec: stage 2 of `scan_partitioner::call`. Starting
from `init`, `combine_op(accumulated, chunk_total)` is applied left to right;
the result lists the starting offset of every chunk. -/
def scan_stage2 {T : Type} (op : T → T → T) : T → List T → List T
  | _, [] => []
  | acc, t :: ts => acc :: scan_stage2 op (op acc t) ts

/-- Modelled from the spec: stage 3 of `scan_partitioner::call`. `f3` runs on
every chunk with that chunk's offset. -/
def scan_stage3 {I T D : Type} (f3 : zip_iterator I → Nat → T → Mem D → Mem D) :
    zip_iterator I → List Nat → List T → Mem D → Mem D
  | it, s :: ss, o :: os, m => scan_stage3 f3 (it.advance s) ss os (f3 it s o m)
  | _, _, _, m => m

/-- Modelled from the spec: `scan_partitioner::call(policy, first, count, init,
f1, f2, f3, f4)`, the four-stage protocol over the chunks `sizes`. -/
def scan_partitioner_call {I T D R : Type}
    (first : zip_iterator I) (init : T) (sizes : List Nat)
    (f1 : zip_iterator I → Nat → Mem D → Option (T × Mem D))
    (f2 : T → T → T)
    (f3 : zip_iterator I → Nat → T → Mem D → Mem D)
    (f4 : List T → R) (m : Mem D) : Option (R × Mem D) :=
  match scan_stage1 f1 first sizes m with
  | none => none
  | some (totals, m1) =>
      some (f4 totals, scan_stage3 f3 first sizes (scan_stage2 f2 init totals) m1)

/-- `inclusive_scan::parallel(policy, first, last, dest, init, op)`. The chunks
chosen by the partitioner are the parameter `sizes`. -/
def inclusive_scan_parallel {T : Type} (op : T → T → T)
    (first : List T) (dest : Nat) (init : T) (sizes : List Nat) (m : Mem T) :
    Option (in_out_result T × Mem T) :=
  match first with
  | [] => some (⟨first, dest⟩, m)
  | _ :: _ =>
      let count := first.length
      let last_iter := first.drop count
      let final_dest := dest + count
      scan_partitioner_call ⟨first, dest⟩ init sizes
        (inclusive_scan_step1 op) op (inclusive_scan_f3 op)
        (fun _ => (⟨last_iter, final_dest⟩ : in_out_result T)) m

/-- `sequential_inclusive_scan_noinit(first, last, dest, op)`: the first
element is copied and becomes the initial value of the scan of the rest. -/
def sequential_inclusive_scan_noinit {T : Type} (op : T → T → T)
    (first : List T) (dest : Nat) (m : Mem T) : in_out_result T × Mem T :=
  match first with
  | [] => (⟨first, dest⟩, m)
  | init :: rest => sequential_inclusive_scan op rest (dest + 1) init (m.write dest init)

/-- `inclusive_scan::parallel(policy, first, last, dest, op)`, the overload
without an initial value: `if (first != last) { auto init = *first;
*dest++ = init; return parallel(policy, ++first, last, dest, init, op); }
return {first, dest};`. -/
def inclusive_scan_parallel_noinit {T : Type} (op : T → T → T)
    (first : List T) (dest : Nat) (sizes : List Nat) (m : Mem T) :
    Option (in_out_result T × Mem T) :=
  match first with
  | [] => some (⟨first, dest⟩, m)
  | init :: rest => inclusive_scan_parallel op rest (dest + 1) init sizes (m.write dest init)

/-- A division of `count` elements into consecutive non-empty chunks. -/
def is_chunking (count : Nat) (sizes : List Nat) : Prop :=
  (∀ s ∈ sizes, 0 < s) ∧ sizes.sum = count

end InclusiveScan

section InclusiveScanTyped

/-- `sequential_inclusive_scan(first, last, dest, init, op)` with the three
value types of the template kept apart: the input elements (`*first`) have
type `I`, the running value `init` has type `T`, the destination (`*dest`)
holds values of type `D`. `op` takes and returns `T`, the documented signature
`Ret fun(const Type1& a, const Type1& b)`; `inp` is the implicit conversion of
an input element to `T` and `store` the conversion of the assignment
`*dest = init`. -/
def sequential_inclusive_scan_typed {I T D : Type} (inp : I → T) (store : T → D)
    (op : T → T → T) : List I → Nat → T → Mem D → in_out_result I × Mem D
  | [], dest, _, m => (⟨[], dest⟩, m)
  | x :: rest, dest, init, m =>
      sequential_inclusive_scan_typed inp store op rest (dest + 1) (op init (inp x))
        (m.write dest (store (op init (inp x))))

/-- `sequential_inclusive_scan_n(first, count, dest, init, op)` with the value
types kept apart. -/
def sequential_inclusive_scan_n_typed {I T D : Type} (inp : I → T) (store : T → D)
    (op : T → T → T) : List I → Nat → Nat → T → Mem D → Option (T × Mem D)
  | [], count, _, init, m => if count = 0 then some (init, m) else none
  | x :: rest, count, dest, init, m =>
      if count = 0 then some (init, m)
      else sequential_inclusive_scan_n_typed inp store op rest (count - 1) (dest + 1)
        (op init (inp x)) (m.write dest (store (op init (inp x))))

/-- Step 1 of `inclusive_scan::parallel` with the value types kept apart:
`T part_init = get<0>(*part_begin); get<1>(*part_begin++) = part_init;`
followed, unless the input iterator has reached `last`, by
`sequential_inclusive_scan_n` over `part_size - 1` further elements. -/
def inclusive_scan_step1_typed {I T D : Type} (inp : I → T) (store : T → D)
    (op : T → T → T) (part_begin : zip_iterator I) (part_size : Nat) (m : Mem D) :
    Option (T × Mem D) :=
  match part_begin.src with
  | [] => none
  | x :: rest =>
      let part_init := inp x
      let m1 := m.write part_begin.dst (store part_init)
      match rest with
      | [] => some (part_init, m1)
      | _ :: _ =>
          sequential_inclusive_scan_n_typed inp store op rest
            ((part_size + (size_t_mod - 1)) % size_t_mod) (part_begin.dst + 1) part_init m1

/-- Step 3 of `inclusive_scan::parallel`, the lambda `f3`, with the value types
kept apart: in `*it = op(val, *it)` the second argument is read from the
destination, so it is a value of type `D` converted to `T` (`load`), and the
result is converted back to `D` by the assignment (`store`). -/
def inclusive_scan_f3_typed {I T D : Type} (load : D → T) (store : T → D)
    (op : T → T → T) (part_begin : zip_iterator I) (part_size : Nat) (val : T)
    (m : Mem D) : Mem D :=
  loop_n (fun it (s : Mem D) => s.write it (store (op val (load (s it)))))
    part_begin.dst part_size m

/-- `inclusive_scan::parallel(policy, first, last, dest, init, op)` with the
value types kept apart. The chunks chosen by the partitioner are the parameter
`sizes`. -/
def inclusive_scan_parallel_typed {I T D : Type} (inp : I → T) (load : D → T)
    (store : T → D) (op : T → T → T) (first : List I) (dest : Nat) (init : T)
    (sizes : List Nat) (m : Mem D) : Option (in_out_result I × Mem D) :=
  match first with
  | [] => some (⟨first, dest⟩, m)
  | _ :: _ =>
      let count := first.length
      let last_iter := first.drop count
      let final_dest := dest + count
      scan_partitioner_call ⟨first, dest⟩ init sizes
        (inclusive_scan_step1_typed inp store op) op (inclusive_scan_f3_typed load store op)
        (fun _ => (⟨last_iter, final_dest⟩ : in_out_result I)) m

end InclusiveScanTyped

section CancellationToken

/-- Modelled from the spec: `CancellationToken<T, Compare>` (the header of
`util::cancellation_token` is not among the sources): the shared cell `best`,
the comparison `compare` ("candidate is strictly better than the current
best") and the flag `cancelled`. -/
structure cancellation_token (T : Type) where
  best : T
  compare : T → T → Bool
  cancelled : Bool

/-- Modelled from the spec: construction of a token, `tok(sentinel)`; nothing
has been cancelled yet. -/
def cancellation_token.create {T : Type} (compare : T → T → Bool) (sentinel : T) :
    cancellation_token T :=
  { best := sentinel, compare := compare, cancelled := false }

/-- Modelled from the spec: `cancel(candidate)` as one atomic update (the
compare-and-swap retry loop makes the call linearizable): `best` becomes
`candidate` only if `compare(candidate, best)` holds, and `cancelled` is set
unconditionally. -/
def cancellation_token.cancel {T : Type} (tok : cancellation_token T) (candidate : T) :
    cancellation_token T :=
  { best := if tok.compare candidate tok.best then candidate else tok.best
    compare := tok.compare
    cancelled := true }

/-- Modelled from the spec: `was_cancelled()`, the load of the flag. -/
def cancellation_token.was_cancelled {T : Type} (tok : cancellation_token T) : Bool :=
  tok.cancelled

/-- Modelled from the spec: `get_result()`, called `get_data()` in the
sources: the current `best`. -/
def cancellation_token.get_data {T : Type} (tok : cancellation_token T) : T :=
  tok.best

/-- The calls `cancel(v1)`, ..., `cancel(vn)` taking effect in the order of
the list. -/
def cancellation_token.cancel_all {T : Type} (tok : cancellation_token T) (vs : List T) :
    cancellation_token T :=
  vs.foldl cancellation_token.cancel tok

/-- The comparison of the tokens of `find`, `find_if`, `find_if_not` and
`find_first_of`: the smaller index wins. -/
def smaller_index_wins (candidate current : Nat) : Bool := decide (candidate < current)

/-- The comparison `std::greater<difference_type>` of the token of `find_end`:
the larger index wins. -/
def larger_index_wins (candidate current : Int) : Bool := decide (candidate > current)

/-- A comparison on pairs that looks at the first component only: a strict
weak order that leaves distinct values unordered. -/
def smaller_key_wins (candidate current : Nat × Nat) : Bool :=
  decide (candidate.1 < current.1)

end CancellationToken

section Partitioner

/-- The state of one chunk task that runs
`loop_idx_n(base_idx, it, part_size, tok, f)`: at the loop test (`head`),
inside the call of `f` with the `cancel` calls it still has to issue (`body`),
returned (`finished`), or having dereferenced `last` (`fault`). -/
inductive worker (E T : Type) where
  | head (it : List E) (base_idx : Nat) (count : Nat)
  | body (it : List E) (base_idx : Nat) (count : Nat) (pending : List T)
  | finished
  | fault

/-- Whether a chunk task has returned. -/
def worker.is_finished {E T : Type} : worker E T → Bool
  | .finished => true
  | _ => false

/-- Modelled from the spec: one step of `loop_idx_n(base_idx, it, count, tok, f)`
(its header is not among the sources),
`for (; count != 0; --count, ++it, ++base_idx) { if (stop) break; f(*it, base_idx); }`.
Every step touches the shared token at most once. How the loop consults the
token is the parameter `stop`, a test on the token and the current index. The
element function `f` is given by the candidates it passes to `tok.cancel`, in
order. -/
def loop_idx_n_step {E T : Type} (stop : cancellation_token T → Nat → Bool)
    (f : E → Nat → List T) (tok : cancellation_token T) :
    worker E T → cancellation_token T × worker E T
  | .head it base_idx count =>
      if count = 0 then (tok, .finished)
      else if stop tok base_idx then (tok, .finished)
      else
        match it with
        | [] => (tok, .fault)
        | v :: _ => (tok, .body it base_idx count (f v base_idx))
  | .body it base_idx count (c :: cs) => (tok.cancel c, .body it base_idx count cs)
  | .body it base_idx count [] => (tok, .head it.tail (base_idx + 1) (count - 1))
  | .finished => (tok, .finished)
  | .fault => (tok, .fault)

/-- Modelled from the spec: the early-exit test of a worker, "has someone
already found something better than I could contribute": the token has been
cancelled and the current index would not improve on its value. -/
def was_cancelled_at {T : Type} (of_index : Nat → T) (tok : cancellation_token T)
    (base_idx : Nat) : Bool :=
  tok.was_cancelled && !(tok.compare (of_index base_idx) tok.best)

/-- The shared token and the chunk tasks of one parallel invocation. -/
structure par_state (E T : Type) where
  tok : cancellation_token T
  workers : List (worker E T)

/-- Modelled from the spec: the chunk descriptors of `partitioner::call_with_index`
(the partitioner is not among the sources): consecutive chunks of the given
sizes, each with its start position, its size and its base index. -/
def chunk_tasks {E T : Type} : List E → Nat → List Nat → List (worker E T)
  | _, _, [] => []
  | it, base_idx, s :: ss =>
      worker.head it base_idx s :: chunk_tasks (it.drop s) (base_idx + s) ss

/-- One scheduling step: chunk task `j` performs its next step. -/
def par_step {E T : Type} (step : cancellation_token T → worker E T →
    cancellation_token T × worker E T) (st : par_state E T) (j : Nat) : par_state E T :=
  match st.workers[j]? with
  | none => st
  | some w => ⟨(step st.tok w).1, st.workers.set j (step st.tok w).2⟩

/-- Modelled from the spec: `partitioner::call_with_index(policy, first, count,
stride, f1, f2)`. The chunk tasks run concurrently: `sched` lists, step by
step, which task moves next. `f2` is called once every task has returned; a
schedule that stops before that yields no result. -/
def partitioner_call_with_index {E T R : Type}
    (step : cancellation_token T → worker E T → cancellation_token T × worker E T)
    (f2 : cancellation_token T → R) (first : List E) (sizes : List Nat)
    (tok : cancellation_token T) (sched : List Nat) : Option R :=
  let st := sched.foldl (par_step step) ⟨tok, chunk_tasks first 0 sizes⟩
  if st.workers.all worker.is_finished then some (f2 st.tok) else none

/-- Modelled from the spec: the chunk size the partitioner settles on (the
partitioner is not among the sources). A hint of 0 means "choose
automatically", in proportion to the concurrency so that there are about
`4 * cores` chunks and none is empty; any other hint is the chunk size. -/
def partitioner_chunk_size (count chunk_hint cores : Nat) : Nat :=
  if chunk_hint = 0 then max 1 ((count + 4 * cores - 1) / (4 * cores)) else chunk_hint

/-- Modelled from the spec: the sizes of the chunks of a range of `count`
elements, a function of `count`, the hint and the concurrency: full chunks
followed by the remainder, if any. -/
def partitioner_chunk_sizes (count chunk_hint cores : Nat) : List Nat :=
  List.replicate (count / partitioner_chunk_size count chunk_hint cores)
      (partitioner_chunk_size count chunk_hint cores) ++
    (if count % partitioner_chunk_size count chunk_hint cores = 0 then []
      else [count % partitioner_chunk_size count chunk_hint cores])

/-- The first and one-past-last index of every chunk. -/
def chunk_bounds : Nat → List Nat → List (Nat × Nat)
  | _, [] => []
  | base_idx, s :: ss => (base_idx, base_idx + s) :: chunk_bounds (base_idx + s) ss

/-- A bound on the steps a chunk task still takes when the element function
issues at most `B` cancel calls per element. -/
def worker_measure {E T : Type} (B : Nat) : worker E T → Nat
  | .head _ _ count => (B + 2) * count + 1
  | .body _ _ count pending => pending.length + 1 + ((B + 2) * (count - 1) + 1)
  | .finished => 0
  | .fault => 0

/-- Index `i` of the range is one at which the element function cancels. -/
def hits {E T : Type} (f : E → Nat → List T) (xs : List E) (i : Nat) : Bool :=
  match xs[i]? with
  | some v => !(f v i).isEmpty
  | none => false

/-- Every cancelling index in `[lo, hi)` is no better than `best`. -/
def covered {E : Type} (f : E → Nat → List Nat) (xs : List E) (best lo hi : Nat) : Prop :=
  ∀ i, lo ≤ i → i < hi → hits f xs i = true → best ≤ i

/-- What holds of a chunk task of the chunk `[bd.1, bd.2)` while the token
holds `best`. -/
def worker_inv {E : Type} (f : E → Nat → List Nat) (xs : List E) (B best : Nat)
    (bd : Nat × Nat) : worker E Nat → Prop
  | .head it idx c =>
      it = xs.drop idx ∧ idx + c = bd.2 ∧ bd.1 ≤ idx ∧ bd.2 ≤ xs.length ∧
      covered f xs best bd.1 idx
  | .body it idx c pending =>
      it = xs.drop idx ∧ idx + c = bd.2 ∧ bd.1 ≤ idx ∧ bd.2 ≤ xs.length ∧ 0 < c ∧
      covered f xs best bd.1 idx ∧ (∀ x ∈ pending, x = idx) ∧
      (pending ≠ [] → hits f xs idx = true) ∧
      (hits f xs idx = true → pending ≠ [] ∨ best ≤ idx) ∧ pending.length ≤ B
  | .finished => covered f xs best bd.1 bd.2
  | .fault => False

/-- The token holds the sentinel or a cancelling index. -/
def token_inv {E : Type} (f : E → Nat → List Nat) (xs : List E)
    (tok : cancellation_token Nat) : Prop :=
  tok.compare = smaller_index_wins ∧
  (tok.best = xs.length ∨ hits f xs tok.best = true)

/-- What holds of every reachable state of a parallel invocation whose token
prefers the smaller index. -/
def par_inv {E : Type} (f : E → Nat → List Nat) (xs : List E) (B : Nat)
    (bounds : List (Nat × Nat)) (st : par_state E Nat) : Prop :=
  token_inv f xs st.tok ∧ st.workers.length = bounds.length ∧
  ∀ (j : Nat) bd w, bounds[j]? = some bd → st.workers[j]? = some w →
    worker_inv f xs B st.tok.best bd w

/-- The candidate that the next step of a chunk task passes to `tok.cancel`,
when that step is a call of `cancel`. -/
def worker.next_cancel {E T : Type} : worker E T → Option T
  | .body _ _ _ (c :: _) => some c
  | _ => none

/-- The candidates passed to `tok.cancel` in the course of a schedule, in the
order of the calls: what the chunk tasks report. -/
def par_reports {E T : Type}
    (step : cancellation_token T → worker E T → cancellation_token T × worker E T) :
    List Nat → par_state E T → List T
  | [], _ => []
  | j :: rest, st =>
      match st.workers[j]? with
      | none => par_reports step rest (par_step step st j)
      | some w =>
          match w.next_cancel with
          | none => par_reports step rest (par_step step st j)
          | some c => c :: par_reports step rest (par_step step st j)

/-- What holds of a chunk task of a run over the first `count` positions of
the range `xs`, with an element function that reports the index it is given,
at most `B` times per element: the task is within the range, it has not
dereferenced `last`, and what it still has to report is its current index. -/
def run_inv {E T : Type} (of_index : Nat → T) (B : Nat) (xs : List E) (count : Nat) :
    worker E T → Prop
  | .head it idx c => it = xs.drop idx ∧ idx + c ≤ count
  | .body it idx c pending =>
      it = xs.drop idx ∧ idx + c ≤ count ∧ 0 < c ∧ (∀ x ∈ pending, x = of_index idx) ∧
      pending.length ≤ B
  | .finished => True
  | .fault => False

/-- The sentinel property of one parallel invocation with the token
`tok(sentinel)`, for one schedule of its chunk tasks. `result` is what the
algorithm returns, `f2` its combine function and `last` the position it
returns when there is no match.

* Every value a chunk task may report beats the sentinel and is not beaten by
  it.
* Every candidate passed to `tok.cancel` in the run is such a value.
* The token is the outcome of these `cancel` calls on `tok(sentinel)`.
* The token holds the sentinel, its flag is unset and `f2` yields `last`, each
  exactly when no `cancel` call was made.
* The algorithm, if it returns, returns `last` exactly when no `cancel` call
  was made.
* Once every chunk task has been scheduled `(B + 2) * size + 1` times the
  algorithm does return, namely what `f2` makes of the outcome of the reported
  `cancel` calls on `tok(sentinel)`. -/
def sentinel_property {E T : Type} (compare : T → T → Bool) (sentinel : T)
    (reportable : T → Prop)
    (step : cancellation_token T → worker E T → cancellation_token T × worker E T)
    (f2 : cancellation_token T → Nat) (last : Nat) (B : Nat) (first : List E)
    (sizes sched : List Nat) (result : Option Nat) : Prop :=
  (∀ c, reportable c → compare c sentinel = true ∧ compare sentinel c = false) ∧
  (∀ c ∈ par_reports step sched
      ⟨cancellation_token.create compare sentinel, chunk_tasks first 0 sizes⟩, reportable c) ∧
  (sched.foldl (par_step step)
      ⟨cancellation_token.create compare sentinel, chunk_tasks first 0 sizes⟩).tok =
    (cancellation_token.create compare sentinel).cancel_all
      (par_reports step sched
        ⟨cancellation_token.create compare sentinel, chunk_tasks first 0 sizes⟩) ∧
  ((sched.foldl (par_step step)
      ⟨cancellation_token.create compare sentinel, chunk_tasks first 0 sizes⟩).tok.get_data =
        sentinel ↔
    par_reports step sched
      ⟨cancellation_token.create compare sentinel, chunk_tasks first 0 sizes⟩ = []) ∧
  ((sched.foldl (par_step step)
      ⟨cancellation_token.create compare sentinel, chunk_tasks first 0 sizes⟩).tok.was_cancelled =
        false ↔
    par_reports step sched
      ⟨cancellation_token.create compare sentinel, chunk_tasks first 0 sizes⟩ = []) ∧
  (f2 (sched.foldl (par_step step)
      ⟨cancellation_token.create compare sentinel, chunk_tasks first 0 sizes⟩).tok = last ↔
    par_reports step sched
      ⟨cancellation_token.create compare sentinel, chunk_tasks first 0 sizes⟩ = []) ∧
  (∀ r, result = some r →
    (r = last ↔
      par_reports step sched
        ⟨cancellation_token.create compare sentinel, chunk_tasks first 0 sizes⟩ = [])) ∧
  ((∀ j, j < sizes.length → (B + 2) * sizes.getD j 0 + 1 ≤ sched.count j) →
    result = some (f2 ((cancellation_token.create compare sentinel).cancel_all
      (par_reports step sched
        ⟨cancellation_token.create compare sentinel, chunk_tasks first 0 sizes⟩))))

end Partitioner

section Find

/-- The element function of `find::parallel`,
`[&val, &proj, &tok](type& v, std::size_t i) { if (proj(v) == val) tok.cancel(i); }`. -/
def find_f1 {E A : Type} [DecidableEq A] (proj : E → A) (val : A) (v : E) (i : Nat) :
    List Nat :=
  if proj v = val then [i] else []

/-- The combine function `f2` of `find::parallel`:
`find_res = tok.get_data(); if (find_res != count) advance(first, find_res);
else first = advance_to_sentinel(first, last); return first;`. -/
def find_f2 (count : Nat) (tok : cancellation_token Nat) : Nat :=
  let find_res := tok.get_data
  if find_res ≠ count then 0 + find_res else count

/-- `find::parallel(policy, first, last, val, proj)`, the result being the
position reached in `[first, last]`. The chunk sizes and the interleaving of
the chunk tasks are the parameters `sizes` and `sched`. -/
def find_parallel {E A : Type} [DecidableEq A]
    (stop : cancellation_token Nat → Nat → Bool) (proj : E → A) (val : A)
    (first : List E) (sizes : List Nat) (sched : List Nat) : Option Nat :=
  let count := first.length
  if count ≤ 0 then some first.length
  else
    partitioner_call_with_index (loop_idx_n_step stop (find_f1 proj val))
      (find_f2 count) first sizes
      (cancellation_token.create smaller_index_wins count) sched

/-- The element function of `find_if::parallel`,
`[&f, &proj, &tok](type& v, std::size_t i) { if (f(proj(v))) tok.cancel(i); }`. -/
def find_if_f1 {E A : Type} (f : A → Bool) (proj : E → A) (v : E) (i : Nat) :
    List Nat :=
  if f (proj v) then [i] else []

/-- The combine function `f2` of `find_if::parallel`, the same statements as
in `find::parallel`. -/
def find_if_f2 (count : Nat) (tok : cancellation_token Nat) : Nat :=
  let find_res := tok.get_data
  if find_res ≠ count then 0 + find_res else count

/-- `find_if::parallel(policy, first, last, f, proj)`, the result being the
position reached in `[first, last]`. -/
def find_if_parallel {E A : Type}
    (stop : cancellation_token Nat → Nat → Bool) (f : A → Bool) (proj : E → A)
    (first : List E) (sizes : List Nat) (sched : List Nat) : Option Nat :=
  let count := first.length
  if count ≤ 0 then some first.length
  else
    partitioner_call_with_index (loop_idx_n_step stop (find_if_f1 f proj))
      (find_if_f2 count) first sizes
      (cancellation_token.create smaller_index_wins count) sched

/-- The element function of `find_if_not::parallel`,
`[&f, &proj, &tok](type& v, std::size_t i) { if (!f(proj(v))) tok.cancel(i); }`. -/
def find_if_not_f1 {E A : Type} (f : A → Bool) (proj : E → A) (v : E) (i : Nat) :
    List Nat :=
  if !f (proj v) then [i] else []

/-- The combine function `f2` of `find_if_not::parallel`, the same statements
as in `find::parallel`. -/
def find_if_not_f2 (count : Nat) (tok : cancellation_token Nat) : Nat :=
  let find_res := tok.get_data
  if find_res ≠ count then 0 + find_res else count

/-- `find_if_not::parallel(policy, first, last, f, proj)`, the result being the
position reached in `[first, last]`. -/
def find_if_not_parallel {E A : Type}
    (stop : cancellation_token Nat → Nat → Bool) (f : A → Bool) (proj : E → A)
    (first : List E) (sizes : List Nat) (sched : List Nat) : Option Nat :=
  let count := first.length
  if count ≤ 0 then some first.length
  else
    partitioner_call_with_index (loop_idx_n_step stop (find_if_not_f1 f proj))
      (find_if_not_f2 count) first sizes
      (cancellation_token.create smaller_index_wins count) sched

end Find

section FindEnd

/-- The outcome of one run of the inner loop of `sequential_search`: the whole
of the second range was matched (`return first1`), the first range ran out
(`return last1`), or a pair of elements differed (`break`). -/
inductive search_outcome where
  | found
  | ran_out
  | mismatch
  deriving DecidableEq

/-- The inner loop of `sequential_search`,
`for (it2 = first2; ; ++it1, ++it2) { if (it2 == last2) return first1;
if (it1 == last1) return last1; if (!op(proj1(*it1), proj2(*it2))) break; }`. -/
def sequential_search_inner {E1 E2 A B : Type} (op : A → B → Bool) (proj1 : E1 → A)
    (proj2 : E2 → B) : List E1 → List E2 → search_outcome
  | _, [] => .found
  | [], _ :: _ => .ran_out
  | a :: it1, b :: it2 =>
      if !op (proj1 a) (proj2 b) then .mismatch
      else sequential_search_inner op proj1 proj2 it1 it2

/-- `sequential_search(first1, last1, first2, last2, op, proj1, proj2)`: the
outer loop `for (; ; ++first1)`. `first1` is given by the elements ahead of it
and by its position; the result is a position, `last1` being the position of
`first1` plus the number of elements ahead of it. -/
def sequential_search {E1 E2 A B : Type} (op : A → B → Bool) (proj1 : E1 → A)
    (proj2 : E2 → B) : List E1 → Nat → List E2 → Nat
  | [], pos, p =>
      match sequential_search_inner op proj1 proj2 [] p with
      | .found => pos
      | .ran_out => pos
      | .mismatch => pos
  | a :: rest, pos, p =>
      match sequential_search_inner op proj1 proj2 (a :: rest) p with
      | .found => pos
      | .ran_out => pos + (a :: rest).length
      | .mismatch => sequential_search op proj1 proj2 rest (pos + 1) p

/-- The loop of `sequential_find_end`,
`while (true) { new_result = sequential_search(first1, ...);
if (new_result == last1) break; else { result = new_result; first1 = result; ++first1; } }
return result;`, with a bound on the number of iterations. -/
def sequential_find_end_loop {E1 E2 A B : Type} (op : A → B → Bool) (proj1 : E1 → A)
    (proj2 : E2 → B) (h : List E1) (p : List E2) : Nat → Nat → Nat → Option Nat
  | 0, _, _ => none
  | fuel + 1, first1, result =>
      let new_result := sequential_search op proj1 proj2 (h.drop first1) first1 p
      if new_result = h.length then some result
      else sequential_find_end_loop op proj1 proj2 h p fuel (new_result + 1) new_result

/-- `sequential_find_end(first1, last1, first2, last2, op, proj1, proj2)`, the
result being a position in `[first1, last1]`. -/
def sequential_find_end {E1 E2 A B : Type} (op : A → B → Bool) (proj1 : E1 → A)
    (proj2 : E2 → B) (h : List E1) (p : List E2) : Option Nat :=
  match p with
  | [] => some h.length
  | _ :: _ => sequential_find_end_loop op proj1 proj2 h p (h.length + 1) 0 h.length

/-- The range `h[i .. i + m)` exists and matches `p` element by element. -/
def occurs_at {E1 E2 A B : Type} (op : A → B → Bool) (proj1 : E1 → A) (proj2 : E2 → B)
    (h : List E1) (p : List E2) (i : Nat) : Prop :=
  List.Forall₂ (fun a b => op (proj1 a) (proj2 b) = true) ((h.drop i).take p.length) p

/-- The loop `for (; local_count != diff; ++local_count, ++mid, ++mid2)
{ if (!op(proj1(mid), proj2(*mid2))) break; }` of the element function of
`find_end::parallel`, followed by the test `local_count == diff`. `mid` is a
copy of the element `t`, advanced by the `++` of the element type (`inc`). -/
def find_end_f1_tail {E E2 A B : Type} (inc : E → E) (op : A → B → Bool)
    (proj1 : E → A) (proj2 : E2 → B) : E → List E2 → Bool
  | _, [] => true
  | mid, b :: mid2 =>
      if !op (proj1 mid) (proj2 b) then false
      else find_end_f1_tail inc op proj1 proj2 (inc mid) mid2

/-- The element function of `find_end::parallel`,
`[=, &tok, &op, &proj1, &proj2](auto t, std::size_t i)`: `t` is the element
handed over by `loop_idx_n`. The second range is not empty when the function
runs. -/
def find_end_f1 {E E2 A B : Type} (inc : E → E) (op : A → B → Bool)
    (proj1 : E → A) (proj2 : E2 → B) (first2 : List E2) (t : E) (i : Nat) : List Int :=
  match first2 with
  | [] => []
  | b :: mid2 =>
      if op (proj1 t) (proj2 b) then
        if find_end_f1_tail inc op proj1 proj2 (inc t) mid2 then [(i : Int)] else []
      else []

/-- The combine function `f2` of `find_end::parallel`:
`if (find_end_res >= 0 && find_end_res != count) advance(first1, find_end_res);
else first1 = last1;`. -/
def find_end_f2 (count : Int) (last1 : Nat) (tok : cancellation_token Int) : Nat :=
  let find_end_res := tok.get_data
  if find_end_res ≥ 0 ∧ find_end_res ≠ count then find_end_res.toNat else last1

/-- `find_end::parallel(policy, first1, last1, first2, last2, op, proj1, proj2)`.
The partitioner divides the `count - diff + 1` start positions into the chunks
`sizes`. -/
def find_end_parallel {E E2 A B : Type} (stop : cancellation_token Int → Nat → Bool)
    (inc : E → E) (op : A → B → Bool) (proj1 : E → A) (proj2 : E2 → B)
    (first1 : List E) (first2 : List E2) (sizes : List Nat) (sched : List Nat) :
    Option Nat :=
  let diff : Int := first2.length
  if diff ≤ 0 then some first1.length
  else
    let count : Int := first1.length
    if diff > count then some first1.length
    else
      partitioner_call_with_index
        (loop_idx_n_step stop (find_end_f1 inc op proj1 proj2 first2))
        (find_end_f2 count first1.length) first1 sizes
        (cancellation_token.create larger_index_wins (-1)) sched

end FindEnd

section FindFirstOf

/-- Modelled from the spec: `compare_projected<Pred&, Proj1&, Proj2&>` (declared
outside the sources): the predicate applied to the projected elements. -/
def compare_projected {E1 E2 A B : Type} (op : A → B → Bool) (proj1 : E1 → A)
    (proj2 : E2 → B) (a : E1) (b : E2) : Bool :=
  op (proj1 a) (proj2 b)

/-- The inner loop of `find_first_of::sequential`,
`for (iter = s_first; iter != s_last; ++iter) if (f(*first, *iter)) return first;`:
whether it returns. -/
def find_first_of_inner {E1 E2 : Type} (f : E1 → E2 → Bool) (v : E1) : List E2 → Bool
  | [] => false
  | b :: iter => if f v b then true else find_first_of_inner f v iter

/-- The outer loop of `find_first_of::sequential`, `first` being given by the
elements ahead of it and by its position. -/
def find_first_of_loop {E1 E2 : Type} (f : E1 → E2 → Bool) (s_first : List E2) :
    List E1 → Nat → Nat
  | [], pos => pos
  | v :: rest, pos =>
      if find_first_of_inner f v s_first then pos
      else find_first_of_loop f s_first rest (pos + 1)

/-- `find_first_of::sequential(policy, first, last, s_first, s_last, op, proj1,
proj2)`, the result being a position in `[first, last]`. -/
def find_first_of_sequential {E1 E2 A B : Type} (op : A → B → Bool) (proj1 : E1 → A)
    (proj2 : E2 → B) (first : List E1) (s_first : List E2) : Nat :=
  match first with
  | [] => first.length
  | _ :: _ => find_first_of_loop (compare_projected op proj1 proj2) s_first first 0

/-- The element function of `find_first_of::parallel`,
`for (iter = s_first; iter != s_last; ++iter) if (f(v, *iter)) tok.cancel(i);`. -/
def find_first_of_f1 {E1 E2 : Type} (f : E1 → E2 → Bool) (v : E1) (i : Nat) :
    List E2 → List Nat
  | [] => []
  | b :: iter =>
      if f v b then i :: find_first_of_f1 f v i iter else find_first_of_f1 f v i iter

/-- The combine function `f2` of `find_first_of::parallel`:
`if (find_first_of_res != count) advance(first, find_first_of_res); else first = last;`. -/
def find_first_of_f2 (count : Nat) (tok : cancellation_token Nat) : Nat :=
  let find_first_of_res := tok.get_data
  if find_first_of_res ≠ count then 0 + find_first_of_res else count

/-- `find_first_of::parallel(policy, first, last, s_first, s_last, op, proj1,
proj2)`. -/
def find_first_of_parallel {E1 E2 A B : Type} (stop : cancellation_token Nat → Nat → Bool)
    (op : A → B → Bool) (proj1 : E1 → A) (proj2 : E2 → B)
    (first : List E1) (s_first : List E2) (sizes : List Nat) (sched : List Nat) :
    Option Nat :=
  let diff := s_first.length
  if diff ≤ 0 then some first.length
  else
    let count := first.length
    if diff > count then some first.length
    else
      partitioner_call_with_index
        (loop_idx_n_step stop
          (fun v i => find_first_of_f1 (compare_projected op proj1 proj2) v i s_first))
        (find_first_of_f2 count) first sizes
        (cancellation_token.create smaller_index_wins count) sched

end FindFirstOf

section Includes

/-- `sequential_includes(first1, last1, first2, last2, f, proj1, proj2)`, the
overload without a token. -/
def sequential_includes {E1 E2 A : Type} (f : A → A → Bool) (proj1 : E1 → A)
    (proj2 : E2 → A) : List E1 → List E2 → Bool
  | _, [] => true
  | [], _ :: _ => false
  | x :: first1, y :: first2 =>
      if f (proj2 y) (proj1 x) then false
      else if !f (proj1 x) (proj2 y) then sequential_includes f proj1 proj2 first1 first2
      else sequential_includes f proj1 proj2 first1 (y :: first2)

/-- `includes::sequential`. -/
def includes_sequential {E1 E2 A : Type} (f : A → A → Bool) (proj1 : E1 → A)
    (proj2 : E2 → A) (first1 : List E1) (first2 : List E2) : Bool :=
  sequential_includes f proj1 proj2 first1 first2

/-- `includes::parallel`: the two tests on the ranges that precede the
partitioner call. The call itself (`partitioner::call` over the second range
with the chunk function `f1`, built on `lower_bound` and `upper_bound`, none of
which is among the sources) is the parameter `chunk_phase`. -/
def includes_parallel {E1 E2 : Type} (chunk_phase : List E1 → List E2 → Bool)
    (first1 : List E1) (first2 : List E2) : Bool :=
  match first1 with
  | [] => false
  | _ :: _ =>
      match first2 with
      | [] => true
      | _ :: _ => chunk_phase first1 first2

/-- The second range is, element for element and in order, equivalent under
`f` to a subsequence of the first range. -/
def included_as_subsequence {E1 E2 A : Type} (f : A → A → Bool) (proj1 : E1 → A)
    (proj2 : E2 → A) (xs : List E1) (ys : List E2) : Prop :=
  ∃ l : List E1, l.Sublist xs ∧
    List.Forall₂ (fun x y => f (proj1 x) (proj2 y) = false ∧ f (proj2 y) (proj1 x) = false)
      l ys

end Includes

section NthElement

/-- `std::iter_swap(i, j)` on two positions of a range. -/
def iter_swap {E : Type} (a : List E) (i j : Nat) : List E :=
  match a[i]?, a[j]? with
  | some x, some y => (a.set i y).set j x
  | _, _ => a

/-- The loop of `nth_element::parallel`,
`while (first != last_iter) { pivot9(first, last_iter, pred);
partitionIter = partition(first + 1, last_iter, [val = proj(*first), &pred]
(value_type const& elem) { return pred(elem, val); }, proj); --partitionIter;
iter_swap(first, partitionIter); if (partitionIter < nth) first = partitionIter + 1;
else if (partitionIter > nth) last_iter = partitionIter; else break; }`,
with a bound on the number of iterations. The range is `a`, iterators are
positions in it. `pivot9` and `partition` (declared outside the sources) are
parameters: each maps the elements of the sub-range it is given to their new
arrangement, `partition` also giving the length of the first group; it applies
its predicate to the projected element. -/
def nth_element_loop {E : Type} (pivot9 : (E → E → Bool) → List E → List E)
    (partition : (E → Bool) → (E → E) → List E → List E × Nat)
    (pred : E → E → Bool) (proj : E → E) (nth : Nat) :
    Nat → List E → Nat → Nat → Option (List E)
  | 0, _, _, _ => none
  | fuel + 1, a, first, last_iter =>
      if first = last_iter then some a
      else
        match pivot9 pred ((a.drop first).take (last_iter - first)) with
        | [] => none
        | pivot :: rest =>
            let part := partition (fun elem => pred elem (proj pivot)) proj rest
            let a1 := a.take first ++ (pivot :: part.1) ++ a.drop last_iter
            let partitionIter := first + 1 + part.2 - 1
            let a2 := iter_swap a1 first partitionIter
            if partitionIter < nth then
              nth_element_loop pivot9 partition pred proj nth fuel a2 (partitionIter + 1)
                last_iter
            else if partitionIter > nth then
              nth_element_loop pivot9 partition pred proj nth fuel a2 first partitionIter
            else some a2

/-- `nth_element::parallel(policy, first, nth, last, pred, proj)` on the range
`a` with `first` at position 0: the returned iterator and the rearranged
range. -/
def nth_element_parallel {E : Type} (pivot9 : (E → E → Bool) → List E → List E)
    (partition : (E → Bool) → (E → E) → List E → List E × Nat)
    (pred : E → E → Bool) (proj : E → E) (a : List E) (nth : Nat) :
    Option (Nat × List E) :=
  match a with
  | [] => some (0, a)
  | _ :: _ =>
      if nth = a.length then some (nth, a)
      else
        match nth_element_loop pivot9 partition pred proj nth a.length a 0 a.length with
        | none => none
        | some a2 => some (a.length, a2)

/-- A `partition` that puts the elements accepted by the predicate first, in
their order, then the others. -/
def stable_partition_model {E : Type} (q : E → Bool) (proj : E → E) (l : List E) :
    List E × Nat :=
  (l.filter (fun x => q (proj x)) ++ l.filter (fun x => !q (proj x)),
    (l.filter (fun x => q (proj x))).length)

end NthElement

section FailureHandling

/-- Modelled from the spec: the failures a chunk function can raise (the
partitioner's handling of failures is not among the sources): resource
exhaustion (`std::bad_alloc`) or any other error, told apart by `id`. -/
inductive chunk_failure where
  | resource_exhaustion
  | user_failure (id : Nat)
  deriving DecidableEq

/-- Whether a failure is of the resource-exhaustion kind. -/
def chunk_failure.is_resource_exhaustion : chunk_failure → Bool
  | .resource_exhaustion => true
  | .user_failure _ => false

/-- Modelled from the spec: what a call of the partitioner surfaces: the
combined result, resource exhaustion itself, or one aggregate error
(`exception_list`). -/
inductive call_outcome (R : Type) where
  | value (r : R)
  | bad_alloc
  | exception_list (errors : List chunk_failure)

/-- Whether a chunk function raised. -/
def chunk_failed {P : Type} : Except chunk_failure P → Bool
  | .error _ => true
  | .ok _ => false

/-- Modelled from the spec: the number of chunks that are submitted. Chunks
are submitted in order; once a chunk has failed no new chunk is submitted, the
failure being noticed `lag` submissions after the failing chunk. -/
def submitted_chunks {P : Type} (chunk_results : List (Except chunk_failure P))
    (lag : Nat) : Nat :=
  min chunk_results.length (chunk_results.findIdx chunk_failed + 1 + lag)

/-- The failures raised by the chunks that ran, in chunk order. -/
def raised_failures {P : Type} : List (Except chunk_failure P) → List chunk_failure
  | [] => []
  | .error e :: rest => e :: raised_failures rest
  | .ok _ :: rest => raised_failures rest

/-- The results of the chunks that returned, in chunk order. -/
def chunk_values {P : Type} : List (Except chunk_failure P) → List P
  | [] => []
  | .error _ :: rest => chunk_values rest
  | .ok v :: rest => v :: chunk_values rest

/-- Modelled from the spec: the outcome of `Partitioner::call` when chunk `j`,
if it runs, ends as `chunk_results[j]`. Without a failure the combine function
is applied to the chunk results; otherwise all raised failures are collected
and surfaced as one aggregate error, except that resource exhaustion is
propagated as such when every raised failure is of that kind. -/
def partitioner_call_outcome {P R : Type} (combine : List P → R)
    (chunk_results : List (Except chunk_failure P)) (lag : Nat) : call_outcome R :=
  let ran := chunk_results.take (submitted_chunks chunk_results lag)
  let failures := raised_failures ran
  if failures.isEmpty then .value (combine (chunk_values ran))
  else if failures.all chunk_failure.is_resource_exhaustion then .bad_alloc
  else .exception_list failures

end FailureHandling

/-! ## Theorems -/

section InclusiveScanProofs

variable {T : Type}

theorem foldl_assoc_shift (op : T → T → T)
    (hassoc : ∀ a b c, op (op a b) c = op a (op b c)) (acc : T) :
    ∀ (l : List T) (a : T), op acc (List.foldl op a l) = List.foldl op (op acc a) l := by
  intro l
  induction l with
  | nil => intro a; rfl
  | cons b l ih =>
      intro a
      simp only [List.foldl_cons]
      rw [ih (op a b), hassoc]

theorem scan_step_pointwise (op : T → T → T) (x init : T) (rest : List T)
    (dest n : Nat) (m : Mem T) (p : Nat) :
    (if dest + 1 ≤ p ∧ p < dest + 1 + n
      then List.foldl op (op init x) (rest.take (p - (dest + 1) + 1))
      else (m.write dest (op init x)) p) =
    (if dest ≤ p ∧ p < dest + (n + 1)
      then List.foldl op init ((x :: rest).take (p - dest + 1)) else m p) := by
  by_cases h1 : p = dest
  · subst h1
    have h2 : ¬ (p + 1 ≤ p ∧ p < p + 1 + n) := by omega
    have h3 : p ≤ p ∧ p < p + (n + 1) := by omega
    rw [if_neg h2, if_pos h3]
    simp [Mem.write]
  · by_cases h2 : dest + 1 ≤ p ∧ p < dest + 1 + n
    · have h3 : dest ≤ p ∧ p < dest + (n + 1) := by omega
      have h4 : p - dest + 1 = (p - (dest + 1) + 1) + 1 := by omega
      rw [if_pos h2, if_pos h3, h4, List.take_succ_cons, List.foldl_cons]
    · have h3 : ¬ (dest ≤ p ∧ p < dest + (n + 1)) := by omega
      rw [if_neg h2, if_neg h3]
      simp [Mem.write, h1]

theorem sequential_inclusive_scan_spec (op : T → T → T) :
    ∀ (xs : List T) (dest : Nat) (init : T) (m : Mem T),
      sequential_inclusive_scan op xs dest init m =
        (⟨[], dest + xs.length⟩,
          fun p => if dest ≤ p ∧ p < dest + xs.length
            then List.foldl op init (xs.take (p - dest + 1)) else m p) := by
  intro xs
  induction xs with
  | nil =>
      intro dest init m
      refine Prod.ext rfl ?_
      funext p
      have h : ¬ (dest ≤ p ∧ p < dest + ([] : List T).length) := by simp
      simp only [sequential_inclusive_scan]
      rw [if_neg h]
  | cons x rest ih =>
      intro dest init m
      rw [sequential_inclusive_scan, ih]
      refine Prod.ext ?_ ?_
      · simp only [List.length_cons]
        congr 1
        omega
      · funext p
        exact scan_step_pointwise op x init rest dest rest.length m p

theorem sequential_inclusive_scan_n_spec (op : T → T → T) :
    ∀ (xs : List T) (count dest : Nat) (init : T) (m : Mem T), count ≤ xs.length →
      sequential_inclusive_scan_n op xs count dest init m =
        some (List.foldl op init (xs.take count),
          fun p => if dest ≤ p ∧ p < dest + count
            then List.foldl op init (xs.take (p - dest + 1)) else m p) := by
  intro xs
  induction xs with
  | nil =>
      intro count dest init m h
      have h0 : count = 0 := by simpa using h
      subst h0
      simp only [sequential_inclusive_scan_n, if_pos]
      congr 2
      funext p
      have h : ¬ (dest ≤ p ∧ p < dest + 0) := by omega
      rw [if_neg h]
  | cons x rest ih =>
      intro count dest init m h
      rw [sequential_inclusive_scan_n]
      by_cases h0 : count = 0
      · subst h0
        rw [if_pos rfl]
        congr 2
        funext p
        have h : ¬ (dest ≤ p ∧ p < dest + 0) := by omega
        rw [if_neg h]
      · obtain ⟨c, rfl⟩ : ∃ c, count = c + 1 := ⟨count - 1, by omega⟩
        have hc : c ≤ rest.length := by simpa using h
        rw [if_neg h0, Nat.add_sub_cancel, ih c (dest + 1) (op init x) _ hc]
        simp only [List.take_succ_cons, List.foldl_cons]
        congr 2
        funext p
        exact scan_step_pointwise op x init rest dest c m p

theorem loop_n_write_spec (op : T → T → T) (val : T) :
    ∀ (n d : Nat) (m : Mem T),
      loop_n (fun it (s : Mem T) => s.write it (op val (s it))) d n m =
        fun p => if d ≤ p ∧ p < d + n then op val (m p) else m p := by
  intro n
  induction n with
  | zero =>
      intro d m
      funext p
      have h : ¬ (d ≤ p ∧ p < d + 0) := by omega
      simp only [loop_n]
      rw [if_neg h]
  | succ n ih =>
      intro d m
      rw [loop_n, ih]
      funext p
      by_cases h1 : p = d
      · subst h1
        have h2 : ¬ (p + 1 ≤ p ∧ p < p + 1 + n) := by omega
        have h3 : p ≤ p ∧ p < p + (n + 1) := by omega
        rw [if_neg h2, if_pos h3]
        simp [Mem.write]
      · by_cases h2 : d + 1 ≤ p ∧ p < d + 1 + n
        · have h3 : d ≤ p ∧ p < d + (n + 1) := by omega
          rw [if_pos h2, if_pos h3]
          simp [Mem.write, h1]
        · have h3 : ¬ (d ≤ p ∧ p < d + (n + 1)) := by omega
          rw [if_neg h2, if_neg h3]
          simp [Mem.write, h1]

theorem inclusive_scan_step1_spec (op : T → T → T) (a : T) (rest : List T)
    (d s : Nat) (m : Mem T) (hs : 0 < s) (hle : s ≤ rest.length + 1)
    (hsz : s < size_t_mod) :
    inclusive_scan_step1 op ⟨a :: rest, d⟩ s m =
      some (List.foldl op a (rest.take (s - 1)),
        fun p => if d ≤ p ∧ p < d + s
          then List.foldl op a (rest.take (p - d)) else m p) := by
  obtain ⟨c, rfl⟩ : ∃ c, s = c + 1 := ⟨s - 1, by omega⟩
  have hmod : (c + 1 + (size_t_mod - 1)) % size_t_mod = c := by
    have hpos : 0 < size_t_mod := Nat.pow_pos (by decide)
    generalize size_t_mod = M at hsz hpos
    have hsum : c + 1 + (M - 1) = c + M := by omega
    rw [hsum, Nat.add_mod_right, Nat.mod_eq_of_lt (by omega)]
  cases rest with
  | nil =>
      have hc : c = 0 := by simpa using hle
      subst hc
      simp only [inclusive_scan_step1]
      congr 2
      funext p
      by_cases h1 : p = d
      · subst h1
        simp [Mem.write]
      · have h3 : ¬ (d ≤ p ∧ p < d + (0 + 1)) := by omega
        rw [if_neg h3]
        simp [Mem.write, h1]
  | cons b r =>
      simp only [inclusive_scan_step1]
      rw [hmod, sequential_inclusive_scan_n_spec op (b :: r) c (d + 1) a _
        (by simpa using hle)]
      refine congrArg some (Prod.ext ?_ ?_)
      · simp only [Nat.add_sub_cancel]
      · funext p
        show (if d + 1 ≤ p ∧ p < d + 1 + c
            then List.foldl op a (List.take (p - (d + 1) + 1) (b :: r))
            else m.write d a p) =
          (if d ≤ p ∧ p < d + (c + 1)
            then List.foldl op a (List.take (p - d) (b :: r)) else m p)
        by_cases h1 : p = d
        · subst h1
          have h2 : ¬ (p + 1 ≤ p ∧ p < p + 1 + c) := by omega
          have h3 : p ≤ p ∧ p < p + (c + 1) := by omega
          rw [if_neg h2, if_pos h3]
          simp [Mem.write]
        · by_cases h2 : d + 1 ≤ p ∧ p < d + 1 + c
          · have h3 : d ≤ p ∧ p < d + (c + 1) := by omega
            have h4 : p - (d + 1) + 1 = p - d := by omega
            rw [if_pos h2, if_pos h3, h4]
          · have h3 : ¬ (d ≤ p ∧ p < d + (c + 1)) := by omega
            rw [if_neg h2, if_neg h3]
            simp [Mem.write, h1]

theorem scan_pipeline_spec (op : T → T → T)
    (hassoc : ∀ a b c, op (op a b) c = op a (op b c)) :
    ∀ (sizes : List Nat) (src : List T) (d : Nat) (m : Mem T),
      (∀ s ∈ sizes, 0 < s) → sizes.sum ≤ src.length → src.length < size_t_mod →
      ∃ totals m1,
        scan_stage1 (inclusive_scan_step1 op) ⟨src, d⟩ sizes m = some (totals, m1) ∧
        (∀ p, ¬ (d ≤ p ∧ p < d + sizes.sum) → m1 p = m p) ∧
        ∀ (acc : T) (m' : Mem T), (∀ p, d ≤ p ∧ p < d + sizes.sum → m' p = m1 p) →
          ∀ p, scan_stage3 (inclusive_scan_f3 op) ⟨src, d⟩ sizes
                (scan_stage2 op acc totals) m' p =
            if d ≤ p ∧ p < d + sizes.sum
              then List.foldl op acc (src.take (p - d + 1)) else m' p := by
  intro sizes
  induction sizes with
  | nil =>
      intro src d m _ _ _
      refine ⟨[], m, rfl, fun _ _ => rfl, ?_⟩
      intro acc m' _ p
      have h : ¬ (d ≤ p ∧ p < d + ([] : List Nat).sum) := by simp
      rw [if_neg h]
      rfl
  | cons s ss ih =>
      intro src d m hpos hsum hsz
      have hs : 0 < s := hpos s (List.mem_cons_self _ _)
      have hpos' : ∀ x ∈ ss, 0 < x := fun x hx => hpos x (List.mem_cons_of_mem _ hx)
      rw [List.sum_cons] at hsum
      cases src with
      | nil => simp at hsum; omega
      | cons a rest =>
          have hlen : (a :: rest).length = rest.length + 1 := rfl
          have h1 := inclusive_scan_step1_spec op a rest d s m hs (by omega) (by omega)
          obtain ⟨totals, m1, hst, hframe, h3⟩ :=
            ih ((a :: rest).drop s) (d + s)
              (fun p => if d ≤ p ∧ p < d + s
                then List.foldl op a (rest.take (p - d)) else m p) hpos'
              (by rw [List.length_drop]; omega) (by rw [List.length_drop]; omega)
          refine ⟨List.foldl op a (rest.take (s - 1)) :: totals, m1, ?_, ?_, ?_⟩
          · rw [scan_stage1, h1]
            simp only [zip_iterator.advance]
            rw [hst]
          · intro p hp
            rw [List.sum_cons] at hp
            rw [hframe p (by omega)]
            have h : ¬ (d ≤ p ∧ p < d + s) := by omega
            simp only [if_neg h]
          · intro acc m' hm' p
            rw [List.sum_cons] at hm' ⊢
            rw [scan_stage2, scan_stage3]
            simp only [zip_iterator.advance]
            have hf3 : inclusive_scan_f3 op ⟨a :: rest, d⟩ s acc m' =
                fun p => if d ≤ p ∧ p < d + s then op acc (m' p) else m' p :=
              loop_n_write_spec op acc s d m'
            rw [hf3, h3 (op acc (List.foldl op a (rest.take (s - 1)))) _ ?_ p]
            · by_cases hin : d + s ≤ p ∧ p < d + s + ss.sum
              · have hin' : d ≤ p ∧ p < d + (s + ss.sum) := by omega
                rw [if_pos hin, if_pos hin', foldl_assoc_shift op hassoc]
                have htake : List.foldl op (op acc a) (rest.take (s - 1)) =
                    List.foldl op acc ((a :: rest).take s) := by
                  obtain ⟨c, rfl⟩ : ∃ c, s = c + 1 := ⟨s - 1, by omega⟩
                  simp
                have hk : p - d + 1 = s + (p - (d + s) + 1) := by omega
                rw [htake, hk, ← List.foldl_append, ← List.take_add]
              · by_cases hin' : d ≤ p ∧ p < d + s
                · have hin'' : d ≤ p ∧ p < d + (s + ss.sum) := by omega
                  rw [if_neg hin, if_pos hin'', if_pos hin', hm' p hin'',
                    hframe p (by omega), if_pos hin', foldl_assoc_shift op hassoc]
                  have hk : p - d + 1 = (p - d) + 1 := rfl
                  rw [List.take_succ_cons, List.foldl_cons]
                · have hin'' : ¬ (d ≤ p ∧ p < d + (s + ss.sum)) := by omega
                  rw [if_neg hin, if_neg hin'', if_neg hin']
            · intro q hq
              have hq' : ¬ (d ≤ q ∧ q < d + s) := by omega
              rw [if_neg hq']
              exact hm' q (by omega)

theorem scanl_getElem_fold (op : T → T → T) :
    ∀ (xs : List T) (init : T) (i : Nat) (h : i < (List.scanl op init xs).length),
      (List.scanl op init xs)[i] = List.foldl op init (xs.take i) := by
  intro xs
  induction xs with
  | nil =>
      intro init i h
      simp at h
      subst h
      simp
  | cons x rest ih =>
      intro init i h
      cases i with
      | zero => simp
      | succ j =>
          simp only [List.scanl_cons, List.take_succ_cons, List.foldl_cons]
          simp only [List.singleton_append, List.getElem_cons_succ]
          exact ih (op init x) j _

theorem read_eq_prefix_scan (op : T → T → T) (xs : List T) (init : T) (dest : Nat)
    (m : Mem T)
    (hm : ∀ i, i < xs.length → m (dest + i) = List.foldl op init (xs.take (i + 1))) :
    m.read dest xs.length = (List.scanl op init xs).tail := by
  apply List.ext_getElem
  · simp [Mem.read, List.length_scanl]
  · intro i h1 h2
    have hi : i < xs.length := by simpa [Mem.read] using h1
    simp only [Mem.read, List.getElem_map, List.getElem_range, List.getElem_tail]
    rw [hm i hi, scanl_getElem_fold]

theorem sequential_inclusive_scan_left_fold_aux (op : T → T → T) (init : T)
    (xs : List T) (dest : Nat) (m : Mem T) :
    (sequential_inclusive_scan op xs dest init m).2.read dest xs.length =
      (List.scanl op init xs).tail := by
  apply read_eq_prefix_scan
  intro i hi
  rw [sequential_inclusive_scan_spec]
  have h : dest ≤ dest + i ∧ dest + i < dest + xs.length := by omega
  simp only [if_pos h, Nat.add_sub_cancel_left]

/-- C7: for any binary operator (associativity is not used), any initial value
and any input, the sequential inclusive scan with an initial value ends at
`{last, dest + n}`, stores at `dest + i` the left fold
`op(...op(op(init, x1), x2)..., x(i+1))` for every `i < n`, so that the `n`
destination values read `[op(init,x1), op(op(init,x1),x2), ...]`, and leaves
every other position of the destination store as it was. -/
theorem sequential_inclusive_scan_left_fold (op : T → T → T) (init : T)
    (xs : List T) (dest : Nat) (m : Mem T) :
    (sequential_inclusive_scan op xs dest init m).1.in_iter = [] ∧
    (sequential_inclusive_scan op xs dest init m).1.out_iter = dest + xs.length ∧
    (∀ i, i < xs.length →
      (sequential_inclusive_scan op xs dest init m).2 (dest + i) =
        List.foldl op init (xs.take (i + 1))) ∧
    (sequential_inclusive_scan op xs dest init m).2.read dest xs.length =
      (List.scanl op init xs).tail ∧
    (∀ p, p < dest ∨ dest + xs.length ≤ p →
      (sequential_inclusive_scan op xs dest init m).2 p = m p) := by
  have hpt : ∀ i, i < xs.length →
      (sequential_inclusive_scan op xs dest init m).2 (dest + i) =
        List.foldl op init (xs.take (i + 1)) := by
    intro i hi
    rw [sequential_inclusive_scan_spec]
    have h : dest ≤ dest + i ∧ dest + i < dest + xs.length := by omega
    simp only [if_pos h, Nat.add_sub_cancel_left]
  refine ⟨?_, ?_, hpt, read_eq_prefix_scan op xs init dest _ hpt, ?_⟩
  · rw [sequential_inclusive_scan_spec]
  · rw [sequential_inclusive_scan_spec]
  · intro p hp
    rw [sequential_inclusive_scan_spec]
    have h : ¬ (dest ≤ p ∧ p < dest + xs.length) := by omega
    simp only [if_neg h]

/-- The scan over one value type (input, running value and destination all of
type `T`): for an associative operator, any initial value, any input of fewer
than `2 ^ 64` elements and any division of the input into consecutive
non-empty chunks, the parallel inclusive scan (step 1 on every chunk, the
chunk totals combined left to right from `init`, `f3` on every chunk with its
offset) yields exactly the result of the sequential inclusive scan, and the
destination reads `[op(init,x1), op(op(init,x1),x2), ...]`, whatever the
chunking. -/
theorem inclusive_scan_parallel_eq_sequential (op : T → T → T)
    (hassoc : ∀ a b c, op (op a b) c = op a (op b c)) (init : T) (xs : List T)
    (sizes : List Nat) (hlen : xs.length < size_t_mod)
    (hch : is_chunking xs.length sizes) (dest : Nat) (m : Mem T) :
    ∃ r, inclusive_scan_parallel op xs dest init sizes m = some r ∧
      r = sequential_inclusive_scan op xs dest init m ∧
      r.2.read dest xs.length = (List.scanl op init xs).tail := by
  refine ⟨sequential_inclusive_scan op xs dest init m, ?_, rfl,
    (sequential_inclusive_scan_left_fold_aux op init xs dest m)⟩
  obtain ⟨hpos, hsum⟩ := hch
  cases xs with
  | nil =>
      simp [inclusive_scan_parallel, sequential_inclusive_scan]
  | cons a rest =>
      obtain ⟨totals, m1, hst, hframe, h3⟩ :=
        scan_pipeline_spec op hassoc sizes (a :: rest) dest m hpos (by omega) hlen
      simp only [inclusive_scan_parallel, scan_partitioner_call]
      rw [hst, sequential_inclusive_scan_spec]
      refine congrArg some (Prod.ext ?_ ?_)
      · simp
      · funext p
        have := h3 init m1 (fun _ _ => rfl) p
        rw [hsum] at this
        show scan_stage3 (inclusive_scan_f3 op) ⟨a :: rest, dest⟩ sizes
            (scan_stage2 op init totals) m1 p =
          (if dest ≤ p ∧ p < dest + (a :: rest).length
            then List.foldl op init (List.take (p - dest + 1) (a :: rest)) else m p)
        rw [this]
        by_cases hin : dest ≤ p ∧ p < dest + (a :: rest).length
        · rw [if_pos hin, if_pos hin]
        · rw [if_neg hin, if_neg hin]
          exact hframe p (by rw [hsum]; exact hin)

/-- The example of the specification for the scan over one value type:
`op = +`, `init = 0`, input `[1,2,3,4,5,6]`, two chunks of size 3. -/
theorem inclusive_scan_parallel_eq_sequential_witness :
    ∃ r, inclusive_scan_parallel (fun a b : Nat => a + b) [1, 2, 3, 4, 5, 6] 0 0 [3, 3]
        (fun _ => 0) = some r ∧
      r = sequential_inclusive_scan (fun a b : Nat => a + b) [1, 2, 3, 4, 5, 6] 0 0
        (fun _ => 0) ∧
      r.2.read 0 6 = [1, 3, 6, 10, 15, 21] :=
  inclusive_scan_parallel_eq_sequential (fun a b : Nat => a + b)
    (fun a b c => Nat.add_assoc a b c) 0 [1, 2, 3, 4, 5, 6] [3, 3] (by decide)
    ⟨by decide, by decide⟩ 0 (fun _ => 0)

theorem scan_stage3_frame (op : T → T → T) :
    ∀ (sizes : List Nat) (offs : List T) (it : zip_iterator T) (m : Mem T) (p : Nat),
      ¬ (it.dst ≤ p ∧ p < it.dst + sizes.sum) →
      scan_stage3 (inclusive_scan_f3 op) it sizes offs m p = m p := by
  intro sizes
  induction sizes with
  | nil => intro offs it m p _; cases offs <;> rfl
  | cons s ss ih =>
      intro offs it m p hp
      cases offs with
      | nil => rfl
      | cons o os =>
          rw [List.sum_cons] at hp
          rw [scan_stage3, ih os (it.advance s) _ p
            (by simp only [zip_iterator.advance]; omega)]
          have hf3 : inclusive_scan_f3 op it s o m =
              fun q => if it.dst ≤ q ∧ q < it.dst + s then op o (m q) else m q :=
            loop_n_write_spec op o s it.dst m
          rw [hf3]
          have h : ¬ (it.dst ≤ p ∧ p < it.dst + s) := by omega
          simp only [if_neg h]

theorem scan_stage3_local (op : T → T → T) :
    ∀ (sizes : List Nat) (offs : List T) (it : zip_iterator T) (m m0 : Mem T),
      (∀ p, it.dst ≤ p ∧ p < it.dst + sizes.sum → m p = m0 p) →
      ∀ p, it.dst ≤ p ∧ p < it.dst + sizes.sum →
        scan_stage3 (inclusive_scan_f3 op) it sizes offs m p =
          scan_stage3 (inclusive_scan_f3 op) it sizes offs m0 p := by
  intro sizes
  induction sizes with
  | nil =>
      intro offs it m m0 h p hp
      simp at hp
      omega
  | cons s ss ih =>
      intro offs it m m0 h p hp
      cases offs with
      | nil => exact h p hp
      | cons o os =>
          rw [List.sum_cons] at h hp
          have hf3 : ∀ x : Mem T, inclusive_scan_f3 op it s o x =
              fun q => if it.dst ≤ q ∧ q < it.dst + s then op o (x q) else x q :=
            fun x => loop_n_write_spec op o s it.dst x
          have hagree : ∀ q, it.dst ≤ q ∧ q < it.dst + (s + ss.sum) →
              inclusive_scan_f3 op it s o m q = inclusive_scan_f3 op it s o m0 q := by
            intro q hq
            rw [hf3 m, hf3 m0]
            simp only [h q hq]
          simp only [scan_stage3]
          by_cases hin : it.dst + s ≤ p
          · exact ih os (it.advance s) _ _
              (fun q hq => hagree q (by simp only [zip_iterator.advance] at hq; omega)) p
              (by simp only [zip_iterator.advance]; omega)
          · rw [scan_stage3_frame op ss os (it.advance s) _ p
                (by simp only [zip_iterator.advance]; omega),
              scan_stage3_frame op ss os (it.advance s) _ p
                (by simp only [zip_iterator.advance]; omega)]
            exact hagree p hp

/-- Stage 1 over a valid chunking, for any operator: it succeeds, writes only
inside the destination range, and neither the totals nor the values it leaves
inside the range depend on what the store held before. -/
theorem scan_stage1_frame (op : T → T → T) :
    ∀ (sizes : List Nat) (src : List T) (d : Nat),
      (∀ s ∈ sizes, 0 < s) → sizes.sum ≤ src.length → src.length < size_t_mod →
      ∃ totals, ∀ (m m0 : Mem T), ∃ m1 m1',
        scan_stage1 (inclusive_scan_step1 op) ⟨src, d⟩ sizes m = some (totals, m1) ∧
        scan_stage1 (inclusive_scan_step1 op) ⟨src, d⟩ sizes m0 = some (totals, m1') ∧
        (∀ p, ¬ (d ≤ p ∧ p < d + sizes.sum) → m1 p = m p) ∧
        (∀ p, ¬ (d ≤ p ∧ p < d + sizes.sum) → m1' p = m0 p) ∧
        (∀ p, d ≤ p ∧ p < d + sizes.sum → m1 p = m1' p) := by
  intro sizes
  induction sizes with
  | nil =>
      intro src d _ _ _
      refine ⟨[], fun m m0 => ⟨m, m0, rfl, rfl, fun _ _ => rfl, fun _ _ => rfl, ?_⟩⟩
      intro p hp
      simp at hp
      omega
  | cons s ss ih =>
      intro src d hpos hsum hsz
      have hs : 0 < s := hpos s (List.mem_cons_self _ _)
      have hpos' : ∀ x ∈ ss, 0 < x := fun x hx => hpos x (List.mem_cons_of_mem _ hx)
      rw [List.sum_cons] at hsum
      cases src with
      | nil => simp at hsum; omega
      | cons a rest =>
          have hlen : (a :: rest).length = rest.length + 1 := rfl
          obtain ⟨totals, hih⟩ := ih ((a :: rest).drop s) (d + s) hpos'
            (by rw [List.length_drop]; omega) (by rw [List.length_drop]; omega)
          refine ⟨List.foldl op a (rest.take (s - 1)) :: totals, ?_⟩
          intro m m0
          have h1 := inclusive_scan_step1_spec op a rest d s m hs (by omega) (by omega)
          have h2 := inclusive_scan_step1_spec op a rest d s m0 hs (by omega) (by omega)
          obtain ⟨m1, m1', hst, hst', hfr, hfr', hin⟩ := hih
            (fun p => if d ≤ p ∧ p < d + s
              then List.foldl op a (rest.take (p - d)) else m p)
            (fun p => if d ≤ p ∧ p < d + s
              then List.foldl op a (rest.take (p - d)) else m0 p)
          refine ⟨m1, m1', ?_, ?_, ?_, ?_, ?_⟩
          · rw [scan_stage1, h1]
            simp only [zip_iterator.advance]
            rw [hst]
          · rw [scan_stage1, h2]
            simp only [zip_iterator.advance]
            rw [hst']
          · intro p hp
            rw [List.sum_cons] at hp
            rw [hfr p (by omega)]
            have h : ¬ (d ≤ p ∧ p < d + s) := by omega
            simp only [if_neg h]
          · intro p hp
            rw [List.sum_cons] at hp
            rw [hfr' p (by omega)]
            have h : ¬ (d ≤ p ∧ p < d + s) := by omega
            simp only [if_neg h]
          · intro p hp
            rw [List.sum_cons] at hp
            by_cases htail : d + s ≤ p
            · exact hin p (by omega)
            · rw [hfr p (by omega), hfr' p (by omega)]
              have h : d ≤ p ∧ p < d + s := by omega
              simp only [if_pos h]

/-- C12: for an input of `n` elements both strategies of `inclusive_scan` end
at the pair `(last, dest + n)`, leave every position outside `[dest, dest + n)`
as it was and overwrite every position inside (what it holds afterwards does
not depend on what the store held before). For the parallel strategy the
input has fewer than `2 ^ 64` elements and is divided into non-empty chunks;
the operator need not be associative. -/
theorem inclusive_scan_returns_end (op : T → T → T) (init : T) (xs : List T)
    (sizes : List Nat) (hlen : xs.length < size_t_mod)
    (hch : is_chunking xs.length sizes) (dest : Nat) (m m0 : Mem T) :
    ((sequential_inclusive_scan op xs dest init m).1 = ⟨[], dest + xs.length⟩ ∧
      (∀ p, ¬ (dest ≤ p ∧ p < dest + xs.length) →
        (sequential_inclusive_scan op xs dest init m).2 p = m p) ∧
      (∀ p, dest ≤ p ∧ p < dest + xs.length →
        (sequential_inclusive_scan op xs dest init m).2 p =
          (sequential_inclusive_scan op xs dest init m0).2 p)) ∧
    ∃ r r0, inclusive_scan_parallel op xs dest init sizes m = some r ∧
      inclusive_scan_parallel op xs dest init sizes m0 = some r0 ∧
      r.1 = ⟨[], dest + xs.length⟩ ∧
      (∀ p, ¬ (dest ≤ p ∧ p < dest + xs.length) → r.2 p = m p) ∧
      (∀ p, dest ≤ p ∧ p < dest + xs.length → r.2 p = r0.2 p) := by
  refine ⟨⟨?_, ?_, ?_⟩, ?_⟩
  · rw [sequential_inclusive_scan_spec]
  · intro p hp
    rw [sequential_inclusive_scan_spec]
    simp only [if_neg hp]
  · intro p hp
    rw [sequential_inclusive_scan_spec, sequential_inclusive_scan_spec]
    simp only [if_pos hp]
  · obtain ⟨hpos, hsum⟩ := hch
    cases xs with
    | nil =>
        refine ⟨(⟨[], dest⟩, m), (⟨[], dest⟩, m0), rfl, rfl, rfl, fun _ _ => rfl, ?_⟩
        intro p hp
        simp at hp
        omega
    | cons a rest =>
        obtain ⟨totals, hst⟩ :=
          scan_stage1_frame op sizes (a :: rest) dest hpos (by omega) hlen
        obtain ⟨m1, m1', h1, h1', hfr, _, hin⟩ := hst m m0
        refine ⟨(⟨[], dest + (a :: rest).length⟩,
            scan_stage3 (inclusive_scan_f3 op) ⟨a :: rest, dest⟩ sizes
              (scan_stage2 op init totals) m1),
          (⟨[], dest + (a :: rest).length⟩,
            scan_stage3 (inclusive_scan_f3 op) ⟨a :: rest, dest⟩ sizes
              (scan_stage2 op init totals) m1'), ?_, ?_, rfl, ?_, ?_⟩
        · simp only [inclusive_scan_parallel, scan_partitioner_call]
          rw [h1]
          simp
        · simp only [inclusive_scan_parallel, scan_partitioner_call]
          rw [h1']
          simp
        · intro p hp
          show scan_stage3 (inclusive_scan_f3 op) ⟨a :: rest, dest⟩ sizes
            (scan_stage2 op init totals) m1 p = m p
          rw [scan_stage3_frame op sizes _ ⟨a :: rest, dest⟩ m1 p (by rw [hsum]; exact hp)]
          exact hfr p (by rw [hsum]; exact hp)
        · intro p hp
          exact scan_stage3_local op sizes _ ⟨a :: rest, dest⟩ m1 m1'
            (fun q hq => hin q hq) p (by rw [hsum]; exact hp)

/-- C12 at a concrete input: `[1, 2, 3]` scanned with subtraction from 0 into
position 4, the parallel strategy with the chunks `[1]` and `[2, 3]`. -/
theorem inclusive_scan_returns_end_witness :
    ((sequential_inclusive_scan (fun a b : Int => a - b) [1, 2, 3] 4 0 (fun _ => 7)).1 =
        ⟨[], 4 + 3⟩ ∧
      (∀ p, ¬ (4 ≤ p ∧ p < 4 + 3) →
        (sequential_inclusive_scan (fun a b : Int => a - b) [1, 2, 3] 4 0 (fun _ => 7)).2 p
          = (fun _ => 7) p) ∧
      (∀ p, 4 ≤ p ∧ p < 4 + 3 →
        (sequential_inclusive_scan (fun a b : Int => a - b) [1, 2, 3] 4 0 (fun _ => 7)).2 p =
          (sequential_inclusive_scan (fun a b : Int => a - b) [1, 2, 3] 4 0
            (fun _ => 9)).2 p)) ∧
    ∃ r r0, inclusive_scan_parallel (fun a b : Int => a - b) [1, 2, 3] 4 0 [1, 2]
        (fun _ => 7) = some r ∧
      inclusive_scan_parallel (fun a b : Int => a - b) [1, 2, 3] 4 0 [1, 2]
        (fun _ => 9) = some r0 ∧
      r.1 = ⟨[], 4 + 3⟩ ∧
      (∀ p, ¬ (4 ≤ p ∧ p < 4 + 3) → r.2 p = (fun _ => 7) p) ∧
      (∀ p, 4 ≤ p ∧ p < 4 + 3 → r.2 p = r0.2 p) :=
  inclusive_scan_returns_end (fun a b : Int => a - b) 0 [1, 2, 3] [1, 2] (by decide)
    ⟨by decide, by decide⟩ 4 (fun _ => 7) (fun _ => 9)

/-- C14: on an empty input the parallel `inclusive_scan`, with or without an
initial value, returns the pair `(first, dest)` with the store untouched,
whatever chunks the partitioner would have formed; none of the stages runs,
for stage 1 on a chunk of an empty input has no result. -/
theorem inclusive_scan_parallel_empty (op : T → T → T) (init : T) (dest : Nat)
    (sizes : List Nat) (m : Mem T) :
    inclusive_scan_parallel op [] dest init sizes m = some (⟨[], dest⟩, m) ∧
    inclusive_scan_parallel_noinit op [] dest sizes m = some (⟨[], dest⟩, m) ∧
    (∀ s ss, scan_stage1 (inclusive_scan_step1 op) ⟨[], dest⟩ (s :: ss) m = none) :=
  ⟨rfl, rfl, fun _ _ => rfl⟩

/-- C19: subtraction is not associative, and for `init = 0` and the input
`[1, 2, 3]` the parallel `inclusive_scan` writes `[-1, 1, 4]` with one chunk
and `[-1, -3, 0]` with the chunks `[1]` and `[2, 3]`. -/
theorem inclusive_scan_parallel_chunk_dependent :
    ∃ (op : Int → Int → Int) (init : Int) (xs : List Int) (sizes sizes' : List Nat),
      (¬ ∀ a b c, op (op a b) c = op a (op b c)) ∧
      is_chunking xs.length sizes ∧ is_chunking xs.length sizes' ∧
      (inclusive_scan_parallel op xs 0 init sizes (fun _ => 0)).map
          (fun r => r.2.read 0 xs.length) = some [-1, 1, 4] ∧
      (inclusive_scan_parallel op xs 0 init sizes' (fun _ => 0)).map
          (fun r => r.2.read 0 xs.length) = some [-1, -3, 0] ∧
      (inclusive_scan_parallel op xs 0 init sizes (fun _ => 0)).map
          (fun r => r.2.read 0 xs.length) ≠
        (inclusive_scan_parallel op xs 0 init sizes' (fun _ => 0)).map
          (fun r => r.2.read 0 xs.length) := by
  refine ⟨fun a b => a - b, 0, [1, 2, 3], [3], [1, 2], ?_, ⟨by decide, by decide⟩,
    ⟨by decide, by decide⟩, by decide, by decide, by decide⟩
  intro h
  exact absurd (h 0 0 1) (by decide)

/-- C20: step 1 of the parallel `inclusive_scan` on a chunk `a :: c` of fewer
than `2 ^ 64` elements, whatever follows the chunk in the input: it returns
the fold of the operator over the chunk, which is the last value it wrote;
the chunk's destination reads the inclusive scan of the chunk's own elements,
starting with a copy of the first; no initial value takes part; nothing
outside the chunk's destination is written and nothing behind the chunk is
read. -/
theorem inclusive_scan_step1_local_scan (op : T → T → T) (a : T) (c rest : List T)
    (d : Nat) (m : Mem T) (hsz : c.length + 1 < size_t_mod) :
    ∃ m1, inclusive_scan_step1 op ⟨a :: c ++ rest, d⟩ (c.length + 1) m =
        some (List.foldl op a c, m1) ∧
      inclusive_scan_step1 op ⟨a :: c, d⟩ (c.length + 1) m = some (List.foldl op a c, m1) ∧
      m1.read d (c.length + 1) = List.scanl op a c ∧
      m1 (d + c.length) = List.foldl op a c ∧
      (∀ p, ¬ (d ≤ p ∧ p < d + (c.length + 1)) → m1 p = m p) := by
  have h1 := inclusive_scan_step1_spec op a (c ++ rest) d (c.length + 1) m
    (by omega) (by simp) hsz
  have h2 := inclusive_scan_step1_spec op a c d (c.length + 1) m
    (by omega) (by simp) hsz
  simp only [Nat.add_sub_cancel, List.take_left'] at h1
  simp only [Nat.add_sub_cancel, List.take_length] at h2
  have hpt : ∀ p, d ≤ p ∧ p < d + (c.length + 1) →
      List.foldl op a (List.take (p - d) (c ++ rest)) =
        List.foldl op a (List.take (p - d) c) := by
    intro p hp
    rw [List.take_append_of_le_length (by omega)]
  refine ⟨fun p => if d ≤ p ∧ p < d + (c.length + 1)
    then List.foldl op a (c.take (p - d)) else m p, ?_, ?_, ?_, ?_, ?_⟩
  · rw [List.cons_append, h1]
    refine congrArg some (Prod.ext rfl ?_)
    funext p
    by_cases hp : d ≤ p ∧ p < d + (c.length + 1)
    · simp only [if_pos hp, hpt p hp]
    · simp only [if_neg hp]
  · exact h2
  · apply List.ext_getElem
    · simp [Mem.read, List.length_scanl]
    · intro i hi1 hi2
      have hi : i < c.length + 1 := by simpa [Mem.read] using hi1
      simp only [Mem.read, List.getElem_map, List.getElem_range]
      have hin : d ≤ d + i ∧ d + i < d + (c.length + 1) := by omega
      rw [if_pos hin, Nat.add_sub_cancel_left, scanl_getElem_fold]
  · have hin : d ≤ d + c.length ∧ d + c.length < d + (c.length + 1) := by omega
    simp only [if_pos hin, Nat.add_sub_cancel_left, List.take_length]
  · intro p hp
    simp only [if_neg hp]

/-- C20 at a concrete input: the chunk `[2, 3]` of `[1, 2, 3, 4]` under
subtraction. -/
theorem inclusive_scan_step1_local_scan_witness :
    ∃ m1, inclusive_scan_step1 (fun a b : Int => a - b) ⟨2 :: [3] ++ [4], 1⟩ ([3].length + 1)
        (fun _ => 0) = some (List.foldl (fun a b : Int => a - b) 2 [3], m1) ∧
      inclusive_scan_step1 (fun a b : Int => a - b) ⟨2 :: [3], 1⟩ ([3].length + 1)
        (fun _ => 0) = some (List.foldl (fun a b : Int => a - b) 2 [3], m1) ∧
      m1.read 1 ([3].length + 1) = List.scanl (fun a b : Int => a - b) 2 [3] ∧
      m1 (1 + [3].length) = List.foldl (fun a b : Int => a - b) 2 [3] ∧
      (∀ p, ¬ (1 ≤ p ∧ p < 1 + ([3].length + 1)) → m1 p = (fun _ => 0) p) :=
  inclusive_scan_step1_local_scan (fun a b : Int => a - b) 2 [3] [4] 1 (fun _ => 0)
    (by decide)

end InclusiveScanProofs

section InclusiveScanTypedProofs

variable {I T D : Type}

theorem sequential_inclusive_scan_typed_id (op : T → T → T) :
    ∀ (xs : List T) (dest : Nat) (init : T) (m : Mem T),
      sequential_inclusive_scan_typed (fun x => x) (fun t => t) op xs dest init m =
        sequential_inclusive_scan op xs dest init m := by
  intro xs
  induction xs with
  | nil => intro dest init m; rfl
  | cons x rest ih =>
      intro dest init m
      rw [sequential_inclusive_scan_typed, sequential_inclusive_scan, ih]

theorem sequential_inclusive_scan_n_typed_id (op : T → T → T) :
    ∀ (xs : List T) (count dest : Nat) (init : T) (m : Mem T),
      sequential_inclusive_scan_n_typed (fun x => x) (fun t => t) op xs count dest init m =
        sequential_inclusive_scan_n op xs count dest init m := by
  intro xs
  induction xs with
  | nil => intro count dest init m; rfl
  | cons x rest ih =>
      intro count dest init m
      rw [sequential_inclusive_scan_n_typed, sequential_inclusive_scan_n, ih]

theorem inclusive_scan_step1_typed_id (op : T → T → T) (it : zip_iterator T) (s : Nat)
    (m : Mem T) :
    inclusive_scan_step1_typed (fun x => x) (fun t => t) op it s m =
      inclusive_scan_step1 op it s m := by
  unfold inclusive_scan_step1_typed inclusive_scan_step1
  cases it.src with
  | nil => rfl
  | cons a rest =>
      cases rest with
      | nil => rfl
      | cons b r =>
          simp only []
          rw [sequential_inclusive_scan_n_typed_id]

/-- With input, running value and destination of one type and no conversion,
the parallel scan with the value types kept apart is the parallel scan over
one type. -/
theorem inclusive_scan_parallel_typed_id (op : T → T → T) (xs : List T) (dest : Nat)
    (init : T) (sizes : List Nat) (m : Mem T) :
    inclusive_scan_parallel_typed (fun x => x) (fun d => d) (fun t => t) op xs dest init
        sizes m =
      inclusive_scan_parallel op xs dest init sizes m := by
  have h1 : inclusive_scan_step1_typed (fun x : T => x) (fun t : T => t) op =
      inclusive_scan_step1 op := by
    funext it s m
    exact inclusive_scan_step1_typed_id op it s m
  have h3 : inclusive_scan_f3_typed (I := T) (fun d : T => d) (fun t : T => t) op =
      inclusive_scan_f3 op := rfl
  unfold inclusive_scan_parallel_typed inclusive_scan_parallel
  rw [h1, h3]

theorem foldl_assoc_shift_typed (op : T → T → T) (inp : I → T)
    (hassoc : ∀ a b c, op (op a b) c = op a (op b c)) (acc : T) :
    ∀ (l : List I) (a : T),
      op acc (List.foldl (fun t x => op t (inp x)) a l) =
        List.foldl (fun t x => op t (inp x)) (op acc a) l := by
  intro l
  induction l with
  | nil => intro a; rfl
  | cons b l ih =>
      intro a
      simp only [List.foldl_cons]
      rw [ih (op a (inp b)), hassoc]

theorem scan_step_pointwise_typed (opi : T → I → T) (store : T → D) (x : I) (init : T)
    (rest : List I) (dest n : Nat) (m : Mem D) (p : Nat) :
    (if dest + 1 ≤ p ∧ p < dest + 1 + n
      then store (List.foldl opi (opi init x) (rest.take (p - (dest + 1) + 1)))
      else (m.write dest (store (opi init x))) p) =
    (if dest ≤ p ∧ p < dest + (n + 1)
      then store (List.foldl opi init ((x :: rest).take (p - dest + 1))) else m p) := by
  by_cases h1 : p = dest
  · subst h1
    have h2 : ¬ (p + 1 ≤ p ∧ p < p + 1 + n) := by omega
    have h3 : p ≤ p ∧ p < p + (n + 1) := by omega
    rw [if_neg h2, if_pos h3]
    simp [Mem.write]
  · by_cases h2 : dest + 1 ≤ p ∧ p < dest + 1 + n
    · have h3 : dest ≤ p ∧ p < dest + (n + 1) := by omega
      have h4 : p - dest + 1 = (p - (dest + 1) + 1) + 1 := by omega
      rw [if_pos h2, if_pos h3, h4, List.take_succ_cons, List.foldl_cons]
    · have h3 : ¬ (dest ≤ p ∧ p < dest + (n + 1)) := by omega
      rw [if_neg h2, if_neg h3]
      simp [Mem.write, h1]

theorem sequential_inclusive_scan_typed_spec (inp : I → T) (store : T → D)
    (op : T → T → T) :
    ∀ (xs : List I) (dest : Nat) (init : T) (m : Mem D),
      sequential_inclusive_scan_typed inp store op xs dest init m =
        (⟨[], dest + xs.length⟩,
          fun p => if dest ≤ p ∧ p < dest + xs.length
            then store (List.foldl (fun t x => op t (inp x)) init (xs.take (p - dest + 1)))
            else m p) := by
  intro xs
  induction xs with
  | nil =>
      intro dest init m
      refine Prod.ext rfl ?_
      funext p
      have h : ¬ (dest ≤ p ∧ p < dest + ([] : List I).length) := by simp
      simp only [sequential_inclusive_scan_typed]
      rw [if_neg h]
  | cons x rest ih =>
      intro dest init m
      rw [sequential_inclusive_scan_typed, ih]
      refine Prod.ext ?_ ?_
      · simp only [List.length_cons]
        congr 1
        omega
      · funext p
        exact scan_step_pointwise_typed (fun t x => op t (inp x)) store x init rest dest
          rest.length m p

theorem sequential_inclusive_scan_n_typed_spec (inp : I → T) (store : T → D)
    (op : T → T → T) :
    ∀ (xs : List I) (count dest : Nat) (init : T) (m : Mem D), count ≤ xs.length →
      sequential_inclusive_scan_n_typed inp store op xs count dest init m =
        some (List.foldl (fun t x => op t (inp x)) init (xs.take count),
          fun p => if dest ≤ p ∧ p < dest + count
            then store (List.foldl (fun t x => op t (inp x)) init (xs.take (p - dest + 1)))
            else m p) := by
  intro xs
  induction xs with
  | nil =>
      intro count dest init m h
      have h0 : count = 0 := by simpa using h
      subst h0
      simp only [sequential_inclusive_scan_n_typed, if_pos]
      congr 2
      funext p
      have h : ¬ (dest ≤ p ∧ p < dest + 0) := by omega
      rw [if_neg h]
  | cons x rest ih =>
      intro count dest init m h
      rw [sequential_inclusive_scan_n_typed]
      by_cases h0 : count = 0
      · subst h0
        rw [if_pos rfl]
        congr 2
        funext p
        have h : ¬ (dest ≤ p ∧ p < dest + 0) := by omega
        rw [if_neg h]
      · obtain ⟨c, rfl⟩ : ∃ c, count = c + 1 := ⟨count - 1, by omega⟩
        have hc : c ≤ rest.length := by simpa using h
        rw [if_neg h0, Nat.add_sub_cancel, ih c (dest + 1) (op init (inp x)) _ hc]
        simp only [List.take_succ_cons, List.foldl_cons]
        congr 2
        funext p
        exact scan_step_pointwise_typed (fun t x => op t (inp x)) store x init rest dest c
          m p

theorem loop_n_write_typed_spec (load : D → T) (store : T → D) (op : T → T → T)
    (val : T) :
    ∀ (n d : Nat) (m : Mem D),
      loop_n (fun it (s : Mem D) => s.write it (store (op val (load (s it))))) d n m =
        fun p => if d ≤ p ∧ p < d + n then store (op val (load (m p))) else m p := by
  intro n
  induction n with
  | zero =>
      intro d m
      funext p
      have h : ¬ (d ≤ p ∧ p < d + 0) := by omega
      simp only [loop_n]
      rw [if_neg h]
  | succ n ih =>
      intro d m
      rw [loop_n, ih]
      funext p
      by_cases h1 : p = d
      · subst h1
        have h2 : ¬ (p + 1 ≤ p ∧ p < p + 1 + n) := by omega
        have h3 : p ≤ p ∧ p < p + (n + 1) := by omega
        rw [if_neg h2, if_pos h3]
        simp [Mem.write]
      · by_cases h2 : d + 1 ≤ p ∧ p < d + 1 + n
        · have h3 : d ≤ p ∧ p < d + (n + 1) := by omega
          rw [if_pos h2, if_pos h3]
          simp [Mem.write, h1]
        · have h3 : ¬ (d ≤ p ∧ p < d + (n + 1)) := by omega
          rw [if_neg h2, if_neg h3]
          simp [Mem.write, h1]

theorem inclusive_scan_step1_typed_spec (inp : I → T) (store : T → D) (op : T → T → T)
    (a : I) (rest : List I) (d s : Nat) (m : Mem D) (hs : 0 < s)
    (hle : s ≤ rest.length + 1) (hsz : s < size_t_mod) :
    inclusive_scan_step1_typed inp store op ⟨a :: rest, d⟩ s m =
      some (List.foldl (fun t x => op t (inp x)) (inp a) (rest.take (s - 1)),
        fun p => if d ≤ p ∧ p < d + s
          then store (List.foldl (fun t x => op t (inp x)) (inp a) (rest.take (p - d)))
          else m p) := by
  obtain ⟨c, rfl⟩ : ∃ c, s = c + 1 := ⟨s - 1, by omega⟩
  have hmod : (c + 1 + (size_t_mod - 1)) % size_t_mod = c := by
    have hpos : 0 < size_t_mod := Nat.pow_pos (by decide)
    generalize size_t_mod = M at hsz hpos
    have hsum : c + 1 + (M - 1) = c + M := by omega
    rw [hsum, Nat.add_mod_right, Nat.mod_eq_of_lt (by omega)]
  cases rest with
  | nil =>
      have hc : c = 0 := by simpa using hle
      subst hc
      simp only [inclusive_scan_step1_typed]
      congr 2
      funext p
      by_cases h1 : p = d
      · subst h1
        simp [Mem.write]
      · have h3 : ¬ (d ≤ p ∧ p < d + (0 + 1)) := by omega
        rw [if_neg h3]
        simp [Mem.write, h1]
  | cons b r =>
      simp only [inclusive_scan_step1_typed]
      rw [hmod, sequential_inclusive_scan_n_typed_spec inp store op (b :: r) c (d + 1)
        (inp a) _ (by simpa using hle)]
      refine congrArg some (Prod.ext ?_ ?_)
      · simp only [Nat.add_sub_cancel]
      · funext p
        show (if d + 1 ≤ p ∧ p < d + 1 + c
            then store (List.foldl (fun t x => op t (inp x)) (inp a)
              (List.take (p - (d + 1) + 1) (b :: r)))
            else m.write d (store (inp a)) p) =
          (if d ≤ p ∧ p < d + (c + 1)
            then store (List.foldl (fun t x => op t (inp x)) (inp a)
              (List.take (p - d) (b :: r))) else m p)
        by_cases h1 : p = d
        · subst h1
          have h2 : ¬ (p + 1 ≤ p ∧ p < p + 1 + c) := by omega
          have h3 : p ≤ p ∧ p < p + (c + 1) := by omega
          rw [if_neg h2, if_pos h3]
          simp [Mem.write]
        · by_cases h2 : d + 1 ≤ p ∧ p < d + 1 + c
          · have h3 : d ≤ p ∧ p < d + (c + 1) := by omega
            have h4 : p - (d + 1) + 1 = p - d := by omega
            rw [if_pos h2, if_pos h3, h4]
          · have h3 : ¬ (d ≤ p ∧ p < d + (c + 1)) := by omega
            rw [if_neg h2, if_neg h3]
            simp [Mem.write, h1]

theorem scan_pipeline_typed_spec (inp : I → T) (load : D → T) (store : T → D)
    (op : T → T → T) (hassoc : ∀ a b c, op (op a b) c = op a (op b c))
    (hload : ∀ t, load (store t) = t) :
    ∀ (sizes : List Nat) (src : List I) (d : Nat) (m : Mem D),
      (∀ s ∈ sizes, 0 < s) → sizes.sum ≤ src.length → src.length < size_t_mod →
      ∃ totals m1,
        scan_stage1 (inclusive_scan_step1_typed inp store op) ⟨src, d⟩ sizes m =
          some (totals, m1) ∧
        (∀ p, ¬ (d ≤ p ∧ p < d + sizes.sum) → m1 p = m p) ∧
        ∀ (acc : T) (m' : Mem D), (∀ p, d ≤ p ∧ p < d + sizes.sum → m' p = m1 p) →
          ∀ p, scan_stage3 (inclusive_scan_f3_typed load store op) ⟨src, d⟩ sizes
                (scan_stage2 op acc totals) m' p =
            if d ≤ p ∧ p < d + sizes.sum
              then store (List.foldl (fun t x => op t (inp x)) acc (src.take (p - d + 1)))
              else m' p := by
  intro sizes
  induction sizes with
  | nil =>
      intro src d m _ _ _
      refine ⟨[], m, rfl, fun _ _ => rfl, ?_⟩
      intro acc m' _ p
      have h : ¬ (d ≤ p ∧ p < d + ([] : List Nat).sum) := by simp
      rw [if_neg h]
      rfl
  | cons s ss ih =>
      intro src d m hpos hsum hsz
      have hs : 0 < s := hpos s (List.mem_cons_self _ _)
      have hpos' : ∀ x ∈ ss, 0 < x := fun x hx => hpos x (List.mem_cons_of_mem _ hx)
      rw [List.sum_cons] at hsum
      cases src with
      | nil => simp at hsum; omega
      | cons a rest =>
          have hlen : (a :: rest).length = rest.length + 1 := rfl
          have h1 := inclusive_scan_step1_typed_spec inp store op a rest d s m hs
            (by omega) (by omega)
          obtain ⟨totals, m1, hst, hframe, h3⟩ :=
            ih ((a :: rest).drop s) (d + s)
              (fun p => if d ≤ p ∧ p < d + s
                then store (List.foldl (fun t x => op t (inp x)) (inp a)
                  (rest.take (p - d)))
                else m p) hpos'
              (by rw [List.length_drop]; omega) (by rw [List.length_drop]; omega)
          refine ⟨List.foldl (fun t x => op t (inp x)) (inp a) (rest.take (s - 1)) :: totals,
            m1, ?_, ?_, ?_⟩
          · rw [scan_stage1, h1]
            simp only [zip_iterator.advance]
            rw [hst]
          · intro p hp
            rw [List.sum_cons] at hp
            rw [hframe p (by omega)]
            have h : ¬ (d ≤ p ∧ p < d + s) := by omega
            simp only [if_neg h]
          · intro acc m' hm' p
            rw [List.sum_cons] at hm' ⊢
            rw [scan_stage2, scan_stage3]
            simp only [zip_iterator.advance]
            have hf3 : inclusive_scan_f3_typed load store op ⟨a :: rest, d⟩ s acc m' =
                fun p => if d ≤ p ∧ p < d + s then store (op acc (load (m' p))) else m' p :=
              loop_n_write_typed_spec load store op acc s d m'
            rw [hf3, h3 (op acc (List.foldl (fun t x => op t (inp x)) (inp a)
              (rest.take (s - 1)))) _ ?_ p]
            · by_cases hin : d + s ≤ p ∧ p < d + s + ss.sum
              · have hin' : d ≤ p ∧ p < d + (s + ss.sum) := by omega
                rw [if_pos hin, if_pos hin', foldl_assoc_shift_typed op inp hassoc]
                have htake : List.foldl (fun t x => op t (inp x)) (op acc (inp a))
                      (rest.take (s - 1)) =
                    List.foldl (fun t x => op t (inp x)) acc ((a :: rest).take s) := by
                  obtain ⟨c, rfl⟩ : ∃ c, s = c + 1 := ⟨s - 1, by omega⟩
                  simp
                have hk : p - d + 1 = s + (p - (d + s) + 1) := by omega
                rw [htake, hk, ← List.foldl_append, ← List.take_add]
              · by_cases hin' : d ≤ p ∧ p < d + s
                · have hin'' : d ≤ p ∧ p < d + (s + ss.sum) := by omega
                  rw [if_neg hin, if_pos hin'', if_pos hin', hm' p hin'',
                    hframe p (by omega), if_pos hin', hload,
                    foldl_assoc_shift_typed op inp hassoc]
                  have hk : p - d + 1 = (p - d) + 1 := rfl
                  rw [List.take_succ_cons, List.foldl_cons]
                · have hin'' : ¬ (d ≤ p ∧ p < d + (s + ss.sum)) := by omega
                  rw [if_neg hin, if_neg hin'', if_neg hin']
            · intro q hq
              have hq' : ¬ (d ≤ q ∧ q < d + s) := by omega
              rw [if_neg hq']
              exact hm' q (by omega)

/-- When the destination holds every value of `T` (a value stored and read
back is unchanged), then for an associative operator, any initial value, any
input of fewer than `2 ^ 64` elements and any division of the input into
consecutive non-empty chunks the parallel inclusive scan yields exactly the
result of the sequential inclusive scan. -/
theorem inclusive_scan_parallel_typed_lossless (inp : I → T) (load : D → T)
    (store : T → D) (op : T → T → T)
    (hassoc : ∀ a b c, op (op a b) c = op a (op b c))
    (hload : ∀ t, load (store t) = t) (init : T) (xs : List I)
    (sizes : List Nat) (hlen : xs.length < size_t_mod)
    (hch : is_chunking xs.length sizes) (dest : Nat) (m : Mem D) :
    inclusive_scan_parallel_typed inp load store op xs dest init sizes m =
      some (sequential_inclusive_scan_typed inp store op xs dest init m) := by
  obtain ⟨hpos, hsum⟩ := hch
  cases xs with
  | nil =>
      simp [inclusive_scan_parallel_typed, sequential_inclusive_scan_typed]
  | cons a rest =>
      obtain ⟨totals, m1, hst, hframe, h3⟩ :=
        scan_pipeline_typed_spec inp load store op hassoc hload sizes (a :: rest) dest m
          hpos (by omega) hlen
      simp only [inclusive_scan_parallel_typed, scan_partitioner_call]
      rw [hst, sequential_inclusive_scan_typed_spec]
      refine congrArg some (Prod.ext ?_ ?_)
      · simp
      · funext p
        have := h3 init m1 (fun _ _ => rfl) p
        rw [hsum] at this
        show scan_stage3 (inclusive_scan_f3_typed load store op) ⟨a :: rest, dest⟩ sizes
            (scan_stage2 op init totals) m1 p =
          (if dest ≤ p ∧ p < dest + (a :: rest).length
            then store (List.foldl (fun t x => op t (inp x)) init
              (List.take (p - dest + 1) (a :: rest))) else m p)
        rw [this]
        by_cases hin : dest ≤ p ∧ p < dest + (a :: rest).length
        · rw [if_pos hin, if_pos hin]
        · rw [if_neg hin, if_neg hin]
          exact hframe p (by rw [hsum]; exact hin)

/-- C1 fails on the code when the destination does not hold every value of
`T`: `op = max` (associative) on `int`, `init = 0`, input `[1, 256]`, a
destination of unsigned 8-bit values (the assignment stores the value modulo
`2 ^ 8`). The sequential scan writes `[1, 0]`, which is the prefix scan
`[1, 256]` as stored in 8 bits, and so does the parallel scan with a single
chunk; with the chunks `[1]` and `[256]` the parallel scan writes `[1, 1]`,
because `f3` takes the second argument of `op` from the destination, where
step 1 left 256 truncated to 0. -/
theorem inclusive_scan_parallel_narrow_destination :
    (sequential_inclusive_scan_typed (fun x : Nat => x) (fun t : Nat => t % 2 ^ 8) max
      [1, 256] 0 0 (fun _ => 0)).2.read 0 2 = [1, 0] ∧
    (inclusive_scan_parallel_typed (fun x : Nat => x) (fun d : Nat => d)
      (fun t : Nat => t % 2 ^ 8) max [1, 256] 0 0 [2] (fun _ => 0)).map
        (fun r => r.2.read 0 2) = some [1, 0] ∧
    (inclusive_scan_parallel_typed (fun x : Nat => x) (fun d : Nat => d)
      (fun t : Nat => t % 2 ^ 8) max [1, 256] 0 0 [1, 1] (fun _ => 0)).map
        (fun r => r.2.read 0 2) = some [1, 1] ∧
    (∀ a b c : Nat, max (max a b) c = max a (max b c)) ∧
    is_chunking [1, 256].length [1, 1] ∧ is_chunking [1, 256].length [2] := by
  refine ⟨by decide, by decide, by decide, fun a b c => Nat.max_assoc a b c,
    ⟨by decide, by decide⟩, ⟨by decide, by decide⟩⟩

end InclusiveScanTypedProofs

section CancellationTokenProofs

variable {T : Type}

theorem cancel_all_compare (tok : cancellation_token T) (vs : List T) :
    (tok.cancel_all vs).compare = tok.compare := by
  induction vs generalizing tok with
  | nil => rfl
  | cons v vs ih =>
      show ((tok.cancel v).cancel_all vs).compare = tok.compare
      rw [ih]
      rfl

/-- The result of a series of `cancel` calls is the starting value or one of
the candidates, and nothing among them is strictly better. -/
theorem cancel_all_extremal (cmp : T → T → Bool)
    (hirr : ∀ a, cmp a a = false)
    (htrans : ∀ a b c, cmp a b = true → cmp b c = true → cmp a c = true)
    (htotal : ∀ a b, a ≠ b → cmp a b = true ∨ cmp b a = true) :
    ∀ (vs : List T) (tok : cancellation_token T), tok.compare = cmp →
      (tok.cancel_all vs).best ∈ tok.best :: vs ∧
      ∀ v ∈ tok.best :: vs, cmp v (tok.cancel_all vs).best = false := by
  intro vs
  induction vs with
  | nil =>
      intro tok _
      refine ⟨by simp [cancellation_token.cancel_all], ?_⟩
      intro v hv
      have hv' : v = tok.best := by simpa using hv
      subst hv'
      exact hirr _
  | cons v vs ih =>
      intro tok hcmp
      have hstep : tok.cancel_all (v :: vs) = (tok.cancel v).cancel_all vs := rfl
      rw [hstep]
      obtain ⟨hmem, hbest⟩ := ih (tok.cancel v) hcmp
      have hb : (tok.cancel v).best = if cmp v tok.best = true then v else tok.best := by
        simp [cancellation_token.cancel, hcmp]
      generalize ((tok.cancel v).cancel_all vs).best = r at hmem hbest
      by_cases hc : cmp v tok.best = true
      · rw [if_pos hc] at hb
        rw [hb] at hmem hbest
        refine ⟨List.mem_cons_of_mem _ hmem, ?_⟩
        intro w hw
        rcases List.mem_cons.mp hw with h | h
        · subst h
          by_contra hcon
          have h1 : cmp tok.best r = true := by simpa using hcon
          have h2 := hbest v (List.mem_cons_self _ _)
          rw [htrans _ _ _ hc h1] at h2
          exact absurd h2 (by simp)
        · exact hbest w h
      · rw [if_neg hc] at hb
        rw [hb] at hmem hbest
        refine ⟨?_, ?_⟩
        · rcases List.mem_cons.mp hmem with h | h
          · rw [h]; exact List.mem_cons_self _ _
          · exact List.mem_cons_of_mem _ (List.mem_cons_of_mem _ h)
        · intro w hw
          rcases List.mem_cons.mp hw with h | h
          · subst h; exact hbest _ (List.mem_cons_self _ _)
          · rcases List.mem_cons.mp h with h | h
            · subst h
              by_contra hcon
              have h1 : cmp w r = true := by simpa using hcon
              by_cases hwb : w = tok.best
              · have h2 := hbest tok.best (List.mem_cons_self _ _)
                rw [← hwb, h1] at h2
                exact absurd h2 (by simp)
              · rcases htotal w tok.best hwb with h3 | h3
                · exact hc h3
                · have h2 := hbest tok.best (List.mem_cons_self _ _)
                  rw [htrans _ _ _ h3 h1] at h2
                  exact absurd h2 (by simp)
            · exact hbest w (List.mem_cons_of_mem _ h)

/-- Under a strict total order at most one member of a collection is unbeaten. -/
theorem extremal_unique (cmp : T → T → Bool)
    (htotal : ∀ a b, a ≠ b → cmp a b = true ∨ cmp b a = true)
    (S S' : List T) (hS : ∀ x, x ∈ S ↔ x ∈ S') (r r' : T)
    (hr : r ∈ S) (hr' : r' ∈ S')
    (hbest : ∀ v ∈ S, cmp v r = false) (hbest' : ∀ v ∈ S', cmp v r' = false) :
    r = r' := by
  by_contra hne
  rcases htotal r r' hne with h | h
  · have := hbest' r ((hS r).mp hr)
    rw [h] at this
    exact absurd this (by simp)
  · have := hbest r' ((hS r').mpr hr')
    rw [h] at this
    exact absurd this (by simp)

/-- C2 (amended): for a comparison that is a strict total order (irreflexive,
transitive, any two distinct values ordered), any starting value and any
candidates, the `cancel` calls taken in any order leave the same result: the
one value among the sentinel and the candidates that no other beats. With no
call the result is the sentinel; when every candidate beats the sentinel and
there is at least one call, the result is the extremal candidate. -/
theorem cancel_any_order_extremal (cmp : T → T → Bool)
    (hirr : ∀ a, cmp a a = false)
    (htrans : ∀ a b c, cmp a b = true → cmp b c = true → cmp a c = true)
    (htotal : ∀ a b, a ≠ b → cmp a b = true ∨ cmp b a = true)
    (sentinel : T) (vs vs' : List T) (hperm : vs'.Perm vs) :
    ((cancellation_token.create cmp sentinel).cancel_all vs').get_data =
      ((cancellation_token.create cmp sentinel).cancel_all vs).get_data ∧
    ((cancellation_token.create cmp sentinel).cancel_all vs').get_data ∈ sentinel :: vs ∧
    (∀ v ∈ sentinel :: vs,
      cmp v ((cancellation_token.create cmp sentinel).cancel_all vs').get_data = false) ∧
    ((cancellation_token.create cmp sentinel).cancel_all []).get_data = sentinel ∧
    ((∀ v ∈ vs, cmp v sentinel = true) → vs ≠ [] →
      ((cancellation_token.create cmp sentinel).cancel_all vs').get_data ∈ vs) := by
  have h1 := cancel_all_extremal cmp hirr htrans htotal vs
    (cancellation_token.create cmp sentinel) rfl
  have h2 := cancel_all_extremal cmp hirr htrans htotal vs'
    (cancellation_token.create cmp sentinel) rfl
  have hS : ∀ x, x ∈ sentinel :: vs' ↔ x ∈ sentinel :: vs := by
    intro x
    simp only [List.mem_cons, hperm.mem_iff]
  have hmem : ((cancellation_token.create cmp sentinel).cancel_all vs').get_data ∈
      sentinel :: vs := (hS _).mp h2.1
  have hun : ∀ v ∈ sentinel :: vs,
      cmp v ((cancellation_token.create cmp sentinel).cancel_all vs').get_data = false :=
    fun v hv => h2.2 v ((hS v).mpr hv)
  refine ⟨?_, hmem, hun, rfl, ?_⟩
  · exact extremal_unique cmp htotal _ _ hS _ _ h2.1 h1.1 h2.2 h1.2
  · intro hworse hne
    rcases List.mem_cons.mp hmem with h | h
    · exfalso
      obtain ⟨v, hv⟩ := List.exists_mem_of_ne_nil vs hne
      have h3 := hun v (List.mem_cons_of_mem _ hv)
      rw [h, hworse v hv] at h3
      exact absurd h3 (by simp)
    · exact h

/-- C2 (amended) at the example of the specification: the token of `find` for
a range of length 10, `cancel(9)`, `cancel(7)`, `cancel(3)` against
`cancel(7)`, `cancel(3)`, `cancel(9)`. -/
theorem cancel_any_order_extremal_witness :
    ((cancellation_token.create smaller_index_wins 10).cancel_all [9, 7, 3]).get_data =
      ((cancellation_token.create smaller_index_wins 10).cancel_all [7, 3, 9]).get_data ∧
    ((cancellation_token.create smaller_index_wins 10).cancel_all [9, 7, 3]).get_data ∈
      [10, 7, 3, 9] ∧
    (∀ v ∈ [10, 7, 3, 9], smaller_index_wins v
      ((cancellation_token.create smaller_index_wins 10).cancel_all [9, 7, 3]).get_data
        = false) ∧
    ((cancellation_token.create smaller_index_wins 10).cancel_all []).get_data = 10 ∧
    ((∀ v ∈ [7, 3, 9], smaller_index_wins v 10 = true) → [7, 3, 9] ≠ [] →
      ((cancellation_token.create smaller_index_wins 10).cancel_all [9, 7, 3]).get_data ∈
        [7, 3, 9]) :=
  cancel_any_order_extremal smaller_index_wins
    (fun a => by simp [smaller_index_wins])
    (fun a b c h1 h2 => by
      simp only [smaller_index_wins, decide_eq_true_eq] at h1 h2 ⊢
      omega)
    (fun a b hne => by
      simp only [smaller_index_wins, decide_eq_true_eq]
      omega)
    10 [7, 3, 9] [9, 7, 3] (by decide)

/-- The example of the specification in full: whatever the order of
`cancel(7)`, `cancel(3)`, `cancel(9)`, the token of `find` ends with 3. -/
theorem cancel_example_every_order :
    ∀ l ∈ [[7, 3, 9], [7, 9, 3], [3, 7, 9], [3, 9, 7], [9, 7, 3], [9, 3, 7]],
      ((cancellation_token.create smaller_index_wins 10).cancel_all l).get_data = 3 := by
  decide

/-- C2 as stated fails: under the comparison "smaller key wins" on pairs, a
strict weak order, the two orders of `cancel((1,0))` and `cancel((1,1))` leave
different results. -/
theorem cancel_order_dependent_counterexample :
    ((cancellation_token.create smaller_key_wins (2, 0)).cancel_all
        [(1, 0), (1, 1)]).get_data = (1, 0) ∧
    ((cancellation_token.create smaller_key_wins (2, 0)).cancel_all
        [(1, 1), (1, 0)]).get_data = (1, 1) := by
  decide

end CancellationTokenProofs

section PartitionerProofs

variable {E : Type}

theorem hits_lt_length {T : Type} (f : E → Nat → List T) (xs : List E) (i : Nat)
    (h : hits f xs i = true) : i < xs.length := by
  by_contra hge
  have : xs[i]? = none := List.getElem?_eq_none (by omega)
  simp [hits, this] at h

theorem covered_mono (f : E → Nat → List Nat) (xs : List E) (best best' lo hi : Nat)
    (hle : best' ≤ best) (h : covered f xs best lo hi) : covered f xs best' lo hi :=
  fun i h1 h2 h3 => Nat.le_trans hle (h i h1 h2 h3)

theorem worker_inv_mono (f : E → Nat → List Nat) (xs : List E) (B best best' : Nat)
    (bd : Nat × Nat) (w : worker E Nat) (hle : best' ≤ best)
    (h : worker_inv f xs B best bd w) : worker_inv f xs B best' bd w := by
  cases w with
  | head it idx c =>
      obtain ⟨h1, h2, h3, h4, h5⟩ := h
      exact ⟨h1, h2, h3, h4, covered_mono f xs best best' _ _ hle h5⟩
  | body it idx c pending =>
      obtain ⟨h1, h2, h3, h4, h5, h6, h7, h8, h9, h10⟩ := h
      refine ⟨h1, h2, h3, h4, h5, covered_mono f xs best best' _ _ hle h6, h7, h8, ?_, h10⟩
      intro hh
      rcases h9 hh with h | h
      · exact Or.inl h
      · exact Or.inr (Nat.le_trans hle h)
  | finished => exact covered_mono f xs best best' _ _ hle h
  | fault => exact h

theorem loop_idx_n_step_inv (stop : cancellation_token Nat → Nat → Bool)
    (hstop : ∀ tok i, stop tok i = true → tok.compare i tok.best = false)
    (f : E → Nat → List Nat) (hf : ∀ v i, ∀ c ∈ f v i, c = i)
    (B : Nat) (hB : ∀ v i, (f v i).length ≤ B) (xs : List E)
    (tok : cancellation_token Nat) (htok : token_inv f xs tok)
    (bd : Nat × Nat) (w : worker E Nat) (hw : worker_inv f xs B tok.best bd w) :
    token_inv f xs (loop_idx_n_step stop f tok w).1 ∧
    (loop_idx_n_step stop f tok w).1.best ≤ tok.best ∧
    worker_inv f xs B (loop_idx_n_step stop f tok w).1.best bd
      (loop_idx_n_step stop f tok w).2 ∧
    (worker_measure B (loop_idx_n_step stop f tok w).2 < worker_measure B w ∨
      (worker_measure B w = 0 ∧ worker_measure B (loop_idx_n_step stop f tok w).2 = 0)) := by
  obtain ⟨hcmp, hbest⟩ := htok
  cases w with
  | head it idx c =>
      obtain ⟨h1, h2, h3, h4, h5⟩ := hw
      simp only [loop_idx_n_step]
      by_cases hc : c = 0
      · rw [if_pos hc]
        refine ⟨⟨hcmp, hbest⟩, Nat.le_refl _, ?_, Or.inl (by simp [worker_measure])⟩
        have : idx = bd.2 := by omega
        show covered f xs tok.best bd.1 bd.2
        rw [← this]
        exact h5
      · rw [if_neg hc]
        by_cases hs : stop tok idx = true
        · rw [if_pos hs]
          refine ⟨⟨hcmp, hbest⟩, Nat.le_refl _, ?_, Or.inl (by simp [worker_measure])⟩
          have hle : tok.best ≤ idx := by
            have := hstop tok idx hs
            rw [hcmp] at this
            simpa [smaller_index_wins] using this
          show covered f xs tok.best bd.1 bd.2
          intro i hi1 hi2 hi3
          by_cases hlt : i < idx
          · exact h5 i hi1 hlt hi3
          · omega
        · rw [if_neg hs]
          have hidx : idx < xs.length := by omega
          have hit : it = xs[idx] :: xs.drop (idx + 1) := by
            rw [h1]
            exact List.drop_eq_getElem_cons hidx
          rw [hit]
          simp only []
          have hget : xs[idx]? = some xs[idx] := List.getElem?_eq_getElem hidx
          refine ⟨⟨hcmp, hbest⟩, Nat.le_refl _, ?_, Or.inl ?_⟩
          · refine ⟨by rw [← hit, h1], h2, h3, h4, by omega, h5, hf _ _, ?_, ?_, hB _ _⟩
            · intro hne
              simp only [hits, hget]
              cases hfv : f xs[idx] idx with
              | nil => exact absurd hfv hne
              | cons a l => rfl
            · intro hh
              left
              simp only [hits, hget] at hh
              intro hnil
              rw [hnil] at hh
              simp at hh
          · simp only [worker_measure]
            have := hB xs[idx] idx
            obtain ⟨c', rfl⟩ : ∃ c', c = c' + 1 := ⟨c - 1, by omega⟩
            simp only [Nat.add_sub_cancel]
            rw [Nat.mul_add]
            omega
  | body it idx c pending =>
      obtain ⟨h1, h2, h3, h4, h5, h6, h7, h8, h9, h10⟩ := hw
      cases pending with
      | nil =>
          simp only [loop_idx_n_step]
          refine ⟨⟨hcmp, hbest⟩, Nat.le_refl _, ?_,
            Or.inl (by simp only [worker_measure, List.length_nil]; omega)⟩
          refine ⟨by rw [h1, List.tail_drop], by omega, by omega, h4, ?_⟩
          intro i hi1 hi2 hi3
          by_cases hlt : i < idx
          · exact h6 i hi1 hlt hi3
          · have : i = idx := by omega
            subst this
            rcases h9 hi3 with h | h
            · exact absurd rfl h
            · exact h
      | cons a l =>
          simp only [loop_idx_n_step]
          have ha : a = idx := h7 a (List.mem_cons_self _ _)
          subst ha
          have hnb : (tok.cancel a).best = if a < tok.best then a else tok.best := by
            simp [cancellation_token.cancel, hcmp, smaller_index_wins]
          have hle : (tok.cancel a).best ≤ tok.best := by
            rw [hnb]; split <;> omega
          have hle2 : (tok.cancel a).best ≤ a := by
            rw [hnb]; split <;> omega
          have hhit : hits f xs a = true := h8 (by simp)
          refine ⟨⟨by simp [cancellation_token.cancel, hcmp], ?_⟩, hle, ?_,
            Or.inl (by simp [worker_measure])⟩
          · rw [hnb]
            split
            · exact Or.inr hhit
            · exact hbest
          · refine ⟨h1, h2, h3, h4, h5, covered_mono f xs _ _ _ _ hle h6,
              fun x hx => h7 x (List.mem_cons_of_mem _ hx), fun _ => hhit,
              fun _ => Or.inr hle2, ?_⟩
            simp only [List.length_cons] at h10
            omega
  | finished =>
      simp only [loop_idx_n_step]
      exact ⟨⟨hcmp, hbest⟩, Nat.le_refl _, hw, Or.inr ⟨rfl, rfl⟩⟩
  | fault => exact absurd hw (by simp [worker_inv])

theorem par_step_inv (stop : cancellation_token Nat → Nat → Bool)
    (hstop : ∀ tok i, stop tok i = true → tok.compare i tok.best = false)
    (f : E → Nat → List Nat) (hf : ∀ v i, ∀ c ∈ f v i, c = i)
    (B : Nat) (hB : ∀ v i, (f v i).length ≤ B) (xs : List E)
    (bounds : List (Nat × Nat)) (st : par_state E Nat)
    (hinv : par_inv f xs B bounds st) (a : Nat) :
    par_inv f xs B bounds (par_step (loop_idx_n_step stop f) st a) ∧
    ∀ (j : Nat) w, st.workers[j]? = some w →
      ∃ w', (par_step (loop_idx_n_step stop f) st a).workers[j]? = some w' ∧
        (worker_measure B w' + (if a = j then 1 else 0) ≤ worker_measure B w ∨
          worker_measure B w' = 0) := by
  obtain ⟨htok, hlen, hws⟩ := hinv
  unfold par_step
  cases hwa : st.workers[a]? with
  | none =>
      refine ⟨⟨htok, hlen, hws⟩, ?_⟩
      intro j w hj
      refine ⟨w, hj, ?_⟩
      have hne : a ≠ j := by
        intro h
        rw [h, hj] at hwa
        exact absurd hwa (by simp)
      rw [if_neg hne]
      exact Or.inl (Nat.le_refl _)
  | some wa =>
      have ha : a < st.workers.length := by
        by_contra hge
        rw [List.getElem?_eq_none (by omega)] at hwa
        exact absurd hwa (by simp)
      have hab : a < bounds.length := by omega
      have hba : ∃ bd, bounds[a]? = some bd :=
        ⟨bounds[a], List.getElem?_eq_getElem hab⟩
      obtain ⟨bda, hbda⟩ := hba
      obtain ⟨ht', hle, hw', hmeas⟩ :=
        loop_idx_n_step_inv stop hstop f hf B hB xs st.tok htok bda wa (hws a bda wa hbda hwa)
      refine ⟨⟨ht', by simpa using hlen, ?_⟩, ?_⟩
      · intro j bd w hbd hw
        rw [List.getElem?_set] at hw
        by_cases haj : a = j
        · subst haj
          rw [if_pos rfl, if_pos ha] at hw
          rw [hbda] at hbd
          cases hbd
          cases hw
          exact hw'
        · rw [if_neg haj] at hw
          exact worker_inv_mono f xs B _ _ bd w hle (hws j bd w hbd hw)
      · intro j w hj
        by_cases haj : a = j
        · subst haj
          rw [hwa] at hj
          cases hj
          refine ⟨(loop_idx_n_step stop f st.tok wa).2, ?_, ?_⟩
          · rw [List.getElem?_set, if_pos rfl, if_pos ha]
          · rw [if_pos rfl]
            rcases hmeas with h | ⟨_, h⟩
            · exact Or.inl (by omega)
            · exact Or.inr h
        · refine ⟨w, ?_, ?_⟩
          · rw [List.getElem?_set, if_neg haj]
            exact hj
          · rw [if_neg haj]
            exact Or.inl (Nat.le_refl _)

theorem par_run_inv (stop : cancellation_token Nat → Nat → Bool)
    (hstop : ∀ tok i, stop tok i = true → tok.compare i tok.best = false)
    (f : E → Nat → List Nat) (hf : ∀ v i, ∀ c ∈ f v i, c = i)
    (B : Nat) (hB : ∀ v i, (f v i).length ≤ B) (xs : List E)
    (bounds : List (Nat × Nat)) :
    ∀ (sched : List Nat) (st : par_state E Nat), par_inv f xs B bounds st →
      par_inv f xs B bounds (sched.foldl (par_step (loop_idx_n_step stop f)) st) ∧
      ∀ (j : Nat) w, st.workers[j]? = some w →
        ∃ w', (sched.foldl (par_step (loop_idx_n_step stop f)) st).workers[j]? = some w' ∧
          (worker_measure B w' + sched.count j ≤ worker_measure B w ∨
            worker_measure B w' = 0) := by
  intro sched
  induction sched with
  | nil =>
      intro st hinv
      exact ⟨hinv, fun j w hj => ⟨w, hj, Or.inl (by simp)⟩⟩
  | cons a rest ih =>
      intro st hinv
      obtain ⟨hinv1, hstep⟩ := par_step_inv stop hstop f hf B hB xs bounds st hinv a
      obtain ⟨hinv2, hrest⟩ := ih _ hinv1
      refine ⟨hinv2, ?_⟩
      intro j w hj
      obtain ⟨w1, hw1, hm1⟩ := hstep j w hj
      obtain ⟨w2, hw2, hm2⟩ := hrest j w1 hw1
      refine ⟨w2, hw2, ?_⟩
      rw [List.count_cons]
      rcases hm2 with hm2 | hm2
      · rcases hm1 with hm1 | hm1
        · left
          have : (if (a == j) = true then 1 else 0) = (if a = j then 1 else 0) := by
            by_cases h : a = j <;> simp [h]
          rw [this]
          omega
        · right
          omega
      · exact Or.inr hm2

theorem chunk_tasks_spec (xs : List E) :
    ∀ (sizes : List Nat) (b : Nat), b + sizes.sum ≤ xs.length →
      (chunk_tasks (xs.drop b) b sizes : List (worker E Nat)).length =
        (chunk_bounds b sizes).length ∧
      ∀ (j : Nat) bd w, (chunk_bounds b sizes)[j]? = some bd →
        (chunk_tasks (xs.drop b) b sizes : List (worker E Nat))[j]? = some w →
        w = worker.head (xs.drop bd.1) bd.1 (bd.2 - bd.1) ∧ bd.1 ≤ bd.2 ∧
          bd.2 ≤ xs.length ∧ sizes[j]? = some (bd.2 - bd.1) := by
  intro sizes
  induction sizes with
  | nil =>
      intro b _
      refine ⟨rfl, ?_⟩
      intro j bd w hbd
      simp [chunk_bounds] at hbd
  | cons s ss ih =>
      intro b hb
      rw [List.sum_cons] at hb
      have hdrop : (xs.drop b).drop s = xs.drop (b + s) := by
        rw [List.drop_drop, Nat.add_comm]
      obtain ⟨hlen, hrest⟩ := ih (b + s) (by omega)
      simp only [chunk_tasks, chunk_bounds, hdrop, List.length_cons]
      refine ⟨by rw [hlen], ?_⟩
      intro j bd w hbd hw
      cases j with
      | zero =>
          simp only [List.getElem?_cons_zero, Option.some.injEq] at hbd hw
          subst hbd hw
          simp
          omega
      | succ j =>
          simp only [List.getElem?_cons_succ] at hbd hw ⊢
          exact hrest j bd w hbd hw

theorem chunk_bounds_cover :
    ∀ (sizes : List Nat) (b i : Nat), b ≤ i → i < b + sizes.sum →
      ∃ (j : Nat) (bd : Nat × Nat), (chunk_bounds b sizes)[j]? = some bd ∧
        bd.1 ≤ i ∧ i < bd.2 := by
  intro sizes
  induction sizes with
  | nil =>
      intro b i h1 h2
      simp at h2
      omega
  | cons s ss ih =>
      intro b i h1 h2
      rw [List.sum_cons] at h2
      by_cases h : i < b + s
      · exact ⟨0, (b, b + s), by simp [chunk_bounds], h1, h⟩
      · obtain ⟨j, bd, hj, hbd⟩ := ih (b + s) i (by omega) (by omega)
        exact ⟨j + 1, bd, by simpa [chunk_bounds] using hj, hbd⟩

theorem par_inv_init (f : E → Nat → List Nat) (xs : List E) (B : Nat)
    (sizes : List Nat) (hsum : sizes.sum = xs.length) :
    par_inv f xs B (chunk_bounds 0 sizes)
      ⟨cancellation_token.create smaller_index_wins xs.length, chunk_tasks xs 0 sizes⟩ := by
  obtain ⟨hlen, hws⟩ := chunk_tasks_spec xs sizes 0 (by omega)
  rw [List.drop_zero] at hlen hws
  refine ⟨⟨rfl, Or.inl rfl⟩, hlen, ?_⟩
  intro j bd w hbd hw
  obtain ⟨hw1, hw2, hw3, _⟩ := hws j bd w hbd hw
  subst hw1
  exact ⟨rfl, by omega, Nat.le_refl _, hw3, fun i h1 h2 => by omega⟩

/-- The outcome of any interleaving of the chunk tasks of an algorithm whose
element function cancels with its own index only and whose token prefers the
smaller index: once all tasks have returned, the token holds the sentinel or a
cancelling index and no cancelling index is smaller; and all tasks have
returned once every task has been scheduled often enough. -/
theorem smaller_index_run (stop : cancellation_token Nat → Nat → Bool)
    (hstop : ∀ tok i, stop tok i = true → tok.compare i tok.best = false)
    (f : E → Nat → List Nat) (hf : ∀ v i, ∀ c ∈ f v i, c = i)
    (B : Nat) (hB : ∀ v i, (f v i).length ≤ B) (xs : List E)
    (sizes : List Nat) (hsum : sizes.sum = xs.length) (sched : List Nat)
    (st : par_state E Nat)
    (hst : st = sched.foldl (par_step (loop_idx_n_step stop f))
      ⟨cancellation_token.create smaller_index_wins xs.length, chunk_tasks xs 0 sizes⟩) :
    (st.workers.all worker.is_finished = true →
      (st.tok.best = xs.length ∨ hits f xs st.tok.best = true) ∧
      ∀ i, hits f xs i = true → st.tok.best ≤ i) ∧
    ((∀ j, j < sizes.length → (B + 2) * sizes.getD j 0 + 1 ≤ sched.count j) →
      st.workers.all worker.is_finished = true) := by
  have hinit := par_inv_init f xs B sizes hsum
  obtain ⟨⟨htok, hlen, hws⟩, hmeas⟩ :=
    par_run_inv stop hstop f hf B hB xs (chunk_bounds 0 sizes) sched _ hinit
  rw [← hst] at htok hlen hws hmeas
  refine ⟨?_, ?_⟩
  · intro hall
    refine ⟨htok.2, ?_⟩
    intro i hi
    have hlt := hits_lt_length f xs i hi
    obtain ⟨j, bd, hbd, hb1, hb2⟩ :=
      chunk_bounds_cover sizes 0 i (Nat.zero_le _) (by omega)
    have hj : j < st.workers.length := by
      rw [hlen]
      by_contra hge
      rw [List.getElem?_eq_none (by omega)] at hbd
      exact absurd hbd (by simp)
    have hw : st.workers[j]? = some st.workers[j] := List.getElem?_eq_getElem hj
    have hfin := (List.all_eq_true.mp hall) _ (List.getElem?_mem hw)
    have hinv := hws j bd _ hbd hw
    cases hwj : st.workers[j] with
    | finished =>
        rw [hwj] at hinv
        exact hinv i hb1 hb2 hi
    | head _ _ _ => rw [hwj] at hfin; exact absurd hfin (by simp [worker.is_finished])
    | body _ _ _ _ => rw [hwj] at hfin; exact absurd hfin (by simp [worker.is_finished])
    | fault => rw [hwj] at hfin; exact absurd hfin (by simp [worker.is_finished])
  · intro hfair
    rw [List.all_eq_true]
    intro w hw
    obtain ⟨j, hj⟩ := List.getElem?_of_mem hw
    have hjlt : j < st.workers.length := by
      by_contra hge
      rw [List.getElem?_eq_none (by omega)] at hj
      exact absurd hj (by simp)
    obtain ⟨hlen0, hws0⟩ := chunk_tasks_spec xs sizes 0 (by omega)
    rw [List.drop_zero] at hlen0 hws0
    have hjb : j < (chunk_bounds 0 sizes).length := by omega
    have hbd : (chunk_bounds 0 sizes)[j]? = some (chunk_bounds 0 sizes)[j] :=
      List.getElem?_eq_getElem hjb
    have hj0 : j < (chunk_tasks xs 0 sizes : List (worker E Nat)).length := by omega
    have hw0 : (chunk_tasks xs 0 sizes : List (worker E Nat))[j]? =
        some (chunk_tasks xs 0 sizes)[j] := List.getElem?_eq_getElem hj0
    obtain ⟨hw1, _, _, hsz⟩ := hws0 j _ _ hbd hw0
    obtain ⟨w', hw', hm⟩ := hmeas j _ hw0
    rw [hj] at hw'
    cases hw'
    have hjs : j < sizes.length := by
      by_contra hge
      rw [List.getElem?_eq_none (by omega)] at hsz
      exact absurd hsz (by simp)
    have hfj := hfair j hjs
    rw [List.getD_eq_getElem?_getD, hsz, Option.getD_some] at hfj
    have hzero : worker_measure B w = 0 := by
      rcases hm with hm | hm
      · rw [hw1] at hm
        have hm0 : ∀ (it : List E) (b c : Nat),
            worker_measure B (worker.head it b c : worker E Nat) = (B + 2) * c + 1 :=
          fun _ _ _ => rfl
        rw [hm0] at hm
        omega
      · exact hm
    have hinv := hws j _ w hbd hj
    cases w with
    | finished => rfl
    | head _ _ _ => simp [worker_measure] at hzero
    | body _ _ _ _ => simp [worker_measure] at hzero
    | fault => exact absurd hinv (by simp [worker_inv])

theorem par_run_no_workers {T : Type}
    (step : cancellation_token T → worker E T → cancellation_token T × worker E T)
    (tok : cancellation_token T) :
    ∀ sched : List Nat, sched.foldl (par_step step) ⟨tok, []⟩ = ⟨tok, []⟩ := by
  intro sched
  induction sched with
  | nil => rfl
  | cons j rest ih =>
      rw [List.foldl_cons]
      have : par_step step ⟨tok, ([] : List (worker E T))⟩ j = ⟨tok, []⟩ := by
        simp [par_step]
      rw [this, ih]

theorem chunk_bounds_within :
    ∀ (sizes : List Nat) (b j : Nat) (bd : Nat × Nat),
      (chunk_bounds b sizes)[j]? = some bd →
      b ≤ bd.1 ∧ bd.2 ≤ b + sizes.sum ∧ sizes[j]? = some (bd.2 - bd.1) ∧ bd.1 ≤ bd.2 := by
  intro sizes
  induction sizes with
  | nil => intro b j bd h; simp [chunk_bounds] at h
  | cons s ss ih =>
      intro b j bd h
      cases j with
      | zero =>
          simp only [chunk_bounds, List.getElem?_cons_zero, Option.some.injEq] at h
          subst h
          simp
      | succ j =>
          simp only [chunk_bounds, List.getElem?_cons_succ] at h
          obtain ⟨h1, h2, h3, h4⟩ := ih (b + s) j bd h
          refine ⟨by omega, by rw [List.sum_cons]; omega, by simpa using h3, h4⟩

theorem chunk_bounds_ordered :
    ∀ (sizes : List Nat) (b j j' : Nat) (bd bd' : Nat × Nat), j < j' →
      (chunk_bounds b sizes)[j]? = some bd → (chunk_bounds b sizes)[j']? = some bd' →
      bd.2 ≤ bd'.1 := by
  intro sizes
  induction sizes with
  | nil => intro b j j' bd bd' _ h; simp [chunk_bounds] at h
  | cons s ss ih =>
      intro b j j' bd bd' hlt h h'
      cases j' with
      | zero => omega
      | succ j' =>
          simp only [chunk_bounds, List.getElem?_cons_succ] at h'
          cases j with
          | zero =>
              simp only [chunk_bounds, List.getElem?_cons_zero, Option.some.injEq] at h
              subst h
              exact (chunk_bounds_within ss (b + s) j' bd' h').1
          | succ j =>
              simp only [chunk_bounds, List.getElem?_cons_succ] at h
              exact ih (b + s) j j' bd bd' (by omega) h h'

theorem chunk_bounds_adjacent :
    ∀ (sizes : List Nat) (b j : Nat) (bd bd' : Nat × Nat),
      (chunk_bounds b sizes)[j]? = some bd → (chunk_bounds b sizes)[j + 1]? = some bd' →
      bd'.1 = bd.2 := by
  intro sizes
  induction sizes with
  | nil => intro b j bd bd' h; simp [chunk_bounds] at h
  | cons s ss ih =>
      intro b j bd bd' h h'
      simp only [chunk_bounds, List.getElem?_cons_succ] at h'
      cases j with
      | zero =>
          simp only [chunk_bounds, List.getElem?_cons_zero, Option.some.injEq] at h
          subst h
          cases ss with
          | nil => simp [chunk_bounds] at h'
          | cons s' ss' =>
              simp only [chunk_bounds, List.getElem?_cons_zero, Option.some.injEq] at h'
              subst h'
              rfl
      | succ j =>
          simp only [chunk_bounds, List.getElem?_cons_succ] at h
          exact ih (b + s) j bd bd' h h'

theorem partitioner_chunk_size_pos (count chunk_hint cores : Nat) :
    0 < partitioner_chunk_size count chunk_hint cores := by
  unfold partitioner_chunk_size
  split
  · exact Nat.lt_of_lt_of_le Nat.zero_lt_one (Nat.le_max_left _ _)
  · omega

theorem partitioner_chunk_sizes_chunking (count chunk_hint cores : Nat) :
    is_chunking count (partitioner_chunk_sizes count chunk_hint cores) := by
  have hc := partitioner_chunk_size_pos count chunk_hint cores
  unfold partitioner_chunk_sizes
  generalize partitioner_chunk_size count chunk_hint cores = c at hc
  refine ⟨?_, ?_⟩
  · intro s hs
    rcases List.mem_append.mp hs with h | h
    · rw [(List.mem_replicate.mp h).2]
      exact hc
    · split at h
      · simp at h
      · have hs' : s = count % c := by simpa using h
        omega
  · rw [List.sum_append, List.sum_replicate, smul_eq_mul]
    split
    · rename_i h0
      have := Nat.div_add_mod count c
      simp only [List.sum_nil]
      rw [Nat.mul_comm]
      omega
    · have := Nat.div_add_mod count c
      simp only [List.sum_cons, List.sum_nil]
      rw [Nat.mul_comm]
      omega

/-- C13: for every count, chunk-size hint and concurrency level the chunk
sizes of the partitioner are positive and sum to `count`; the chunk handed to
a chunk function starts at `first + base_index` with the chunk's size; the
first chunk starts at index 0, every further chunk where its predecessor ends;
and every index of `[0, count)` lies in one chunk and in no other. -/
theorem partitioner_chunks_partition (xs : List E) (chunk_hint cores : Nat) :
    is_chunking xs.length (partitioner_chunk_sizes xs.length chunk_hint cores) ∧
    (∀ (j : Nat) (w : worker E Nat),
      (chunk_tasks xs 0 (partitioner_chunk_sizes xs.length chunk_hint cores))[j]? = some w →
      ∃ bd, (chunk_bounds 0 (partitioner_chunk_sizes xs.length chunk_hint cores))[j]? =
          some bd ∧
        w = worker.head (xs.drop bd.1) bd.1 (bd.2 - bd.1) ∧ bd.1 < bd.2 ∧
        bd.2 ≤ xs.length) ∧
    (∀ bd, (chunk_bounds 0 (partitioner_chunk_sizes xs.length chunk_hint cores))[0]? =
      some bd → bd.1 = 0) ∧
    (∀ (j : Nat) bd bd',
      (chunk_bounds 0 (partitioner_chunk_sizes xs.length chunk_hint cores))[j]? = some bd →
      (chunk_bounds 0 (partitioner_chunk_sizes xs.length chunk_hint cores))[j + 1]? =
        some bd' → bd'.1 = bd.2) ∧
    (∀ i, i < xs.length →
      ∃ (j : Nat) (bd : Nat × Nat),
        (chunk_bounds 0 (partitioner_chunk_sizes xs.length chunk_hint cores))[j]? =
          some bd ∧ bd.1 ≤ i ∧ i < bd.2 ∧
        ∀ (j' : Nat) (bd' : Nat × Nat),
          (chunk_bounds 0 (partitioner_chunk_sizes xs.length chunk_hint cores))[j']? =
            some bd' → bd'.1 ≤ i → i < bd'.2 → j' = j) := by
  have hch := partitioner_chunk_sizes_chunking xs.length chunk_hint cores
  generalize partitioner_chunk_sizes xs.length chunk_hint cores = sizes at hch
  obtain ⟨hpos, hsum⟩ := hch
  refine ⟨⟨hpos, hsum⟩, ?_, ?_, ?_, ?_⟩
  · intro j w hw
    obtain ⟨hlen, hws⟩ := chunk_tasks_spec xs sizes 0 (by omega)
    rw [List.drop_zero] at hlen hws
    have hj : j < (chunk_bounds 0 sizes).length := by
      rw [← hlen]
      by_contra hge
      rw [List.getElem?_eq_none (by omega)] at hw
      exact absurd hw (by simp)
    have hbd : (chunk_bounds 0 sizes)[j]? = some (chunk_bounds 0 sizes)[j] :=
      List.getElem?_eq_getElem hj
    obtain ⟨h1, h2, h3, h4⟩ := hws j _ w hbd hw
    refine ⟨_, hbd, h1, ?_, h3⟩
    have hmem : (chunk_bounds 0 sizes)[j].2 - (chunk_bounds 0 sizes)[j].1 ∈ sizes :=
      List.getElem?_mem h4
    have := hpos _ hmem
    omega
  · intro bd hbd
    cases sizes with
    | nil => simp [chunk_bounds] at hbd
    | cons s ss =>
        simp only [chunk_bounds, List.getElem?_cons_zero, Option.some.injEq] at hbd
        rw [← hbd]
  · intro j bd bd' h h'
    exact chunk_bounds_adjacent sizes 0 j bd bd' h h'
  · intro i hi
    obtain ⟨j, bd, hbd, h1, h2⟩ := chunk_bounds_cover sizes 0 i (Nat.zero_le _) (by omega)
    refine ⟨j, bd, hbd, h1, h2, ?_⟩
    intro j' bd' hbd' h1' h2'
    by_contra hne
    rcases Nat.lt_or_gt_of_ne hne with hlt | hgt
    · have := chunk_bounds_ordered sizes 0 j' j bd' bd hlt hbd' hbd
      omega
    · have := chunk_bounds_ordered sizes 0 j j' bd bd' hgt hbd hbd'
      omega

end PartitionerProofs

section FindProofs

variable {E A : Type} [DecidableEq A]

theorem find_f1_hits (proj : E → A) (val : A) (xs : List E) (i : Nat) (h : i < xs.length) :
    hits (find_f1 proj val) xs i = decide (proj xs[i] = val) := by
  simp only [hits, List.getElem?_eq_getElem h, find_f1]
  by_cases hp : proj xs[i] = val <;> simp [hp]

/-- The token value left by the chunk tasks is the position of the first
element the predicate accepts. -/
theorem first_hit_eq_findIdx {T : Type} (f : E → Nat → List T) (p : E → Bool) (xs : List E)
    (hp : ∀ i (h : i < xs.length), hits f xs i = p xs[i]) (best : Nat)
    (h1 : best = xs.length ∨ hits f xs best = true)
    (h2 : ∀ i, hits f xs i = true → best ≤ i) :
    best = xs.findIdx p := by
  rcases h1 with h1 | h1
  · rw [h1]
    symm
    apply List.findIdx_eq_length_of_false
    intro x hx
    obtain ⟨i, hi, rfl⟩ := List.getElem_of_mem hx
    by_contra hne
    have hh : hits f xs i = true := by
      rw [hp i hi]
      simpa using hne
    have := h2 i hh
    omega
  · have hlt := hits_lt_length f xs best h1
    symm
    rw [List.findIdx_eq hlt]
    refine ⟨by rw [← hp best hlt]; exact h1, ?_⟩
    intro j hj
    by_contra hne
    have hh : hits f xs j = true := by
      rw [hp j (by omega)]
      simpa using hne
    have := h2 j hh
    omega

/-- C3: for every range, value, projection, division of the index space into
consecutive chunks and interleaving of the chunk tasks, and for every
early-exit test that lets a task stop only when its current index would not
improve on the token, the parallel `find` returns, whenever it returns, the
position of the first element whose projection equals `val` (`last` when there
is none); and it does return once every chunk task has been scheduled
`3 * size + 1` times. -/
theorem find_parallel_first_match (stop : cancellation_token Nat → Nat → Bool)
    (hstop : ∀ tok i, stop tok i = true → tok.compare i tok.best = false)
    (proj : E → A) (val : A) (xs : List E) (sizes : List Nat)
    (hsum : sizes.sum = xs.length) (sched : List Nat) :
    (∀ r, find_parallel stop proj val xs sizes sched = some r →
      r = xs.findIdx (fun v => decide (proj v = val))) ∧
    ((∀ j, j < sizes.length → 3 * sizes.getD j 0 + 1 ≤ sched.count j) →
      find_parallel stop proj val xs sizes sched =
        some (xs.findIdx (fun v => decide (proj v = val)))) := by
  have hrun := smaller_index_run stop hstop (find_f1 proj val)
    (fun v i c hc => by
      unfold find_f1 at hc
      split at hc
      · simpa using hc
      · simp at hc)
    1 (fun v i => by unfold find_f1; split <;> simp) xs sizes hsum sched _ rfl
  obtain ⟨hsafe, hlive⟩ := hrun
  have hres : ∀ tok : cancellation_token Nat, find_f2 xs.length tok = tok.best := by
    intro tok
    simp only [find_f2, cancellation_token.get_data]
    split <;> omega
  have hval : ∀ r, find_parallel stop proj val xs sizes sched = some r →
      r = xs.findIdx (fun v => decide (proj v = val)) := by
    intro r hr
    unfold find_parallel at hr
    simp only [] at hr
    by_cases hc : xs.length ≤ 0
    · rw [if_pos hc] at hr
      have hnil : xs = [] := List.length_eq_zero.mp (by omega)
      subst hnil
      cases hr
      rfl
    · rw [if_neg hc] at hr
      unfold partitioner_call_with_index at hr
      simp only [] at hr
      split at hr
      · rename_i hall
        cases hr
        rw [hres]
        obtain ⟨h1, h2⟩ := hsafe hall
        exact first_hit_eq_findIdx (find_f1 proj val) _ xs
          (fun i h => find_f1_hits proj val xs i h) _ h1 h2
      · exact absurd hr (by simp)
  refine ⟨hval, ?_⟩
  intro hfair
  have hall := hlive hfair
  by_cases hc : xs.length ≤ 0
  · have hnil : xs = [] := List.length_eq_zero.mp (by omega)
    subst hnil
    rfl
  · have hsome : ∃ r, find_parallel stop proj val xs sizes sched = some r := by
      unfold find_parallel
      simp only []
      rw [if_neg hc]
      unfold partitioner_call_with_index
      simp only []
      rw [if_pos hall]
      exact ⟨_, rfl⟩
    obtain ⟨r, hr⟩ := hsome
    rw [hr, hval r hr]

/-- The result of `partitioner::call_with_index` for an algorithm whose token
prefers the smaller index and whose combine function hands back the token's
value: the first position the predicate accepts. -/
theorem smaller_index_call (stop : cancellation_token Nat → Nat → Bool)
    (hstop : ∀ tok i, stop tok i = true → tok.compare i tok.best = false)
    (f : E → Nat → List Nat) (hf : ∀ v i, ∀ c ∈ f v i, c = i)
    (B : Nat) (hB : ∀ v i, (f v i).length ≤ B) (xs : List E)
    (sizes : List Nat) (hsum : sizes.sum = xs.length) (sched : List Nat)
    (p : E → Bool) (hp : ∀ i (h : i < xs.length), hits f xs i = p xs[i])
    (f2 : cancellation_token Nat → Nat) (hf2 : ∀ tok, f2 tok = tok.best) :
    (∀ r, partitioner_call_with_index (loop_idx_n_step stop f) f2 xs sizes
        (cancellation_token.create smaller_index_wins xs.length) sched = some r →
      r = xs.findIdx p) ∧
    ((∀ j, j < sizes.length → (B + 2) * sizes.getD j 0 + 1 ≤ sched.count j) →
      partitioner_call_with_index (loop_idx_n_step stop f) f2 xs sizes
        (cancellation_token.create smaller_index_wins xs.length) sched =
          some (xs.findIdx p)) := by
  obtain ⟨hsafe, hlive⟩ := smaller_index_run stop hstop f hf B hB xs sizes hsum sched _ rfl
  have hval : ∀ r, partitioner_call_with_index (loop_idx_n_step stop f) f2 xs sizes
        (cancellation_token.create smaller_index_wins xs.length) sched = some r →
      r = xs.findIdx p := by
    intro r hr
    unfold partitioner_call_with_index at hr
    simp only [] at hr
    split at hr
    · rename_i hall
      cases hr
      rw [hf2]
      obtain ⟨h1, h2⟩ := hsafe hall
      exact first_hit_eq_findIdx f p xs hp _ h1 h2
    · exact absurd hr (by simp)
  refine ⟨hval, ?_⟩
  intro hfair
  have hall := hlive hfair
  have hsome : ∃ r, partitioner_call_with_index (loop_idx_n_step stop f) f2 xs sizes
      (cancellation_token.create smaller_index_wins xs.length) sched = some r := by
    unfold partitioner_call_with_index
    simp only []
    rw [if_pos hall]
    exact ⟨_, rfl⟩
  obtain ⟨r, hr⟩ := hsome
  rw [hr, hval r hr]

/-- C15: on an empty range the parallel `find` returns `last` (position 0),
whatever chunks or schedule it is given, for it creates no chunk; and this is
the value of its combine function `f2` on the untouched token, which is also
what the partitioner returns when it is called with no chunk. -/
theorem find_parallel_empty_range (stop : cancellation_token Nat → Nat → Bool)
    (proj : E → A) (val : A) (sizes sched : List Nat) :
    find_parallel stop proj val ([] : List E) sizes sched = some 0 ∧
    find_f2 0 (cancellation_token.create smaller_index_wins 0) = 0 ∧
    partitioner_call_with_index (loop_idx_n_step stop (find_f1 proj val)) (find_f2 0)
      ([] : List E) [] (cancellation_token.create smaller_index_wins 0) sched = some 0 := by
  refine ⟨rfl, rfl, ?_⟩
  unfold partitioner_call_with_index
  simp only [chunk_tasks]
  rw [par_run_no_workers]
  rfl

end FindProofs

section FindIfNotProofs

variable {E A : Type}

theorem find_if_not_f1_hits (f : A → Bool) (proj : E → A) (xs : List E) (i : Nat)
    (h : i < xs.length) :
    hits (find_if_not_f1 f proj) xs i = !f (proj xs[i]) := by
  simp only [hits, List.getElem?_eq_getElem h, find_if_not_f1]
  cases f (proj xs[i]) <;> simp

/-- C16: for every range, predicate, projection, division into consecutive
chunks and interleaving of the chunk tasks, and for every early-exit test that
lets a task stop only when its current index would not improve on the token,
the parallel `find_if_not` returns, whenever it returns, the position of the
first element that does not satisfy the predicate (`last` when all do); and it
does return once every chunk task has been scheduled `3 * size + 1` times. -/
theorem find_if_not_parallel_first_failure (stop : cancellation_token Nat → Nat → Bool)
    (hstop : ∀ tok i, stop tok i = true → tok.compare i tok.best = false)
    (f : A → Bool) (proj : E → A) (xs : List E) (sizes : List Nat)
    (hsum : sizes.sum = xs.length) (sched : List Nat) :
    (∀ r, find_if_not_parallel stop f proj xs sizes sched = some r →
      r = xs.findIdx (fun v => !f (proj v))) ∧
    ((∀ j, j < sizes.length → 3 * sizes.getD j 0 + 1 ≤ sched.count j) →
      find_if_not_parallel stop f proj xs sizes sched =
        some (xs.findIdx (fun v => !f (proj v)))) := by
  by_cases hc : xs.length ≤ 0
  · have hnil : xs = [] := List.length_eq_zero.mp (by omega)
    subst hnil
    refine ⟨?_, fun _ => rfl⟩
    intro r hr
    have h0 : find_if_not_parallel stop f proj ([] : List E) sizes sched = some 0 := rfl
    rw [h0] at hr
    cases hr
    rfl
  · have hcall := smaller_index_call stop hstop (find_if_not_f1 f proj)
      (fun v i c hc => by
        unfold find_if_not_f1 at hc
        split at hc
        · simpa using hc
        · simp at hc)
      1 (fun v i => by unfold find_if_not_f1; split <;> simp) xs sizes hsum sched
      (fun v => !f (proj v)) (fun i h => find_if_not_f1_hits f proj xs i h)
      (find_if_not_f2 xs.length)
      (fun tok => by
        simp only [find_if_not_f2, cancellation_token.get_data]
        split <;> omega)
    have hdef : find_if_not_parallel stop f proj xs sizes sched =
        partitioner_call_with_index (loop_idx_n_step stop (find_if_not_f1 f proj))
          (find_if_not_f2 xs.length) xs sizes
          (cancellation_token.create smaller_index_wins xs.length) sched := by
      unfold find_if_not_parallel
      simp only []
      rw [if_neg hc]
    rw [hdef]
    exact hcall

end FindIfNotProofs

section FindExamples

theorem was_cancelled_at_sound {T : Type} (of_index : Nat → T)
    (tok : cancellation_token T) (i : Nat)
    (h : was_cancelled_at of_index tok i = true) :
    tok.compare (of_index i) tok.best = false := by
  simp only [was_cancelled_at, Bool.and_eq_true, Bool.not_eq_true'] at h
  exact h.2

/-- C3 at a concrete input: the range `[1, 5, 3, 5]` searched for 5 in two
chunks of two elements, the second chunk running to its end before the first
one starts. -/
theorem find_parallel_first_match_witness :
    find_parallel (was_cancelled_at id) (fun x : Nat => x) 5 [1, 5, 3, 5] [2, 2]
      [1, 1, 1, 1, 1, 1, 1, 0, 0, 0, 0, 0, 0, 0] = some 1 :=
  (find_parallel_first_match (was_cancelled_at id) (was_cancelled_at_sound id)
    (fun x : Nat => x) 5 [1, 5, 3, 5] [2, 2] (by decide)
    [1, 1, 1, 1, 1, 1, 1, 0, 0, 0, 0, 0, 0, 0]).2 (by decide)

/-- Why the early-exit test has to look at the index: were a task to stop as
soon as the flag of the token is set, the same run would return the match of
the second chunk. -/
theorem find_parallel_flag_only_exit :
    find_parallel (fun tok _ => tok.was_cancelled) (fun x : Nat => x) 5 [1, 5, 3, 5] [2, 2]
      [1, 1, 1, 1, 1, 1, 1, 0, 0, 0, 0, 0, 0, 0] = some 3 := by
  decide

/-- C16 at a concrete input: the first odd element of `[2, 4, 5, 6, 7]`, two
chunks, the second chunk running first. -/
theorem find_if_not_parallel_first_failure_witness :
    find_if_not_parallel (was_cancelled_at id) (fun x : Nat => decide (x % 2 = 0))
      (fun x : Nat => x) [2, 4, 5, 6, 7] [3, 2]
      [1, 1, 1, 1, 1, 1, 1, 0, 0, 0, 0, 0, 0, 0, 0, 0, 0] = some 2 :=
  (find_if_not_parallel_first_failure (was_cancelled_at id) (was_cancelled_at_sound id)
    (fun x : Nat => decide (x % 2 = 0)) (fun x : Nat => x) [2, 4, 5, 6, 7] [3, 2]
    (by decide) [1, 1, 1, 1, 1, 1, 1, 0, 0, 0, 0, 0, 0, 0, 0, 0, 0]).2 (by decide)

end FindExamples

section FindFirstOfProofs

variable {E1 E2 A B : Type}

theorem find_first_of_inner_eq_any (f : E1 → E2 → Bool) (v : E1) (s : List E2) :
    find_first_of_inner f v s = s.any (f v) := by
  induction s with
  | nil => rfl
  | cons b iter ih =>
      simp only [find_first_of_inner, List.any_cons, ih]
      cases f v b <;> simp

theorem find_first_of_loop_eq_findIdx (f : E1 → E2 → Bool) (s : List E2) :
    ∀ (xs : List E1) (pos : Nat),
      find_first_of_loop f s xs pos = pos + xs.findIdx (fun v => s.any (f v)) := by
  intro xs
  induction xs with
  | nil => intro pos; simp [find_first_of_loop]
  | cons v rest ih =>
      intro pos
      simp only [find_first_of_loop, List.findIdx_cons, find_first_of_inner_eq_any]
      cases h : s.any (f v)
      · simp only [Bool.false_eq_true, if_false, ih, cond_false]
        omega
      · simp

/-- C9: sequential `find_first_of` returns the position of the first element of
the range that the predicate, applied to the projected elements, relates to
some element of the set range, and `last` when there is no such element: the
result is at most the length, the element at the result (if any) has a partner
in the set range, and no element before the result has one. -/
theorem find_first_of_sequential_first_match (op : A → B → Bool) (proj1 : E1 → A)
    (proj2 : E2 → B) (xs : List E1) (s : List E2) :
    find_first_of_sequential op proj1 proj2 xs s =
      xs.findIdx (fun v => s.any (fun y => op (proj1 v) (proj2 y))) ∧
    find_first_of_sequential op proj1 proj2 xs s ≤ xs.length ∧
    (∀ v, xs[find_first_of_sequential op proj1 proj2 xs s]? = some v →
      ∃ y ∈ s, op (proj1 v) (proj2 y) = true) ∧
    (∀ i v, i < find_first_of_sequential op proj1 proj2 xs s → xs[i]? = some v →
      ∀ y ∈ s, op (proj1 v) (proj2 y) = false) := by
  have heq : find_first_of_sequential op proj1 proj2 xs s =
      xs.findIdx (fun v => s.any (fun y => op (proj1 v) (proj2 y))) := by
    cases xs with
    | nil => rfl
    | cons a rest =>
        simp only [find_first_of_sequential, find_first_of_loop_eq_findIdx, Nat.zero_add]
        rfl
  refine ⟨heq, ?_, ?_, ?_⟩
  · rw [heq]
    exact List.findIdx_le_length _
  · intro v hv
    rw [heq] at hv
    obtain ⟨hlt, hget⟩ := List.getElem?_eq_some.mp hv
    have := @List.findIdx_getElem _ (fun v => s.any (fun y => op (proj1 v) (proj2 y))) xs hlt
    rw [hget] at this
    simpa using this
  · intro i v hi hv y hy
    rw [heq] at hi
    obtain ⟨hlt, hget⟩ := List.getElem?_eq_some.mp hv
    have := List.not_of_lt_findIdx hi
    rw [hget] at this
    simp only [List.any_eq_false] at this
    simpa using this y hy

/-- C6 fails under the sequential strategy: for the range `[1]` and the longer
set `[1, 2]` sequential `find_first_of` returns position 0, the match, and not
`last` (position 1); the parallel strategy returns `last` there, whatever the
chunks and their interleaving. -/
theorem find_first_of_sequential_longer_set :
    find_first_of_sequential (fun a b : Nat => decide (a = b)) id id [1] [1, 2] = 0 ∧
    ∀ stop sizes sched,
      find_first_of_parallel stop (fun a b : Nat => decide (a = b)) id id [1] [1, 2]
        sizes sched = some 1 := by
  refine ⟨by decide, ?_⟩
  intro stop sizes sched
  rfl

/-- The parallel `find_first_of` returns `last` whenever the set range is
longer than the searched range. -/
theorem find_first_of_parallel_longer_set (stop : cancellation_token Nat → Nat → Bool)
    (op : A → B → Bool) (proj1 : E1 → A) (proj2 : E2 → B) (xs : List E1) (s : List E2)
    (sizes sched : List Nat) (h : xs.length < s.length) :
    find_first_of_parallel stop op proj1 proj2 xs s sizes sched = some xs.length := by
  unfold find_first_of_parallel
  simp only []
  split_ifs <;> rfl

end FindFirstOfProofs

section IncludesProofs

variable {E1 E2 A : Type}

/-- C5 fails under the parallel strategy: with both ranges empty the parallel
`includes` returns false, whatever the chunk phase, while the sequential one
returns true. -/
theorem includes_parallel_both_empty :
    (∀ chunk_phase : List Nat → List Nat → Bool, includes_parallel chunk_phase [] [] = false) ∧
    includes_sequential (fun a b : Nat => decide (a < b)) id id [] [] = true :=
  ⟨fun _ => rfl, rfl⟩

/-- With an empty second range the sequential `includes` returns true for
every first range, and the parallel one for every non-empty first range. -/
theorem includes_empty_second (f : A → A → Bool) (proj1 : E1 → A) (proj2 : E2 → A)
    (chunk_phase : List E1 → List E2 → Bool) (xs : List E1) :
    includes_sequential f proj1 proj2 xs [] = true ∧
    (xs ≠ [] → includes_parallel chunk_phase xs [] = true) := by
  refine ⟨?_, ?_⟩
  · cases xs <;> rfl
  · intro h
    cases xs with
    | nil => exact absurd rfl h
    | cons a rest => rfl

theorem sequential_includes_of_subsequence_aux (f : A → A → Bool) (proj1 : E1 → A)
    (proj2 : E2 → A)
    (hneg : ∀ a b c, f a b = true → f a c = true ∨ f c b = true) :
    ∀ (xs : List E1) (ys : List E2) (l : List E1),
      xs.Pairwise (fun a b => f (proj1 b) (proj1 a) = false) →
      l.Sublist xs →
      List.Forall₂
        (fun x y => f (proj1 x) (proj2 y) = false ∧ f (proj2 y) (proj1 x) = false) l ys →
      sequential_includes f proj1 proj2 xs ys = true := by
  intro xs
  induction xs with
  | nil =>
      intro ys l _ hsub hall
      have hl : l = [] := List.sublist_nil.mp hsub
      subst hl
      cases hall
      rfl
  | cons x rest ih =>
      intro ys l hsorted hsub hall
      cases ys with
      | nil => rfl
      | cons y ys' =>
          cases hall with
          | cons hzy hrest =>
              rename_i z l'
              have hsorted' := (List.pairwise_cons.mp hsorted).2
              have hxle := (List.pairwise_cons.mp hsorted).1
              -- the partner of `y` is `x` or lies further on
              have hz : z = x ∨ z ∈ rest := by
                have : z ∈ x :: rest := hsub.subset (List.mem_cons_self _ _)
                simpa using this
              have hyx : f (proj2 y) (proj1 x) = false := by
                rcases hz with hz | hz
                · rw [← hz]; exact hzy.2
                · by_contra hcon
                  have h1 : f (proj2 y) (proj1 x) = true := by simpa using hcon
                  rcases hneg _ _ (proj1 z) h1 with h2 | h2
                  · rw [hzy.2] at h2; exact absurd h2 (by simp)
                  · rw [hxle z hz] at h2; exact absurd h2 (by simp)
              have htail : l'.Sublist rest := by
                cases hsub with
                | cons _ h => exact (List.sublist_cons_self z l').trans h
                | cons₂ _ h => exact h
              rw [sequential_includes, hyx]
              simp only [Bool.false_eq_true, if_false]
              by_cases hxy : f (proj1 x) (proj2 y) = true
              · have hskip : (z :: l').Sublist rest := by
                  cases hsub with
                  | cons _ h => exact h
                  | cons₂ _ h =>
                      rw [hzy.1] at hxy
                      exact absurd hxy (by simp)
                rw [hxy]
                simp only [Bool.not_true, Bool.false_eq_true, if_false]
                exact ih (y :: ys') (z :: l') hsorted' hskip (List.Forall₂.cons hzy hrest)
              · have hxy' : f (proj1 x) (proj2 y) = false := by simpa using hxy
                rw [hxy']
                simp only [Bool.not_false, if_true]
                exact ih ys' l' hsorted' htail hrest

/-- C10 (amended): for a first range sorted by `f`, a comparison with
`f a b → f a c ∨ f c b` (as every strict weak order has), sequential
`includes` returns true whenever the second range is, element for element and
in order, equivalent under `f` to a subsequence of the first range, each
element of the second range having a partner of its own. -/
theorem sequential_includes_of_subsequence (f : A → A → Bool) (proj1 : E1 → A)
    (proj2 : E2 → A)
    (hneg : ∀ a b c, f a b = true → f a c = true ∨ f c b = true)
    (xs : List E1) (ys : List E2)
    (hsorted : xs.Pairwise (fun a b => f (proj1 b) (proj1 a) = false))
    (hincl : included_as_subsequence f proj1 proj2 xs ys) :
    sequential_includes f proj1 proj2 xs ys = true := by
  obtain ⟨l, hsub, hall⟩ := hincl
  exact sequential_includes_of_subsequence_aux f proj1 proj2 hneg xs ys l hsorted hsub hall

/-- C10 (amended) at a concrete input: `[2, 2]` within `[1, 2, 2, 3]` under `<`. -/
theorem sequential_includes_of_subsequence_witness :
    sequential_includes (fun a b : Nat => decide (a < b)) id id [1, 2, 2, 3] [2, 2] = true :=
  sequential_includes_of_subsequence (fun a b : Nat => decide (a < b)) id id
    (fun a b c h => by
      simp only [decide_eq_true_eq] at h ⊢
      omega)
    [1, 2, 2, 3] [2, 2] (by decide)
    ⟨[2, 2], by decide, by
      refine List.Forall₂.cons (by decide) (List.Forall₂.cons (by decide) List.Forall₂.nil)⟩

/-- The converse: a true result of sequential `includes` exhibits the second
range as a subsequence of the first, up to equivalence. -/
theorem subsequence_of_sequential_includes (f : A → A → Bool) (proj1 : E1 → A)
    (proj2 : E2 → A) :
    ∀ (xs : List E1) (ys : List E2), sequential_includes f proj1 proj2 xs ys = true →
      included_as_subsequence f proj1 proj2 xs ys := by
  intro xs
  induction xs with
  | nil =>
      intro ys h
      cases ys with
      | nil => exact ⟨[], List.Sublist.slnil, List.Forall₂.nil⟩
      | cons y ys' => simp [sequential_includes] at h
  | cons x rest ih =>
      intro ys h
      cases ys with
      | nil => exact ⟨[], List.nil_sublist _, List.Forall₂.nil⟩
      | cons y ys' =>
          rw [sequential_includes] at h
          by_cases hyx : f (proj2 y) (proj1 x) = true
          · rw [if_pos hyx] at h
            exact absurd h (by simp)
          · rw [if_neg hyx] at h
            by_cases hxy : f (proj1 x) (proj2 y) = true
            · rw [hxy] at h
              simp only [Bool.not_true, Bool.false_eq_true, if_false] at h
              obtain ⟨l, hsub, hall⟩ := ih (y :: ys') h
              exact ⟨l, List.Sublist.cons x hsub, hall⟩
            · have hxy' : f (proj1 x) (proj2 y) = false := by simpa using hxy
              rw [hxy'] at h
              simp only [Bool.not_false, if_true] at h
              obtain ⟨l, hsub, hall⟩ := ih ys' h
              exact ⟨x :: l, List.Sublist.cons₂ x hsub,
                List.Forall₂.cons ⟨hxy', by simpa using hyx⟩ hall⟩

/-- C10 as stated fails: both ranges sorted by `<`, every element of `[1, 1]`
equivalent to an element of `[1]`, and yet sequential `includes` returns
false. -/
theorem sequential_includes_multiplicity_counterexample :
    List.Pairwise (fun a b : Nat => decide (b < a) = false) [1] ∧
    List.Pairwise (fun a b : Nat => decide (b < a) = false) [1, 1] ∧
    (∀ y ∈ [1, 1], ∃ x ∈ [1], decide (x < y) = false ∧ decide (y < x) = false) ∧
    sequential_includes (fun a b : Nat => decide (a < b)) id id [1] [1, 1] = false := by
  decide

end IncludesProofs

section FindEndProofs

variable {E1 E2 A B : Type}

theorem sequential_search_inner_found_iff (op : A → B → Bool) (proj1 : E1 → A)
    (proj2 : E2 → B) :
    ∀ (p : List E2) (s : List E1),
      sequential_search_inner op proj1 proj2 s p = .found ↔
        List.Forall₂ (fun a b => op (proj1 a) (proj2 b) = true) (s.take p.length) p := by
  intro p
  induction p with
  | nil =>
      intro s
      cases s <;> simp [sequential_search_inner]
  | cons b p' ih =>
      intro s
      cases s with
      | nil => simp [sequential_search_inner]
      | cons a s' =>
          simp only [sequential_search_inner, List.length_cons, List.take_succ_cons,
            List.forall₂_cons]
          by_cases hab : op (proj1 a) (proj2 b) = true
          · simp only [hab, Bool.not_true, Bool.false_eq_true, if_false, true_and]
            exact ih s'
          · have hab' : op (proj1 a) (proj2 b) = false := by simpa using hab
            simp [hab']

theorem sequential_search_inner_ran_out (op : A → B → Bool) (proj1 : E1 → A)
    (proj2 : E2 → B) :
    ∀ (p : List E2) (s : List E1),
      sequential_search_inner op proj1 proj2 s p = .ran_out → s.length < p.length := by
  intro p
  induction p with
  | nil =>
      intro s h
      cases s <;> simp [sequential_search_inner] at h
  | cons b p' ih =>
      intro s h
      cases s with
      | nil => simp
      | cons a s' =>
          simp only [sequential_search_inner] at h
          split at h
          · exact absurd h (by simp)
          · have := ih s' h
            simp only [List.length_cons]
            omega

theorem occurs_at_bound (op : A → B → Bool) (proj1 : E1 → A) (proj2 : E2 → B)
    (h : List E1) (p : List E2) (i : Nat) (hocc : occurs_at op proj1 proj2 h p i) :
    p.length ≤ h.length - i := by
  have := List.Forall₂.length_eq hocc
  simp only [List.length_take, List.length_drop] at this
  omega

theorem sequential_search_spec (op : A → B → Bool) (proj1 : E1 → A) (proj2 : E2 → B)
    (h : List E1) (p : List E2) (hp : p ≠ []) :
    ∀ (s : List E1) (pos : Nat), s = h.drop pos → pos ≤ h.length →
      (sequential_search op proj1 proj2 s pos p = h.length ∧
        ∀ i, pos ≤ i → ¬ occurs_at op proj1 proj2 h p i) ∨
      (pos ≤ sequential_search op proj1 proj2 s pos p ∧
        sequential_search op proj1 proj2 s pos p < h.length ∧
        occurs_at op proj1 proj2 h p (sequential_search op proj1 proj2 s pos p) ∧
        ∀ i, pos ≤ i → i < sequential_search op proj1 proj2 s pos p →
          ¬ occurs_at op proj1 proj2 h p i) := by
  have hplen : 0 < p.length := List.length_pos.mpr hp
  intro s
  induction s with
  | nil =>
      intro pos hs hle
      left
      have hlen : (h.drop pos).length = 0 := by rw [← hs]; rfl
      rw [List.length_drop] at hlen
      refine ⟨?_, ?_⟩
      · have hr : sequential_search op proj1 proj2 [] pos p = pos := by
          simp only [sequential_search]
          split <;> rfl
        rw [hr]
        omega
      · intro i hi hocc
        have := occurs_at_bound op proj1 proj2 h p i hocc
        omega
  | cons a rest ih =>
      intro pos hs hle
      have hlen : (h.drop pos).length = rest.length + 1 := by rw [← hs]; rfl
      rw [List.length_drop] at hlen
      have hrest : rest = h.drop (pos + 1) := by
        have : (h.drop pos).tail = rest := by rw [← hs]; rfl
        rw [← this, List.tail_drop]
      simp only [sequential_search]
      cases hin : sequential_search_inner op proj1 proj2 (a :: rest) p with
      | found =>
          right
          simp only []
          refine ⟨Nat.le_refl _, by omega, ?_, fun i h1 h2 => by omega⟩
          unfold occurs_at
          rw [← hs]
          exact (sequential_search_inner_found_iff op proj1 proj2 p _).mp hin
      | ran_out =>
          left
          simp only []
          refine ⟨by simp only [List.length_cons]; omega, ?_⟩
          intro i hi hocc
          have h1 := sequential_search_inner_ran_out op proj1 proj2 p _ hin
          have h2 := occurs_at_bound op proj1 proj2 h p i hocc
          simp only [List.length_cons] at h1
          omega
      | mismatch =>
          simp only []
          have hno : ¬ occurs_at op proj1 proj2 h p pos := by
            intro hocc
            unfold occurs_at at hocc
            rw [← hs] at hocc
            have := (sequential_search_inner_found_iff op proj1 proj2 p _).mpr hocc
            rw [hin] at this
            exact absurd this (by simp)
          rcases ih (pos + 1) hrest (by omega) with ⟨h1, h2⟩ | ⟨h1, h2, h3, h4⟩
          · left
            refine ⟨h1, ?_⟩
            intro i hi
            by_cases hip : i = pos
            · rw [hip]; exact hno
            · exact h2 i (by omega)
          · right
            refine ⟨by omega, h2, h3, ?_⟩
            intro i hi hi2
            by_cases hip : i = pos
            · rw [hip]; exact hno
            · exact h4 i (by omega) hi2

theorem sequential_find_end_loop_spec (op : A → B → Bool) (proj1 : E1 → A)
    (proj2 : E2 → B) (h : List E1) (p : List E2) (hp : p ≠ []) :
    ∀ (fuel first1 result : Nat), first1 ≤ h.length → h.length - first1 < fuel →
      ((result = h.length ∧ ∀ i, i < first1 → ¬ occurs_at op proj1 proj2 h p i) ∨
        (result < first1 ∧ occurs_at op proj1 proj2 h p result ∧
          ∀ i, result < i → i < first1 → ¬ occurs_at op proj1 proj2 h p i)) →
      ∃ r, sequential_find_end_loop op proj1 proj2 h p fuel first1 result = some r ∧
        ((r = h.length ∧ ∀ i, ¬ occurs_at op proj1 proj2 h p i) ∨
          (r < h.length ∧ occurs_at op proj1 proj2 h p r ∧
            ∀ i, occurs_at op proj1 proj2 h p i → i ≤ r)) := by
  intro fuel
  induction fuel with
  | zero => intro first1 result _ hf; omega
  | succ fuel ih =>
      intro first1 result hle hfuel hinv
      simp only [sequential_find_end_loop]
      rcases sequential_search_spec op proj1 proj2 h p hp (h.drop first1) first1 rfl hle with
        ⟨h1, h2⟩ | ⟨h1, h2, h3, h4⟩
      · rw [if_pos h1]
        refine ⟨result, rfl, ?_⟩
        rcases hinv with ⟨hr, hno⟩ | ⟨hr, hocc, hno⟩
        · left
          refine ⟨hr, ?_⟩
          intro i
          by_cases hi : i < first1
          · exact hno i hi
          · exact h2 i (by omega)
        · right
          refine ⟨by omega, hocc, ?_⟩
          intro i hi
          by_contra hgt
          by_cases hi1 : i < first1
          · exact hno i (by omega) hi1 hi
          · exact h2 i (by omega) hi
      · rw [if_neg (by omega)]
        apply ih _ _ (by omega) (by omega)
        right
        refine ⟨by omega, h3, ?_⟩
        intro i hi hi2
        omega

/-- C8: sequential `find_end` returns a position: `last1` when the sequence is
empty, when it is longer than the range and when it occurs nowhere in the
range; otherwise the greatest position at which the range matches the sequence
element by element. -/
theorem sequential_find_end_last_occurrence (op : A → B → Bool) (proj1 : E1 → A)
    (proj2 : E2 → B) (h : List E1) (p : List E2) :
    ∃ r, sequential_find_end op proj1 proj2 h p = some r ∧ r ≤ h.length ∧
      (p = [] → r = h.length) ∧
      (h.length < p.length → r = h.length) ∧
      ((∀ i, ¬ occurs_at op proj1 proj2 h p i) → r = h.length) ∧
      (p ≠ [] → ∀ i, occurs_at op proj1 proj2 h p i →
        occurs_at op proj1 proj2 h p r ∧ i ≤ r ∧ r < h.length) := by
  cases p with
  | nil =>
      refine ⟨h.length, rfl, Nat.le_refl _, fun _ => rfl, fun _ => rfl, fun _ => rfl, ?_⟩
      intro hne
      exact absurd rfl hne
  | cons b p' =>
      obtain ⟨r, hr, hspec⟩ :=
        sequential_find_end_loop_spec op proj1 proj2 h (b :: p') (by simp)
          (h.length + 1) 0 h.length (Nat.zero_le _) (by omega)
          (Or.inl ⟨rfl, fun i hi => by omega⟩)
      refine ⟨r, hr, ?_, ?_, ?_, ?_, ?_⟩
      · rcases hspec with ⟨h1, _⟩ | ⟨h1, _⟩ <;> omega
      · intro hnil
        exact absurd hnil (by simp)
      · intro hlen
        rcases hspec with ⟨h1, _⟩ | ⟨_, h2, _⟩
        · exact h1
        · have := occurs_at_bound op proj1 proj2 h (b :: p') r h2
          omega
      · intro hno
        rcases hspec with ⟨h1, _⟩ | ⟨_, h2, _⟩
        · exact h1
        · exact absurd h2 (hno r)
      · intro _ i hi
        rcases hspec with ⟨_, h2⟩ | ⟨h1, h2, h3⟩
        · exact absurd hi (h2 i)
        · exact ⟨h2, h3 i hi, h1⟩

end FindEndProofs

section FindEndExamples

/-- C4 fails: for the range `[1, 5]` and the sequence `[1, 5]` under equality
the sequential `find_end` returns position 0 and the parallel one `last1`
(position 2). -/
theorem find_end_parallel_differs_from_sequential :
    sequential_find_end (fun a b : Int => decide (a = b)) id id [1, 5] [1, 5] = some 0 ∧
    find_end_parallel (was_cancelled_at Int.ofNat) (fun x : Int => x + 1)
      (fun a b : Int => decide (a = b)) id id [1, 5] [1, 5] [1] [0, 0, 0, 0] = some 2 := by
  decide

/-- On consecutive values, which the `++` of the element type reproduces, the
two strategies of `find_end` agree. -/
theorem find_end_parallel_consecutive_values :
    sequential_find_end (fun a b : Int => decide (a = b)) id id [7, 1, 2, 9, 1, 2] [1, 2]
      = some 4 ∧
    find_end_parallel (was_cancelled_at Int.ofNat) (fun x : Int => x + 1)
      (fun a b : Int => decide (a = b)) id id [7, 1, 2, 9, 1, 2] [1, 2] [3, 2]
      [0, 0, 0, 0, 0, 0, 0, 0, 0, 0, 1, 1, 1, 1, 1, 1, 1, 1] = some 4 := by
  decide

end FindEndExamples

section NthElementProofs

variable {E : Type}

theorem getElem?_append_length (A C : List E) (x : E) :
    (A ++ x :: C)[A.length]? = some x := by
  rw [List.getElem?_append_right (Nat.le_refl _), Nat.sub_self, List.getElem?_cons_zero]

theorem iter_swap_same (A C : List E) (x : E) :
    iter_swap (A ++ x :: C) A.length A.length = A ++ x :: C := by
  unfold iter_swap
  rw [getElem?_append_length]
  simp only []
  rw [List.set_append_right _ _ (Nat.le_refl _), Nat.sub_self, List.set_cons_zero,
    List.set_append_right _ _ (Nat.le_refl _), Nat.sub_self, List.set_cons_zero]

theorem iter_swap_append (A B C : List E) (x y : E) :
    iter_swap (A ++ x :: (B ++ y :: C)) A.length (A.length + (B.length + 1)) =
      A ++ y :: (B ++ x :: C) := by
  unfold iter_swap
  have h2 : (A ++ x :: (B ++ y :: C))[A.length + (B.length + 1)]? = some y := by
    rw [List.getElem?_append_right (by omega), Nat.add_sub_cancel_left,
      List.getElem?_cons_succ, getElem?_append_length]
  rw [getElem?_append_length, h2]
  simp only []
  rw [List.set_append_right _ _ (by omega), Nat.sub_self, List.set_cons_zero,
    List.set_append_right _ _ (by omega), Nat.add_sub_cancel_left, List.set_cons_succ,
    List.set_append_right _ _ (by omega), Nat.sub_self, List.set_cons_zero]

/-- Swapping the pivot with the last element of the first group puts the
pivot between the two groups. -/
theorem swap_pivot_spec (L R rest : List E) (pivot : E) (k : Nat) (hk : k ≤ rest.length) :
    ∃ lo, iter_swap (L ++ (pivot :: rest) ++ R) L.length (L.length + 1 + k - 1) =
        L ++ lo ++ pivot :: (rest.drop k ++ R) ∧
      lo.length = k ∧ lo.Perm (rest.take k) := by
  cases k with
  | zero =>
      refine ⟨[], ?_, rfl, by simp⟩
      have h : L.length + 1 + 0 - 1 = L.length := by omega
      rw [h, List.append_assoc, List.cons_append, iter_swap_same]
      simp
  | succ k =>
      have hlt : k < rest.length := by omega
      have hsplit : rest = rest.take k ++ rest[k] :: rest.drop (k + 1) := by
        rw [← List.drop_eq_getElem_cons hlt, List.take_append_drop]
      refine ⟨rest[k] :: rest.take k, ?_, by simp; omega, ?_⟩
      · have h : L.length + 1 + (k + 1) - 1 = L.length + ((rest.take k).length + 1) := by
          rw [List.length_take]
          omega
        have ha : L ++ pivot :: rest ++ R =
            L ++ pivot :: (rest.take k ++ rest[k] :: (rest.drop (k + 1) ++ R)) := by
          have hr : rest ++ R = rest.take k ++ rest[k] :: (rest.drop (k + 1) ++ R) := by
            rw [← List.cons_append, ← List.append_assoc, ← hsplit]
          rw [List.append_assoc, List.cons_append, hr]
        rw [ha, h, iter_swap_append]
        simp
      · rw [List.take_succ, List.getElem?_eq_getElem hlt]
        simp only [Option.toList_some]
        exact (List.perm_append_singleton _ _).symm

theorem nth_element_loop_spec (pivot9 : (E → E → Bool) → List E → List E)
    (partition : (E → Bool) → (E → E) → List E → List E × Nat)
    (pred : E → E → Bool) (proj : E → E) (nth : Nat)
    (hirr : ∀ a, pred a a = false)
    (htrans : ∀ a b c, pred a b = true → pred b c = true → pred a c = true)
    (hpivot : ∀ l, (pivot9 pred l).Perm l)
    (hpart : ∀ q pj l, (partition q pj l).1.Perm l ∧
      (partition q pj l).2 ≤ (partition q pj l).1.length ∧
      (∀ x ∈ (partition q pj l).1.take (partition q pj l).2, q (pj x) = true) ∧
      (∀ x ∈ (partition q pj l).1.drop (partition q pj l).2, q (pj x) = false)) :
    ∀ (fuel : Nat) (L M R : List E), L.length ≤ nth → nth < L.length + M.length →
      M.length ≤ fuel →
      (∀ x ∈ L, ∀ y ∈ M ++ R, pred (proj y) (proj x) = false) →
      (∀ x ∈ L ++ M, ∀ y ∈ R, pred (proj y) (proj x) = false) →
      ∃ a' x, nth_element_loop pivot9 partition pred proj nth fuel (L ++ M ++ R)
          L.length (L.length + M.length) = some a' ∧
        a'.Perm (L ++ M ++ R) ∧ a'[nth]? = some x ∧
        (∀ z ∈ a'.take nth, pred (proj x) (proj z) = false) ∧
        (∀ w ∈ a'.drop (nth + 1), pred (proj w) (proj x) = false) ∧
        (∀ z ∈ a'.take nth, ∀ w ∈ a'.drop (nth + 1), pred (proj w) (proj z) = false) := by
  intro fuel
  induction fuel with
  | zero => intro L M R h1 h2 h3; omega
  | succ fuel ih =>
      intro L M R hL hnth hfuel hinvL hinvR
      have hseg : ((L ++ M ++ R).drop L.length).take (L.length + M.length - L.length) = M := by
        rw [List.append_assoc, List.drop_left, Nat.add_sub_cancel_left, List.take_left]
      have htake : (L ++ M ++ R).take L.length = L := by
        rw [List.append_assoc, List.take_left]
      have hdrop : (L ++ M ++ R).drop (L.length + M.length) = R := by
        rw [← List.length_append, List.drop_left]
      rw [nth_element_loop, if_neg (by omega), hseg]
      cases hpv : pivot9 pred M with
      | nil =>
          have := (hpivot M).length_eq
          rw [hpv] at this
          simp at this
          omega
      | cons pivot rest =>
          simp only []
          rw [htake, hdrop]
          obtain ⟨hperm, hk, hlo, hhi⟩ := hpart (fun elem => pred elem (proj pivot)) proj rest
          generalize partition (fun elem => pred elem (proj pivot)) proj rest = part
            at hperm hk hlo hhi ⊢
          obtain ⟨rest', k⟩ := part
          simp only at hperm hk hlo hhi ⊢
          obtain ⟨lo, hswap, hlolen, hloperm⟩ := swap_pivot_spec L R rest' pivot k hk
          rw [hswap]
          have hpi : L.length + 1 + k - 1 = L.length + k := by omega
          rw [hpi]
          have hMperm : (lo ++ pivot :: rest'.drop k).Perm M := by
            have h1 : (lo ++ pivot :: rest'.drop k).Perm (pivot :: (lo ++ rest'.drop k)) :=
              List.perm_middle
            have h2 : (lo ++ rest'.drop k).Perm rest' := by
              have := List.Perm.append_right (rest'.drop k) hloperm
              rwa [List.take_append_drop] at this
            have hpv' := hpivot M
            rw [hpv] at hpv'
            exact h1.trans (((h2.trans hperm).cons pivot).trans hpv')
          have hMlen : lo.length + 1 + (rest'.drop k).length = M.length := by
            have := hMperm.length_eq
            simp only [List.length_append, List.length_cons] at this
            omega
          have hMmem : ∀ z, z ∈ M ↔ z ∈ lo ∨ z = pivot ∨ z ∈ rest'.drop k := by
            intro z
            rw [← hMperm.mem_iff]
            simp
          have hlolt : ∀ z ∈ lo, pred (proj z) (proj pivot) = true :=
            fun z hz => hlo z (hloperm.mem_iff.mp hz)
          have hwhole : (L ++ lo ++ pivot :: (rest'.drop k ++ R)).Perm (L ++ M ++ R) := by
            have h1 : L ++ lo ++ pivot :: (rest'.drop k ++ R) =
                L ++ (lo ++ pivot :: rest'.drop k) ++ R := by simp
            rw [h1]
            exact (List.Perm.append_left L hMperm).append_right R
          -- the two groups are ordered
          have hlohi : ∀ z ∈ lo, ∀ w ∈ rest'.drop k, pred (proj w) (proj z) = false := by
            intro z hz w hw
            by_contra hcon
            have hwz : pred (proj w) (proj z) = true := by simpa using hcon
            have := htrans _ _ _ hwz (hlolt z hz)
            rw [hhi w hw] at this
            exact absurd this (by simp)
          have hpivlo : ∀ z ∈ lo, pred (proj pivot) (proj z) = false := by
            intro z hz
            by_contra hcon
            have hpz : pred (proj pivot) (proj z) = true := by simpa using hcon
            have := htrans _ _ _ hpz (hlolt z hz)
            rw [hirr] at this
            exact absurd this (by simp)
          by_cases h1 : L.length + k < nth
          · rw [if_pos h1]
            have ha2 : L ++ lo ++ pivot :: (rest'.drop k ++ R) =
                (L ++ lo ++ [pivot]) ++ rest'.drop k ++ R := by simp
            have hlen1 : L.length + k + 1 = (L ++ lo ++ [pivot]).length := by
              simp only [List.length_append, List.length_cons, List.length_nil]
              omega
            have hlen2 : L.length + M.length =
                (L ++ lo ++ [pivot]).length + (rest'.drop k).length := by
              simp only [List.length_append, List.length_cons, List.length_nil]
              omega
            obtain ⟨a', x, hrun, hp, hx, hA, hB, hC⟩ :=
              ih (L ++ lo ++ [pivot]) (rest'.drop k) R (by omega) (by omega) (by omega)
                (by
                  intro z hz y hy
                  simp only [List.mem_append, List.mem_singleton] at hz hy
                  rcases hz with (hz | hz) | hz
                  · rcases hy with hy | hy
                    · exact hinvL z hz y
                        (List.mem_append_left _ ((hMmem y).mpr (Or.inr (Or.inr hy))))
                    · exact hinvL z hz y (List.mem_append_right _ hy)
                  · rcases hy with hy | hy
                    · exact hlohi z hz y hy
                    · exact hinvR z
                        (List.mem_append_right _ ((hMmem z).mpr (Or.inl hz))) y hy
                  · subst hz
                    rcases hy with hy | hy
                    · exact hhi y hy
                    · exact hinvR z
                        (List.mem_append_right _ ((hMmem z).mpr (Or.inr (Or.inl rfl)))) y hy)
                (by
                  intro z hz y hy
                  simp only [List.mem_append, List.mem_singleton] at hz
                  rcases hz with ((hz | hz) | hz) | hz
                  · exact hinvR z (List.mem_append_left _ hz) y hy
                  · exact hinvR z
                      (List.mem_append_right _ ((hMmem z).mpr (Or.inl hz))) y hy
                  · exact hinvR z
                      (List.mem_append_right _ ((hMmem z).mpr (Or.inr (Or.inl hz)))) y hy
                  · exact hinvR z
                      (List.mem_append_right _ ((hMmem z).mpr (Or.inr (Or.inr hz)))) y hy)
            rw [ha2, hlen1, hlen2]
            exact ⟨a', x, hrun, hp.trans (by rw [← ha2]; exact hwhole), hx, hA, hB, hC⟩
          · rw [if_neg h1]
            by_cases h2 : L.length + k > nth
            · rw [if_pos h2]
              have ha2 : L ++ lo ++ pivot :: (rest'.drop k ++ R) =
                  L ++ lo ++ (pivot :: (rest'.drop k ++ R)) := rfl
              have hlen2 : L.length + k = L.length + lo.length := by omega
              obtain ⟨a', x, hrun, hp, hx, hA, hB, hC⟩ :=
                ih L lo (pivot :: (rest'.drop k ++ R)) hL (by omega) (by omega)
                  (by
                    intro z hz y hy
                    simp only [List.mem_append, List.mem_cons] at hy
                    rcases hy with hy | hy | hy | hy
                    · exact hinvL z hz y
                        (List.mem_append_left _ ((hMmem y).mpr (Or.inl hy)))
                    · exact hinvL z hz y
                        (List.mem_append_left _ ((hMmem y).mpr (Or.inr (Or.inl hy))))
                    · exact hinvL z hz y
                        (List.mem_append_left _ ((hMmem y).mpr (Or.inr (Or.inr hy))))
                    · exact hinvL z hz y (List.mem_append_right _ hy))
                  (by
                    intro z hz y hy
                    simp only [List.mem_append, List.mem_cons] at hz hy
                    rcases hy with hy | hy | hy
                    · subst hy
                      rcases hz with hz | hz
                      · exact hinvL z hz y
                          (List.mem_append_left _ ((hMmem y).mpr (Or.inr (Or.inl rfl))))
                      · exact hpivlo z hz
                    · rcases hz with hz | hz
                      · exact hinvL z hz y
                          (List.mem_append_left _ ((hMmem y).mpr (Or.inr (Or.inr hy))))
                      · exact hlohi z hz y hy
                    · rcases hz with hz | hz
                      · exact hinvR z (List.mem_append_left _ hz) y hy
                      · exact hinvR z
                          (List.mem_append_right _ ((hMmem z).mpr (Or.inl hz))) y hy)
              rw [hlen2]
              exact ⟨a', x, hrun, hp.trans hwhole, hx, hA, hB, hC⟩
            · rw [if_neg h2]
              have hn : nth = (L ++ lo).length := by
                simp only [List.length_append]
                omega
              have htk : (L ++ lo ++ pivot :: (rest'.drop k ++ R)).take nth = L ++ lo := by
                rw [hn, List.take_left]
              have hdp : (L ++ lo ++ pivot :: (rest'.drop k ++ R)).drop (nth + 1) =
                  rest'.drop k ++ R := by
                have : L ++ lo ++ pivot :: (rest'.drop k ++ R) =
                    (L ++ lo ++ [pivot]) ++ (rest'.drop k ++ R) := by simp
                have hn1 : nth + 1 = (L ++ lo ++ [pivot]).length := by
                  simp only [List.length_append, List.length_cons, List.length_nil]
                  omega
                rw [this, hn1, List.drop_left]
              refine ⟨_, pivot, rfl, hwhole, ?_, ?_, ?_, ?_⟩
              · rw [hn, getElem?_append_length]
              · rw [htk]
                intro z hz
                rcases List.mem_append.mp hz with hz | hz
                · exact hinvL z hz pivot
                    (List.mem_append_left _ ((hMmem pivot).mpr (Or.inr (Or.inl rfl))))
                · exact hpivlo z hz
              · rw [hdp]
                intro w hw
                rcases List.mem_append.mp hw with hw | hw
                · exact hhi w hw
                · exact hinvR pivot
                    (List.mem_append_right _ ((hMmem pivot).mpr (Or.inr (Or.inl rfl)))) w hw
              · rw [htk, hdp]
                intro z hz w hw
                rcases List.mem_append.mp hz with hz | hz
                · rcases List.mem_append.mp hw with hw | hw
                  · exact hinvL z hz w
                      (List.mem_append_left _ ((hMmem w).mpr (Or.inr (Or.inr hw))))
                  · exact hinvL z hz w (List.mem_append_right _ hw)
                · rcases List.mem_append.mp hw with hw | hw
                  · exact hlohi z hz w hw
                  · exact hinvR z
                      (List.mem_append_right _ ((hMmem z).mpr (Or.inl hz))) w hw

theorem split_at_index (l : List E) (i : Nat) (x : E) (h : l[i]? = some x) :
    l = l.take i ++ x :: l.drop (i + 1) ∧ (l.take i).length = i := by
  obtain ⟨hlt, hx⟩ := List.getElem?_eq_some.mp h
  refine ⟨?_, by rw [List.length_take]; omega⟩
  rw [← hx, ← List.drop_eq_getElem_cons hlt, List.take_append_drop]

/-- An element with `nth` elements before it that are not above it and only
elements not below it behind is equivalent to the element at `nth` of any
sorted arrangement. -/
theorem nth_matches_sorted (lt : E → E → Bool) (hirr : ∀ a, lt a a = false)
    (hneg : ∀ a b c, lt a b = true → lt a c = true ∨ lt c b = true)
    (a' s : List E) (hperm : a'.Perm s) (nth : Nat) (x y : E)
    (hx : a'[nth]? = some x) (hy : s[nth]? = some y)
    (hA : ∀ z ∈ a'.take nth, lt x z = false)
    (hB : ∀ w ∈ a'.drop (nth + 1), lt w x = false)
    (hs : s.Pairwise (fun u v => lt v u = false)) :
    lt x y = false ∧ lt y x = false := by
  obtain ⟨ha', hla⟩ := split_at_index a' nth x hx
  obtain ⟨hs', hls⟩ := split_at_index s nth y hy
  rw [hs'] at hs
  obtain ⟨_, hsr, hsl⟩ := List.pairwise_append.mp hs
  have hsy := (List.pairwise_cons.mp hsr).1
  have hsly : ∀ u ∈ s.take nth, lt y u = false :=
    fun u hu => hsl u hu y (List.mem_cons_self _ _)
  refine ⟨?_, ?_⟩
  · by_contra hcon
    have hxy : lt x y = true := by simpa using hcon
    have hc := hperm.countP_eq (fun z => !lt x z)
    rw [ha', hs'] at hc
    simp only [List.countP_append, List.countP_cons] at hc
    have h1 : List.countP (fun z => !lt x z) (a'.take nth) = (a'.take nth).length :=
      List.countP_eq_length.mpr (fun z hz => by simp [hA z hz])
    have h2 : List.countP (fun z => !lt x z) (s.drop (nth + 1)) = 0 :=
      List.countP_eq_zero.mpr (fun v hv => by
        rcases hneg x y v hxy with h | h
        · simp [h]
        · rw [hsy v hv] at h
          exact absurd h (by simp))
    have h3 : List.countP (fun z => !lt x z) (s.take nth) ≤ (s.take nth).length :=
      List.countP_le_length _
    rw [h1, h2, hirr x, hxy, hla] at hc
    rw [hls] at h3
    simp only [Bool.not_false, Bool.not_true, Bool.false_eq_true, if_true, if_false] at hc
    omega
  · by_contra hcon
    have hyx : lt y x = true := by simpa using hcon
    have hc := hperm.countP_eq (fun z => !lt z x)
    rw [ha', hs'] at hc
    simp only [List.countP_append, List.countP_cons] at hc
    have h1 : List.countP (fun z => !lt z x) (a'.drop (nth + 1)) =
        (a'.drop (nth + 1)).length :=
      List.countP_eq_length.mpr (fun w hw => by simp [hB w hw])
    have h2 : List.countP (fun z => !lt z x) (s.take nth) = 0 :=
      List.countP_eq_zero.mpr (fun u hu => by
        rcases hneg y x u hyx with h | h
        · rw [hsly u hu] at h
          exact absurd h (by simp)
        · simp [h])
    have h3 : List.countP (fun z => !lt z x) (s.drop (nth + 1)) ≤
        (s.drop (nth + 1)).length := List.countP_le_length _
    have h4 : List.countP (fun z => !lt z x) (a'.take nth) ≤ (a'.take nth).length :=
      List.countP_le_length _
    have hlen := hperm.length_eq
    have hd1 : (a'.drop (nth + 1)).length = a'.length - (nth + 1) := List.length_drop _ _
    have hd2 : (s.drop (nth + 1)).length = s.length - (nth + 1) := List.length_drop _ _
    rw [h1, h2, hirr x, hyx, hd1] at hc
    rw [hd2] at h3
    rw [hla] at h4
    have hnlt : nth < a'.length := (List.getElem?_eq_some.mp hx).1
    simp only [Bool.not_false, Bool.not_true, Bool.false_eq_true, if_true, if_false] at hc
    omega

theorem stable_partition_model_spec (q : E → Bool) (pj : E → E) (l : List E) :
    (stable_partition_model q pj l).1.Perm l ∧
    (stable_partition_model q pj l).2 ≤ (stable_partition_model q pj l).1.length ∧
    (∀ x ∈ (stable_partition_model q pj l).1.take (stable_partition_model q pj l).2,
      q (pj x) = true) ∧
    (∀ x ∈ (stable_partition_model q pj l).1.drop (stable_partition_model q pj l).2,
      q (pj x) = false) := by
  simp only [stable_partition_model]
  refine ⟨List.filter_append_perm _ l, by simp, ?_, ?_⟩
  · rw [List.take_left]
    intro x hx
    exact (List.mem_filter.mp hx).2
  · rw [List.drop_left]
    intro x hx
    simpa using (List.mem_filter.mp hx).2

/-- C11: for a strict weak order `pred`, a `pivot9` that only rearranges the
range it is given and a `partition` that puts the elements its predicate
accepts first, the parallel `nth_element` applied to a position `nth` inside a
range returns `last` and leaves a rearrangement of the range in which no
element behind `nth` is ordered before an element in front of `nth`, and in
which the element at `nth` is equivalent to the element at `nth` of every
sorted arrangement of the range. -/
theorem nth_element_parallel_nth (pivot9 : (E → E → Bool) → List E → List E)
    (partition : (E → Bool) → (E → E) → List E → List E × Nat)
    (pred : E → E → Bool) (proj : E → E)
    (hirr : ∀ a, pred a a = false)
    (htrans : ∀ a b c, pred a b = true → pred b c = true → pred a c = true)
    (hneg : ∀ a b c, pred a b = true → pred a c = true ∨ pred c b = true)
    (hpivot : ∀ l, (pivot9 pred l).Perm l)
    (hpart : ∀ q pj l, (partition q pj l).1.Perm l ∧
      (partition q pj l).2 ≤ (partition q pj l).1.length ∧
      (∀ x ∈ (partition q pj l).1.take (partition q pj l).2, q (pj x) = true) ∧
      (∀ x ∈ (partition q pj l).1.drop (partition q pj l).2, q (pj x) = false))
    (a : List E) (nth : Nat) (hnth : nth < a.length) :
    ∃ a' x, nth_element_parallel pivot9 partition pred proj a nth = some (a.length, a') ∧
      a'.Perm a ∧ a'[nth]? = some x ∧
      (∀ z ∈ a'.take nth, ∀ w ∈ a'.drop (nth + 1), pred (proj w) (proj z) = false) ∧
      (∀ z ∈ a'.take nth, pred (proj x) (proj z) = false) ∧
      (∀ w ∈ a'.drop (nth + 1), pred (proj w) (proj x) = false) ∧
      (∀ s : List E, s.Perm a →
        s.Pairwise (fun u v => pred (proj v) (proj u) = false) →
        ∀ y, s[nth]? = some y →
          pred (proj x) (proj y) = false ∧ pred (proj y) (proj x) = false) := by
  obtain ⟨a', x, hrun, hp, hx, hA, hB, hC⟩ :=
    nth_element_loop_spec pivot9 partition pred proj nth hirr htrans hpivot hpart
      a.length [] a [] (Nat.zero_le _) (by simpa using hnth) (Nat.le_refl _)
      (fun x hx => by simp at hx) (fun x _ y hy => by simp at hy)
  simp only [List.nil_append, List.append_nil, List.length_nil, Nat.zero_add] at hrun hp
  refine ⟨a', x, ?_, hp, hx, hC, hA, hB, ?_⟩
  · cases a with
    | nil => simp at hnth
    | cons e rest =>
        simp only [nth_element_parallel]
        rw [if_neg (by omega), hrun]
  · intro s hs hsorted y hy
    exact nth_matches_sorted (fun u v => pred (proj u) (proj v)) (fun u => hirr _)
      (fun u v w h => hneg _ _ _ h) a' s (hp.trans hs.symm) nth x y hx hy hA hB hsorted

/-- C11 at a concrete input: the second smallest of `[3, 1, 2]` under `<`, with
a `pivot9` that leaves the range as it is and a stable `partition`. -/
theorem nth_element_parallel_nth_witness :
    ∃ a' x, nth_element_parallel (fun _ l => l) stable_partition_model
        (fun u v : Nat => decide (u < v)) id [3, 1, 2] 1 = some ([3, 1, 2].length, a') ∧
      a'.Perm [3, 1, 2] ∧ a'[1]? = some x ∧
      (∀ z ∈ a'.take 1, ∀ w ∈ a'.drop (1 + 1), decide (id w < id z) = false) ∧
      (∀ z ∈ a'.take 1, decide (id x < id z) = false) ∧
      (∀ w ∈ a'.drop (1 + 1), decide (id w < id x) = false) ∧
      (∀ s : List Nat, s.Perm [3, 1, 2] →
        s.Pairwise (fun u v => decide (id v < id u) = false) →
        ∀ y, s[1]? = some y →
          decide (id x < id y) = false ∧ decide (id y < id x) = false) :=
  nth_element_parallel_nth (fun _ l => l) stable_partition_model
    (fun u v : Nat => decide (u < v)) id
    (fun a => by simp)
    (fun a b c h1 h2 => by
      simp only [decide_eq_true_eq] at h1 h2 ⊢
      omega)
    (fun a b c h => by
      simp only [decide_eq_true_eq] at h ⊢
      omega)
    (fun l => List.Perm.refl l)
    stable_partition_model_spec [3, 1, 2] 1 (by decide)

/-- The rearrangement of the witness: `[3, 1, 2]` becomes `[1, 2, 3]`. -/
theorem nth_element_parallel_example :
    nth_element_parallel (fun _ l => l) stable_partition_model
      (fun u v : Nat => decide (u < v)) id [3, 1, 2] 1 = some (3, [1, 2, 3]) := by
  decide

end NthElementProofs

section FailureHandlingProofs

variable {P R : Type}

theorem raised_failures_mem (l : List (Except chunk_failure P)) (e : chunk_failure) :
    e ∈ raised_failures l ↔ Except.error e ∈ l := by
  induction l with
  | nil => simp [raised_failures]
  | cons c rest ih =>
      cases c with
      | error e' =>
          simp only [raised_failures, List.mem_cons, ih, Except.error.injEq]
      | ok v =>
          simp only [raised_failures, List.mem_cons, ih]
          constructor
          · exact fun h => Or.inr h
          · rintro (h | h)
            · cases h
            · exact h

/-- C18: when one of the chunks that ran raises a failure that is not resource
exhaustion, the call surfaces one aggregate error that contains every failure
raised by the chunks that ran, and the combine function plays no part in the
outcome. -/
theorem aggregate_contains_raised (combine : List P → R)
    (chunk_results : List (Except chunk_failure P)) (lag : Nat)
    (hraised : ∃ e, Except.error e ∈ chunk_results.take (submitted_chunks chunk_results lag) ∧
      e ≠ chunk_failure.resource_exhaustion) :
    ∃ errors, partitioner_call_outcome combine chunk_results lag =
        call_outcome.exception_list errors ∧
      (∀ e, Except.error e ∈ chunk_results.take (submitted_chunks chunk_results lag) →
        e ∈ errors) ∧
      (∀ combine' : List P → R, partitioner_call_outcome combine' chunk_results lag =
        call_outcome.exception_list errors) := by
  obtain ⟨e, he, hne⟩ := hraised
  have hm := (raised_failures_mem _ e).mpr he
  have hnonempty : (raised_failures
      (chunk_results.take (submitted_chunks chunk_results lag))).isEmpty = false := by
    cases hr : raised_failures (chunk_results.take (submitted_chunks chunk_results lag)) with
    | nil => rw [hr] at hm; simp at hm
    | cons _ _ => rfl
  have hnotall : (raised_failures
      (chunk_results.take (submitted_chunks chunk_results lag))).all
        chunk_failure.is_resource_exhaustion = false := by
    rw [List.all_eq_false]
    refine ⟨e, hm, ?_⟩
    cases e with
    | resource_exhaustion => exact absurd rfl hne
    | user_failure _ => simp [chunk_failure.is_resource_exhaustion]
  have hout : ∀ c : List P → R, partitioner_call_outcome c chunk_results lag =
      call_outcome.exception_list
        (raised_failures (chunk_results.take (submitted_chunks chunk_results lag))) := by
    intro c
    simp only [partitioner_call_outcome, hnonempty, hnotall, Bool.false_eq_true, if_false]
  exact ⟨_, hout combine, fun x hx => (raised_failures_mem _ x).mpr hx, hout⟩

/-- C18 at the example of the specification: four chunks, all of which ran,
the first and the third raising distinct errors, the second and the fourth
succeeding: the aggregate holds both errors. -/
theorem aggregate_contains_raised_witness :
    ∃ errors, partitioner_call_outcome (fun l : List Bool => l.any id)
        [.error (.user_failure 1), .ok true, .error (.user_failure 3), .ok false] 3 =
        call_outcome.exception_list errors ∧
      (∀ e, Except.error e ∈ ([.error (.user_failure 1), .ok true,
          .error (.user_failure 3), .ok false] : List (Except chunk_failure Bool)).take
            (submitted_chunks ([.error (.user_failure 1), .ok true,
              .error (.user_failure 3), .ok false] : List (Except chunk_failure Bool)) 3) →
        e ∈ errors) ∧
      (∀ combine' : List Bool → Bool, partitioner_call_outcome combine'
        [.error (.user_failure 1), .ok true, .error (.user_failure 3), .ok false] 3 =
        call_outcome.exception_list errors) :=
  aggregate_contains_raised (fun l : List Bool => l.any id)
    [.error (.user_failure 1), .ok true, .error (.user_failure 3), .ok false] 3
    ⟨.user_failure 1, List.mem_cons_self _ _, by simp⟩

/-- The example of the specification evaluated: the aggregate is the list of
both errors when all four chunks ran, and only the first error when the
failure of the first chunk is noticed before another chunk is submitted. -/
theorem aggregate_example_values :
    raised_failures (([.error (.user_failure 1), .ok true, .error (.user_failure 3),
        .ok false] : List (Except chunk_failure Bool)).take (submitted_chunks
          ([.error (.user_failure 1), .ok true, .error (.user_failure 3), .ok false] :
            List (Except chunk_failure Bool)) 3)) = [.user_failure 1, .user_failure 3] ∧
    raised_failures (([.error (.user_failure 1), .ok true, .error (.user_failure 3),
        .ok false] : List (Except chunk_failure Bool)).take (submitted_chunks
          ([.error (.user_failure 1), .ok true, .error (.user_failure 3), .ok false] :
            List (Except chunk_failure Bool)) 0)) = [.user_failure 1] := by
  decide

end FailureHandlingProofs

section SentinelProofs

variable {E T : Type}

/-- A step of `loop_idx_n` changes the token by the `cancel` call it makes, if
it makes one. -/
theorem loop_idx_n_step_token (stop : cancellation_token T → Nat → Bool)
    (f : E → Nat → List T) (tok : cancellation_token T) (w : worker E T) :
    (loop_idx_n_step stop f tok w).1 =
      match w.next_cancel with
      | some c => tok.cancel c
      | none => tok := by
  cases w with
  | head it idx c =>
      simp only [loop_idx_n_step, worker.next_cancel]
      split_ifs
      · rfl
      · rfl
      · cases it <;> rfl
  | body it idx c pending =>
      cases pending <;> rfl
  | finished => rfl
  | fault => rfl

theorem par_reports_cons
    (step : cancellation_token T → worker E T → cancellation_token T × worker E T)
    (j : Nat) (rest : List Nat) (st : par_state E T) :
    par_reports step (j :: rest) st =
      (match st.workers[j]? with
        | none => []
        | some w =>
            match w.next_cancel with
            | none => []
            | some c => [c]) ++ par_reports step rest (par_step step st j) := by
  rw [par_reports]
  cases st.workers[j]? with
  | none => rfl
  | some w =>
      show (match w.next_cancel with
        | none => par_reports step rest (par_step step st j)
        | some c => c :: par_reports step rest (par_step step st j)) =
        (match w.next_cancel with
          | none => []
          | some c => [c]) ++ par_reports step rest (par_step step st j)
      cases w.next_cancel <;> rfl

/-- The token after a schedule is the outcome of the reported `cancel` calls. -/
theorem par_run_token (stop : cancellation_token T → Nat → Bool) (f : E → Nat → List T) :
    ∀ (sched : List Nat) (st : par_state E T),
      (sched.foldl (par_step (loop_idx_n_step stop f)) st).tok =
        st.tok.cancel_all (par_reports (loop_idx_n_step stop f) sched st) := by
  intro sched
  induction sched with
  | nil => intro st; rfl
  | cons j rest ih =>
      intro st
      rw [List.foldl_cons, ih, par_reports_cons]
      cases hw : st.workers[j]? with
      | none =>
          have : par_step (loop_idx_n_step stop f) st j = st := by
            simp [par_step, hw]
          rw [this]
          rfl
      | some w =>
          have htok : (par_step (loop_idx_n_step stop f) st j).tok =
              (loop_idx_n_step stop f st.tok w).1 := by
            simp [par_step, hw]
          rw [htok, loop_idx_n_step_token]
          show (match w.next_cancel with
            | some c => st.tok.cancel c
            | none => st.tok).cancel_all
              (par_reports (loop_idx_n_step stop f) rest
                (par_step (loop_idx_n_step stop f) st j)) =
            st.tok.cancel_all ((match w.next_cancel with
              | none => []
              | some c => [c]) ++ par_reports (loop_idx_n_step stop f) rest
                (par_step (loop_idx_n_step stop f) st j))
          cases w.next_cancel <;> rfl

theorem loop_idx_n_step_run_inv (stop : cancellation_token T → Nat → Bool)
    (f : E → Nat → List T) (of_index : Nat → T)
    (hf : ∀ v i, ∀ c ∈ f v i, c = of_index i)
    (B : Nat) (hB : ∀ v i, (f v i).length ≤ B) (xs : List E) (count : Nat)
    (hcount : count ≤ xs.length) (tok : cancellation_token T) (w : worker E T)
    (hw : run_inv of_index B xs count w) :
    run_inv of_index B xs count (loop_idx_n_step stop f tok w).2 ∧
    (∀ c, w.next_cancel = some c → ∃ i, i < count ∧ c = of_index i) ∧
    (worker_measure B (loop_idx_n_step stop f tok w).2 < worker_measure B w ∨
      (worker_measure B w = 0 ∧ worker_measure B (loop_idx_n_step stop f tok w).2 = 0)) := by
  cases w with
  | head it idx c =>
      obtain ⟨h1, h2⟩ := hw
      have hnone : ∀ x, (worker.head it idx c : worker E T).next_cancel = some x →
          ∃ i, i < count ∧ x = of_index i := fun x h => by simp [worker.next_cancel] at h
      simp only [loop_idx_n_step]
      by_cases hc : c = 0
      · rw [if_pos hc]
        exact ⟨trivial, hnone, Or.inl (by simp [worker_measure])⟩
      · rw [if_neg hc]
        by_cases hs : stop tok idx = true
        · rw [if_pos hs]
          exact ⟨trivial, hnone, Or.inl (by simp [worker_measure])⟩
        · rw [if_neg hs]
          have hidx : idx < xs.length := by omega
          have hit : it = xs[idx] :: xs.drop (idx + 1) := by
            rw [h1]
            exact List.drop_eq_getElem_cons hidx
          rw [hit]
          simp only []
          refine ⟨⟨by rw [← hit, h1], h2, by omega, hf _ _, hB _ _⟩, ?_, Or.inl ?_⟩
          · rw [← hit]
            exact hnone
          · simp only [worker_measure]
            have := hB xs[idx] idx
            obtain ⟨c', rfl⟩ : ∃ c', c = c' + 1 := ⟨c - 1, by omega⟩
            simp only [Nat.add_sub_cancel]
            rw [Nat.mul_add]
            omega
  | body it idx c pending =>
      obtain ⟨h1, h2, h3, h4, h5⟩ := hw
      cases pending with
      | nil =>
          simp only [loop_idx_n_step]
          refine ⟨⟨by rw [h1, List.tail_drop], by omega⟩,
            fun x h => by simp [worker.next_cancel] at h,
            Or.inl (by simp only [worker_measure, List.length_nil]; omega)⟩
      | cons a l =>
          simp only [loop_idx_n_step]
          refine ⟨⟨h1, h2, h3, fun x hx => h4 x (List.mem_cons_of_mem _ hx), ?_⟩, ?_,
            Or.inl (by simp [worker_measure])⟩
          · simp only [List.length_cons] at h5
            omega
          · intro x hx
            simp only [worker.next_cancel, Option.some.injEq] at hx
            subst hx
            exact ⟨idx, by omega, h4 _ (List.mem_cons_self _ _)⟩
  | finished =>
      simp only [loop_idx_n_step]
      exact ⟨trivial, fun x h => by simp [worker.next_cancel] at h, Or.inr ⟨rfl, rfl⟩⟩
  | fault => exact absurd hw (by simp [run_inv])

theorem par_step_run_inv (stop : cancellation_token T → Nat → Bool)
    (f : E → Nat → List T) (of_index : Nat → T)
    (hf : ∀ v i, ∀ c ∈ f v i, c = of_index i)
    (B : Nat) (hB : ∀ v i, (f v i).length ≤ B) (xs : List E) (count : Nat)
    (hcount : count ≤ xs.length) (st : par_state E T)
    (hinv : ∀ (j : Nat) w, st.workers[j]? = some w → run_inv of_index B xs count w)
    (a : Nat) :
    (∀ (j : Nat) w, (par_step (loop_idx_n_step stop f) st a).workers[j]? = some w →
      run_inv of_index B xs count w) ∧
    ∀ (j : Nat) w, st.workers[j]? = some w →
      ∃ w', (par_step (loop_idx_n_step stop f) st a).workers[j]? = some w' ∧
        (worker_measure B w' + (if a = j then 1 else 0) ≤ worker_measure B w ∨
          worker_measure B w' = 0) := by
  unfold par_step
  cases hwa : st.workers[a]? with
  | none =>
      refine ⟨hinv, ?_⟩
      intro j w hj
      refine ⟨w, hj, ?_⟩
      have hne : a ≠ j := by
        intro h
        rw [h, hj] at hwa
        exact absurd hwa (by simp)
      rw [if_neg hne]
      exact Or.inl (Nat.le_refl _)
  | some wa =>
      have ha : a < st.workers.length := by
        by_contra hge
        rw [List.getElem?_eq_none (by omega)] at hwa
        exact absurd hwa (by simp)
      obtain ⟨hw', _, hmeas⟩ :=
        loop_idx_n_step_run_inv stop f of_index hf B hB xs count hcount st.tok wa
          (hinv a wa hwa)
      refine ⟨?_, ?_⟩
      · intro j w hw
        simp only [] at hw
        rw [List.getElem?_set] at hw
        by_cases haj : a = j
        · subst haj
          rw [if_pos rfl, if_pos ha] at hw
          cases hw
          exact hw'
        · rw [if_neg haj] at hw
          exact hinv j w hw
      · intro j w hj
        by_cases haj : a = j
        · subst haj
          rw [hwa] at hj
          cases hj
          refine ⟨(loop_idx_n_step stop f st.tok wa).2, ?_, ?_⟩
          · simp only []
            rw [List.getElem?_set, if_pos rfl, if_pos ha]
          · rw [if_pos rfl]
            rcases hmeas with h | ⟨_, h⟩
            · exact Or.inl (by omega)
            · exact Or.inr h
        · refine ⟨w, ?_, ?_⟩
          · simp only []
            rw [List.getElem?_set, if_neg haj]
            exact hj
          · rw [if_neg haj]
            exact Or.inl (Nat.le_refl _)

/-- For every schedule of chunk tasks over the first `count` positions: every
candidate reported is the index of such a position, no task dereferences
`last`, and a task that is scheduled moves towards its return. -/
theorem par_run_reports (stop : cancellation_token T → Nat → Bool)
    (f : E → Nat → List T) (of_index : Nat → T)
    (hf : ∀ v i, ∀ c ∈ f v i, c = of_index i)
    (B : Nat) (hB : ∀ v i, (f v i).length ≤ B) (xs : List E) (count : Nat)
    (hcount : count ≤ xs.length) :
    ∀ (sched : List Nat) (st : par_state E T),
      (∀ (j : Nat) w, st.workers[j]? = some w → run_inv of_index B xs count w) →
      (∀ c ∈ par_reports (loop_idx_n_step stop f) sched st,
        ∃ i, i < count ∧ c = of_index i) ∧
      (∀ (j : Nat) w,
        (sched.foldl (par_step (loop_idx_n_step stop f)) st).workers[j]? = some w →
        run_inv of_index B xs count w) ∧
      ∀ (j : Nat) w, st.workers[j]? = some w →
        ∃ w', (sched.foldl (par_step (loop_idx_n_step stop f)) st).workers[j]? = some w' ∧
          (worker_measure B w' + sched.count j ≤ worker_measure B w ∨
            worker_measure B w' = 0) := by
  intro sched
  induction sched with
  | nil =>
      intro st hinv
      exact ⟨fun c hc => by simp [par_reports] at hc, hinv,
        fun j w hj => ⟨w, hj, Or.inl (by simp)⟩⟩
  | cons a rest ih =>
      intro st hinv
      obtain ⟨hinv1, hstep⟩ :=
        par_step_run_inv stop f of_index hf B hB xs count hcount st hinv a
      obtain ⟨hrep, hinv2, hrest⟩ := ih _ hinv1
      refine ⟨?_, hinv2, ?_⟩
      · intro c hc
        rw [par_reports_cons] at hc
        rcases List.mem_append.mp hc with h | h
        · cases hj : st.workers[a]? with
          | none =>
              rw [hj] at h
              simp at h
          | some wa =>
              rw [hj] at h
              simp only [] at h
              cases hn : wa.next_cancel with
              | none =>
                  rw [hn] at h
                  simp at h
              | some x =>
                  rw [hn] at h
                  have hcx : c = x := by simpa using h
                  rw [hcx]
                  exact (loop_idx_n_step_run_inv stop f of_index hf B hB xs count hcount
                    st.tok wa (hinv a wa hj)).2.1 x hn
        · exact hrep c h
      · intro j w hj
        obtain ⟨w1, hw1, hm1⟩ := hstep j w hj
        obtain ⟨w2, hw2, hm2⟩ := hrest j w1 hw1
        refine ⟨w2, hw2, ?_⟩
        rw [List.count_cons]
        rcases hm2 with hm2 | hm2
        · rcases hm1 with hm1 | hm1
          · left
            have : (if (a == j) = true then 1 else 0) = (if a = j then 1 else 0) := by
              by_cases h : a = j <;> simp [h]
            rw [this]
            omega
          · right
            omega
        · exact Or.inr hm2

theorem chunk_tasks_run_inv (of_index : Nat → T) (B : Nat) (xs : List E) (count : Nat) :
    ∀ (sizes : List Nat) (b : Nat), b + sizes.sum ≤ count →
      ∀ (j : Nat) w, (chunk_tasks (xs.drop b) b sizes : List (worker E T))[j]? = some w →
        run_inv of_index B xs count w ∧ j < sizes.length ∧
        worker_measure B w = (B + 2) * sizes.getD j 0 + 1 := by
  intro sizes
  induction sizes with
  | nil => intro b _ j w hw; simp [chunk_tasks] at hw
  | cons s ss ih =>
      intro b hb j w hw
      rw [List.sum_cons] at hb
      have hdrop : (xs.drop b).drop s = xs.drop (b + s) := by
        rw [List.drop_drop, Nat.add_comm]
      simp only [chunk_tasks, hdrop] at hw
      cases j with
      | zero =>
          simp only [List.getElem?_cons_zero, Option.some.injEq] at hw
          subst hw
          refine ⟨⟨rfl, by omega⟩, by simp, ?_⟩
          simp [worker_measure]
      | succ j =>
          simp only [List.getElem?_cons_succ] at hw
          obtain ⟨h1, h2, h3⟩ := ih (b + s) (by omega) j w hw
          refine ⟨h1, by simpa using h2, ?_⟩
          rw [h3]
          simp

/-- Every chunk task of a run over the first `count` positions has returned
once it has been scheduled `(B + 2) * size + 1` times. -/
theorem par_run_finished (stop : cancellation_token T → Nat → Bool)
    (f : E → Nat → List T) (of_index : Nat → T)
    (hf : ∀ v i, ∀ c ∈ f v i, c = of_index i)
    (B : Nat) (hB : ∀ v i, (f v i).length ≤ B) (xs : List E) (count : Nat)
    (hcount : count ≤ xs.length) (sizes : List Nat) (hsum : sizes.sum ≤ count)
    (tok : cancellation_token T) (sched : List Nat)
    (hfair : ∀ j, j < sizes.length → (B + 2) * sizes.getD j 0 + 1 ≤ sched.count j) :
    (sched.foldl (par_step (loop_idx_n_step stop f))
      ⟨tok, chunk_tasks xs 0 sizes⟩).workers.all worker.is_finished = true := by
  have hinit := chunk_tasks_run_inv (T := T) of_index B xs count sizes 0 (by omega)
  rw [List.drop_zero] at hinit
  obtain ⟨_, hinv, hmeas⟩ := par_run_reports stop f of_index hf B hB xs count hcount sched
    ⟨tok, chunk_tasks xs 0 sizes⟩ (fun j w hw => (hinit j w hw).1)
  rw [List.all_eq_true]
  intro w hw
  obtain ⟨j, hj⟩ := List.getElem?_of_mem hw
  have hw0 : ∃ w0, (chunk_tasks xs 0 sizes : List (worker E T))[j]? = some w0 := by
    cases h0 : (chunk_tasks xs 0 sizes : List (worker E T))[j]? with
    | some w0 => exact ⟨w0, rfl⟩
    | none =>
        exfalso
        have hlen : ∀ (sched : List Nat) (st : par_state E T),
            (sched.foldl (par_step (loop_idx_n_step stop f)) st).workers.length =
              st.workers.length := by
          intro sched
          induction sched with
          | nil => intro st; rfl
          | cons a rest ih =>
              intro st
              rw [List.foldl_cons, ih]
              unfold par_step
              cases st.workers[a]? <;> simp
        have h1 : j < (sched.foldl (par_step (loop_idx_n_step stop f))
            ⟨tok, chunk_tasks xs 0 sizes⟩).workers.length := by
          by_contra hge
          rw [List.getElem?_eq_none (by omega)] at hj
          exact absurd hj (by simp)
        rw [hlen] at h1
        rw [List.getElem?_eq_getElem h1] at h0
        exact absurd h0 (by simp)
  obtain ⟨w0, hw0⟩ := hw0
  obtain ⟨_, hjs, hm0⟩ := hinit j w0 hw0
  obtain ⟨w', hw', hm⟩ := hmeas j w0 hw0
  rw [hj] at hw'
  cases hw'
  have hfj := hfair j hjs
  have hzero : worker_measure B w = 0 := by
    rcases hm with hm | hm
    · omega
    · exact hm
  have hinvw := hinv j w hj
  cases w with
  | finished => rfl
  | head _ _ _ => simp [worker_measure] at hzero
  | body _ _ _ _ => simp [worker_measure] at hzero
  | fault => exact absurd hinvw (by simp [run_inv])

theorem cancel_all_mem (vs : List T) :
    ∀ tok : cancellation_token T, (tok.cancel_all vs).best ∈ tok.best :: vs := by
  induction vs with
  | nil => intro tok; simp [cancellation_token.cancel_all]
  | cons v vs ih =>
      intro tok
      have hstep : tok.cancel_all (v :: vs) = (tok.cancel v).cancel_all vs := rfl
      rw [hstep]
      have h := ih (tok.cancel v)
      rcases List.mem_cons.mp h with h | h
      · rw [h]
        simp only [cancellation_token.cancel]
        split_ifs <;> simp
      · exact List.mem_cons_of_mem _ (List.mem_cons_of_mem _ h)

theorem cancel_all_cancelled (vs : List T) :
    ∀ tok : cancellation_token T, tok.cancelled = true →
      (tok.cancel_all vs).cancelled = true := by
  induction vs with
  | nil => intro tok h; exact h
  | cons v vs ih => intro tok _; exact ih (tok.cancel v) rfl

/-- A token that starts from a sentinel which every candidate beats holds, after
at least one `cancel` call, one of the candidates, and its flag is set. -/
theorem cancel_all_from_sentinel (compare : T → T → Bool) (sentinel : T) (vs : List T)
    (hbeat : ∀ c ∈ vs, compare c sentinel = true) (hne : vs ≠ []) :
    ((cancellation_token.create compare sentinel).cancel_all vs).best ∈ vs ∧
    ((cancellation_token.create compare sentinel).cancel_all vs).cancelled = true := by
  cases vs with
  | nil => exact absurd rfl hne
  | cons v rest =>
      have hstep : (cancellation_token.create compare sentinel).cancel_all (v :: rest) =
          ((cancellation_token.create compare sentinel).cancel v).cancel_all rest := rfl
      rw [hstep]
      have hb : ((cancellation_token.create compare sentinel).cancel v).best = v := by
        simp [cancellation_token.cancel, cancellation_token.create,
          hbeat v (List.mem_cons_self _ _)]
      have h := cancel_all_mem rest ((cancellation_token.create compare sentinel).cancel v)
      rw [hb] at h
      exact ⟨h, cancel_all_cancelled rest _ rfl⟩

/-- The sentinel property of `partitioner::call_with_index` for an element
function that reports the index it is given, at most `B` times per element,
the first `count` positions of the range, a sentinel that every such index
beats and a combine function that yields `last` on the sentinel only. -/
theorem sentinel_run (stop : cancellation_token T → Nat → Bool)
    (f : E → Nat → List T) (of_index : Nat → T)
    (hf : ∀ v i, ∀ c ∈ f v i, c = of_index i)
    (B : Nat) (hB : ∀ v i, (f v i).length ≤ B)
    (compare : T → T → Bool) (sentinel : T) (reportable : T → Prop) (count : Nat)
    (hrange : ∀ i, i < count → reportable (of_index i))
    (hworse : ∀ c, reportable c → compare c sentinel = true ∧ compare sentinel c = false)
    (f2 : cancellation_token T → Nat) (last : Nat)
    (hf2 : ∀ tok : cancellation_token T,
      (tok.best = sentinel → f2 tok = last) ∧ (reportable tok.best → f2 tok ≠ last))
    (xs : List E) (hcount : count ≤ xs.length)
    (sizes : List Nat) (hsum : sizes.sum ≤ count) (sched : List Nat)
    (result : Option Nat)
    (hres : (result = some last ∧ count = 0) ∨
      result = partitioner_call_with_index (loop_idx_n_step stop f) f2 xs sizes
        (cancellation_token.create compare sentinel) sched) :
    sentinel_property compare sentinel reportable (loop_idx_n_step stop f) f2 last B xs
      sizes sched result := by
  unfold sentinel_property
  have hinit := chunk_tasks_run_inv (T := T) of_index B xs count sizes 0 (by omega)
  rw [List.drop_zero] at hinit
  have hidx : ∀ c ∈ par_reports (loop_idx_n_step stop f) sched
      ⟨cancellation_token.create compare sentinel, chunk_tasks xs 0 sizes⟩,
      ∃ i, i < count ∧ c = of_index i :=
    (par_run_reports stop f of_index hf B hB xs count hcount sched
      ⟨cancellation_token.create compare sentinel, chunk_tasks xs 0 sizes⟩
      (fun j w hw => (hinit j w hw).1)).1
  have hfin := par_run_finished stop f of_index hf B hB xs count hcount sizes hsum
    (cancellation_token.create compare sentinel) sched
  have hrep : ∀ c ∈ par_reports (loop_idx_n_step stop f) sched
      ⟨cancellation_token.create compare sentinel, chunk_tasks xs 0 sizes⟩,
      reportable c := by
    intro c hc
    obtain ⟨i, hi, rfl⟩ := hidx c hc
    exact hrange i hi
  have htok := par_run_token stop f sched
    ⟨cancellation_token.create compare sentinel, chunk_tasks xs 0 sizes⟩
  have hns : ¬ reportable sentinel := by
    intro h
    obtain ⟨h1, h2⟩ := hworse sentinel h
    rw [h1] at h2
    exact absurd h2 (by simp)
  have hcall0 : partitioner_call_with_index (loop_idx_n_step stop f) f2 xs sizes
      (cancellation_token.create compare sentinel) sched =
      if (sched.foldl (par_step (loop_idx_n_step stop f))
          ⟨cancellation_token.create compare sentinel,
            chunk_tasks xs 0 sizes⟩).workers.all worker.is_finished = true
      then some (f2 (sched.foldl (par_step (loop_idx_n_step stop f))
          ⟨cancellation_token.create compare sentinel, chunk_tasks xs 0 sizes⟩).tok)
      else none := rfl
  generalize hR : par_reports (loop_idx_n_step stop f) sched
      ⟨cancellation_token.create compare sentinel, chunk_tasks xs 0 sizes⟩ = R
    at hidx hrep htok ⊢
  generalize hS : sched.foldl (par_step (loop_idx_n_step stop f))
      ⟨cancellation_token.create compare sentinel, chunk_tasks xs 0 sizes⟩ = st
    at htok hfin hcall0 ⊢
  have htok' : st.tok = (cancellation_token.create compare sentinel).cancel_all R := htok
  have hcases : (R = [] ∧ st.tok.best = sentinel ∧ st.tok.cancelled = false) ∨
      (R ≠ [] ∧ reportable st.tok.best ∧ st.tok.cancelled = true) := by
    by_cases hnil : R = []
    · left
      subst hnil
      rw [htok']
      exact ⟨rfl, rfl, rfl⟩
    · right
      obtain ⟨h1, h2⟩ := cancel_all_from_sentinel compare sentinel R
        (fun c hc => (hworse c (hrep c hc)).1) hnil
      rw [htok']
      exact ⟨hnil, hrep _ h1, h2⟩
  have hbest : st.tok.get_data = sentinel ↔ R = [] := by
    show st.tok.best = sentinel ↔ R = []
    rcases hcases with ⟨h1, h2, _⟩ | ⟨h1, h2, _⟩
    · exact ⟨fun _ => h1, fun _ => h2⟩
    · constructor
      · intro h
        rw [h] at h2
        exact absurd h2 hns
      · intro h
        exact absurd h h1
  have hflag : st.tok.was_cancelled = false ↔ R = [] := by
    show st.tok.cancelled = false ↔ R = []
    rcases hcases with ⟨h1, _, h3⟩ | ⟨h1, _, h3⟩
    · exact ⟨fun _ => h1, fun _ => h3⟩
    · constructor
      · intro h
        rw [h3] at h
        exact absurd h (by simp)
      · intro h
        exact absurd h h1
  have hcomb : f2 st.tok = last ↔ R = [] := by
    rcases hcases with ⟨h1, h2, _⟩ | ⟨h1, h2, _⟩
    · exact ⟨fun _ => h1, fun _ => (hf2 st.tok).1 h2⟩
    · constructor
      · intro h
        exact absurd h ((hf2 st.tok).2 h2)
      · intro h
        exact absurd h h1
  have hcall : ∀ r, partitioner_call_with_index (loop_idx_n_step stop f) f2 xs sizes
      (cancellation_token.create compare sentinel) sched = some r → (r = last ↔ R = []) := by
    intro r hr
    rw [hcall0] at hr
    split at hr
    · cases hr
      exact hcomb
    · exact absurd hr (by simp)
  have hnil0 : count = 0 → R = [] := by
    intro h0
    cases R with
    | nil => rfl
    | cons c _ =>
        obtain ⟨i, hi, _⟩ := hidx c (List.mem_cons_self _ _)
        omega
  refine ⟨hworse, hrep, htok', hbest, hflag, hcomb, ?_, ?_⟩
  · intro r hr
    rcases hres with ⟨h, h0⟩ | h
    · rw [h] at hr
      cases hr
      exact ⟨fun _ => hnil0 h0, fun _ => rfl⟩
    · rw [h] at hr
      exact hcall r hr
  · intro hfair
    rw [← htok']
    rcases hres with ⟨h, h0⟩ | h
    · rw [h, hcomb.mpr (hnil0 h0)]
    · rw [h, hcall0, if_pos (hfin hfair)]

theorem find_first_of_f1_reports {E1 E2 : Type} (f : E1 → E2 → Bool) (v : E1) (i : Nat) :
    ∀ (s : List E2), ∀ c ∈ find_first_of_f1 f v i s, c = i := by
  intro s
  induction s with
  | nil => intro c hc; simp [find_first_of_f1] at hc
  | cons b iter ih =>
      intro c hc
      simp only [find_first_of_f1] at hc
      split at hc
      · rcases List.mem_cons.mp hc with h | h
        · exact h
        · exact ih c h
      · exact ih c hc

theorem find_first_of_f1_length {E1 E2 : Type} (f : E1 → E2 → Bool) (v : E1) (i : Nat) :
    ∀ (s : List E2), (find_first_of_f1 f v i s).length ≤ s.length := by
  intro s
  induction s with
  | nil => simp [find_first_of_f1]
  | cons b iter ih =>
      simp only [find_first_of_f1]
      split
      · simp only [List.length_cons]
        omega
      · simp only [List.length_cons]
        omega

theorem find_end_f1_length {E2 A B : Type} (inc : E → E) (op : A → B → Bool)
    (proj1 : E → A) (proj2 : E2 → B) (s : List E2) (t : E) (i : Nat) :
    (find_end_f1 inc op proj1 proj2 s t i).length ≤ 1 := by
  cases s with
  | nil => simp [find_end_f1]
  | cons b mid2 =>
      simp only [find_end_f1]
      split_ifs <;> simp

theorem find_end_f1_reports {E2 A B : Type} (inc : E → E) (op : A → B → Bool)
    (proj1 : E → A) (proj2 : E2 → B) (s : List E2) (t : E) (i : Nat) :
    ∀ c ∈ find_end_f1 inc op proj1 proj2 s t i, c = (i : Int) := by
  intro c hc
  cases s with
  | nil => simp [find_end_f1] at hc
  | cons b mid2 =>
      simp only [find_end_f1] at hc
      split_ifs at hc
      · simpa using hc
      · simp at hc
      · simp at hc

/-- The sentinel property of an algorithm that searches the positions below
`xs.length` with the token `tok(count)` under "the smaller index wins" and the
combine function of `find`. -/
theorem smaller_index_sentinel (stop : cancellation_token Nat → Nat → Bool)
    (f : E → Nat → List Nat) (hf : ∀ v i, ∀ c ∈ f v i, c = i)
    (B : Nat) (hB : ∀ v i, (f v i).length ≤ B)
    (f2 : cancellation_token Nat → Nat) (xs : List E)
    (hf2 : ∀ tok : cancellation_token Nat,
      f2 tok = if tok.get_data ≠ xs.length then 0 + tok.get_data else xs.length)
    (sizes : List Nat) (hsum : sizes.sum = xs.length) (sched : List Nat)
    (result : Option Nat)
    (hres : (result = some xs.length ∧ xs.length = 0) ∨
      result = partitioner_call_with_index (loop_idx_n_step stop f) f2 xs sizes
        (cancellation_token.create smaller_index_wins xs.length) sched) :
    sentinel_property smaller_index_wins xs.length (fun c => c < xs.length)
      (loop_idx_n_step stop f) f2 xs.length B xs sizes sched result := by
  refine sentinel_run stop f (fun i => i) hf B hB smaller_index_wins xs.length
    (fun c => c < xs.length) xs.length (fun i hi => hi) ?_ f2 xs.length ?_ xs
    (Nat.le_refl _) sizes (by omega) sched result hres
  · intro c hc
    simp only [smaller_index_wins, decide_eq_true_eq, decide_eq_false_iff_not]
    omega
  · intro tok
    rw [hf2]
    simp only [cancellation_token.get_data]
    constructor
    · intro h
      rw [if_neg (by simpa using h)]
    · intro h
      rw [if_pos (by omega)]
      omega

/-- The sentinel property of `find_end::parallel`: token `tok(-1)` under "the
larger index wins", start positions `0, ..., count - diff`. -/
theorem find_end_sentinel {E2 A B : Type} (stop : cancellation_token Int → Nat → Bool)
    (inc : E → E) (op : A → B → Bool) (proj1 : E → A) (proj2 : E2 → B)
    (xs : List E) (s : List E2) (sizes sched : List Nat)
    (hdiff : 0 < s.length) (hcount : s.length ≤ xs.length)
    (hsum : sizes.sum = xs.length - s.length + 1) :
    sentinel_property larger_index_wins (-1)
      (fun c => 0 ≤ c ∧ c ≤ (xs.length : Int) - (s.length : Int))
      (loop_idx_n_step stop (find_end_f1 inc op proj1 proj2 s))
      (find_end_f2 xs.length xs.length) xs.length 1 xs sizes sched
      (find_end_parallel stop inc op proj1 proj2 xs s sizes sched) := by
  refine sentinel_run stop (find_end_f1 inc op proj1 proj2 s) (fun i => (i : Int))
    (find_end_f1_reports inc op proj1 proj2 s) 1
    (find_end_f1_length inc op proj1 proj2 s) larger_index_wins (-1)
    (fun c => 0 ≤ c ∧ c ≤ (xs.length : Int) - (s.length : Int))
    (xs.length - s.length + 1) ?_ ?_ (find_end_f2 xs.length xs.length) xs.length ?_
    xs (by omega) sizes (by omega) sched _ (Or.inr ?_)
  · intro i hi
    show 0 ≤ (i : Int) ∧ (i : Int) ≤ (xs.length : Int) - (s.length : Int)
    constructor <;> omega
  · intro c hc
    simp only [larger_index_wins, decide_eq_true_eq, decide_eq_false_iff_not]
    omega
  · intro tok
    simp only [find_end_f2, cancellation_token.get_data]
    constructor
    · intro h
      rw [if_neg (by omega)]
    · intro h
      rw [if_pos (by omega)]
      omega
  · unfold find_end_parallel
    simp only []
    rw [if_neg (by omega), if_neg (by omega)]

end SentinelProofs

section FindFamilySentinel

variable {E E2 A B : Type} [DecidableEq A]

/-- C21: in each of the parallel strategies of the find family the token starts
from a value that every index a chunk task can report strictly beats under the
comparison of the token. For `find`, `find_if`, `find_if_not` and
`find_first_of` (the latter when its token is created, the set range being
neither empty nor longer than the searched range) the token is `tok(count)`
under "the smaller index wins" and, for every early-exit test, every division
of the `count` positions into chunks and every interleaving of the chunk tasks,
every candidate passed to `tok.cancel` lies in `[0, count)`. For `find_end`
(when `0 < diff ≤ count`) the token is `tok(-1)` under "the larger index wins"
and every candidate lies in `[0, count - diff]`. In each case the token the
combine function reads is the outcome of the reported `cancel` calls on the
sentinel; it holds the sentinel exactly when no `cancel` call was made, and
exactly then its flag is unset and the combine function yields `last`. The
algorithm itself returns once every chunk task has been scheduled often enough
(`3 * size + 1` times, `(diff + 2) * size + 1` times for `find_first_of`), its
result is the value of its combine function on that token, and it is `last`
exactly when no `cancel` call was made. -/
theorem find_family_sentinel (stop : cancellation_token Nat → Nat → Bool)
    (stop_end : cancellation_token Int → Nat → Bool)
    (proj : E → A) (val : A) (f : A → Bool) (op : A → B → Bool) (proj2 : E2 → B)
    (inc : E → E) (xs : List E) (s : List E2) (sizes sizes_end sched : List Nat)
    (hsum : sizes.sum = xs.length) :
    sentinel_property smaller_index_wins xs.length (fun c => c < xs.length)
      (loop_idx_n_step stop (find_f1 proj val)) (find_f2 xs.length) xs.length 1 xs sizes
      sched (find_parallel stop proj val xs sizes sched) ∧
    sentinel_property smaller_index_wins xs.length (fun c => c < xs.length)
      (loop_idx_n_step stop (find_if_f1 f proj)) (find_if_f2 xs.length) xs.length 1 xs sizes
      sched (find_if_parallel stop f proj xs sizes sched) ∧
    sentinel_property smaller_index_wins xs.length (fun c => c < xs.length)
      (loop_idx_n_step stop (find_if_not_f1 f proj)) (find_if_not_f2 xs.length) xs.length 1
      xs sizes sched (find_if_not_parallel stop f proj xs sizes sched) ∧
    (0 < s.length → s.length ≤ xs.length →
      sentinel_property smaller_index_wins xs.length (fun c => c < xs.length)
        (loop_idx_n_step stop
          (fun v i => find_first_of_f1 (compare_projected op proj proj2) v i s))
        (find_first_of_f2 xs.length) xs.length s.length xs sizes sched
        (find_first_of_parallel stop op proj proj2 xs s sizes sched)) ∧
    (0 < s.length → s.length ≤ xs.length → sizes_end.sum = xs.length - s.length + 1 →
      sentinel_property larger_index_wins (-1)
        (fun c => 0 ≤ c ∧ c ≤ (xs.length : Int) - (s.length : Int))
        (loop_idx_n_step stop_end (find_end_f1 inc op proj proj2 s))
        (find_end_f2 xs.length xs.length) xs.length 1 xs sizes_end sched
        (find_end_parallel stop_end inc op proj proj2 xs s sizes_end sched)) := by
  refine ⟨?_, ?_, ?_, ?_, ?_⟩
  · refine smaller_index_sentinel stop (find_f1 proj val) ?_ 1 ?_ (find_f2 xs.length) xs
      (fun tok => rfl) sizes hsum sched _ ?_
    · intro v i c hc
      unfold find_f1 at hc
      split at hc
      · simpa using hc
      · simp at hc
    · intro v i
      unfold find_f1
      split <;> simp
    · by_cases hc : xs.length ≤ 0
      · left
        refine ⟨?_, by omega⟩
        unfold find_parallel
        simp only []
        rw [if_pos hc]
      · right
        unfold find_parallel
        simp only []
        rw [if_neg hc]
  · refine smaller_index_sentinel stop (find_if_f1 f proj) ?_ 1 ?_ (find_if_f2 xs.length) xs
      (fun tok => rfl) sizes hsum sched _ ?_
    · intro v i c hc
      unfold find_if_f1 at hc
      split at hc
      · simpa using hc
      · simp at hc
    · intro v i
      unfold find_if_f1
      split <;> simp
    · by_cases hc : xs.length ≤ 0
      · left
        refine ⟨?_, by omega⟩
        unfold find_if_parallel
        simp only []
        rw [if_pos hc]
      · right
        unfold find_if_parallel
        simp only []
        rw [if_neg hc]
  · refine smaller_index_sentinel stop (find_if_not_f1 f proj) ?_ 1 ?_
      (find_if_not_f2 xs.length) xs (fun tok => rfl) sizes hsum sched _ ?_
    · intro v i c hc
      unfold find_if_not_f1 at hc
      split at hc
      · simpa using hc
      · simp at hc
    · intro v i
      unfold find_if_not_f1
      split <;> simp
    · by_cases hc : xs.length ≤ 0
      · left
        refine ⟨?_, by omega⟩
        unfold find_if_not_parallel
        simp only []
        rw [if_pos hc]
      · right
        unfold find_if_not_parallel
        simp only []
        rw [if_neg hc]
  · intro hdiff hcount
    refine smaller_index_sentinel stop
      (fun v i => find_first_of_f1 (compare_projected op proj proj2) v i s)
      (fun v i => find_first_of_f1_reports _ v i s) s.length
      (fun v i => find_first_of_f1_length _ v i s) (find_first_of_f2 xs.length) xs
      (fun tok => rfl) sizes hsum sched _ (Or.inr ?_)
    unfold find_first_of_parallel
    simp only []
    rw [if_neg (by omega), if_neg (by omega)]
  · intro hdiff hcount hsum_end
    exact find_end_sentinel stop_end inc op proj proj2 xs s sizes_end sched hdiff hcount
      hsum_end

/-- C21 at a concrete input: the range `[7, 1, 2, 9, 1, 2]`, searched for the
value 1 (`find`), for an element equal to 1 (`find_if`), for an element other
than 1 (`find_if_not`) and for an element of `[1, 2]` (`find_first_of`) in two
chunks of three positions, and for the last occurrence of `[1, 2]` (`find_end`)
in chunks of three and two start positions; the second chunk task takes its 13
steps before the first one, which is often enough for each algorithm to
return, and the results are 1, 1, 0, 1 and 4. -/
theorem find_family_sentinel_witness :
    [3, 3].sum = [(7 : Int), 1, 2, 9, 1, 2].length ∧
    sentinel_property smaller_index_wins 6 (fun c => c < 6)
      (loop_idx_n_step (was_cancelled_at id) (find_f1 (fun x : Int => x) 1)) (find_f2 6) 6 1
      [(7 : Int), 1, 2, 9, 1, 2] [3, 3]
        [1, 1, 1, 1, 1, 1, 1, 1, 1, 1, 1, 1, 1, 0, 0, 0, 0, 0, 0, 0, 0, 0, 0, 0, 0, 0]
      (find_parallel (was_cancelled_at id) (fun x : Int => x) 1 [(7 : Int), 1, 2, 9, 1, 2] [3, 3]
        [1, 1, 1, 1, 1, 1, 1, 1, 1, 1, 1, 1, 1, 0, 0, 0, 0, 0, 0, 0, 0, 0, 0, 0, 0, 0]) ∧
    sentinel_property smaller_index_wins 6 (fun c => c < 6)
      (loop_idx_n_step (was_cancelled_at id)
        (find_if_f1 (fun x : Int => decide (x = 1)) (fun x : Int => x))) (find_if_f2 6) 6 1
      [(7 : Int), 1, 2, 9, 1, 2] [3, 3]
        [1, 1, 1, 1, 1, 1, 1, 1, 1, 1, 1, 1, 1, 0, 0, 0, 0, 0, 0, 0, 0, 0, 0, 0, 0, 0]
      (find_if_parallel (was_cancelled_at id) (fun x : Int => decide (x = 1))
        (fun x : Int => x) [(7 : Int), 1, 2, 9, 1, 2] [3, 3]
          [1, 1, 1, 1, 1, 1, 1, 1, 1, 1, 1, 1, 1, 0, 0, 0, 0, 0, 0, 0, 0, 0, 0, 0, 0, 0]) ∧
    sentinel_property smaller_index_wins 6 (fun c => c < 6)
      (loop_idx_n_step (was_cancelled_at id)
        (find_if_not_f1 (fun x : Int => decide (x = 1)) (fun x : Int => x)))
      (find_if_not_f2 6) 6 1 [(7 : Int), 1, 2, 9, 1, 2] [3, 3]
        [1, 1, 1, 1, 1, 1, 1, 1, 1, 1, 1, 1, 1, 0, 0, 0, 0, 0, 0, 0, 0, 0, 0, 0, 0, 0]
      (find_if_not_parallel (was_cancelled_at id) (fun x : Int => decide (x = 1))
        (fun x : Int => x) [(7 : Int), 1, 2, 9, 1, 2] [3, 3]
          [1, 1, 1, 1, 1, 1, 1, 1, 1, 1, 1, 1, 1, 0, 0, 0, 0, 0, 0, 0, 0, 0, 0, 0, 0, 0]) ∧
    sentinel_property smaller_index_wins 6 (fun c => c < 6)
      (loop_idx_n_step (was_cancelled_at id)
        (fun v i => find_first_of_f1
          (compare_projected (fun a b : Int => decide (a = b)) (fun x : Int => x)
            (fun x : Int => x)) v i [1, 2]))
      (find_first_of_f2 6) 6 2 [(7 : Int), 1, 2, 9, 1, 2] [3, 3]
        [1, 1, 1, 1, 1, 1, 1, 1, 1, 1, 1, 1, 1, 0, 0, 0, 0, 0, 0, 0, 0, 0, 0, 0, 0, 0]
      (find_first_of_parallel (was_cancelled_at id) (fun a b : Int => decide (a = b))
        (fun x : Int => x) (fun x : Int => x) [(7 : Int), 1, 2, 9, 1, 2] [1, 2] [3, 3]
          [1, 1, 1, 1, 1, 1, 1, 1, 1, 1, 1, 1, 1, 0, 0, 0, 0, 0, 0, 0, 0, 0, 0, 0, 0, 0]) ∧
    sentinel_property larger_index_wins (-1) (fun c => 0 ≤ c ∧ c ≤ 6 - 2)
      (loop_idx_n_step (was_cancelled_at Int.ofNat)
        (find_end_f1 (fun x : Int => x + 1) (fun a b : Int => decide (a = b))
          (fun x : Int => x) (fun x : Int => x) [1, 2]))
      (find_end_f2 6 6) 6 1 [(7 : Int), 1, 2, 9, 1, 2] [3, 2]
        [1, 1, 1, 1, 1, 1, 1, 1, 1, 1, 1, 1, 1, 0, 0, 0, 0, 0, 0, 0, 0, 0, 0, 0, 0, 0]
      (find_end_parallel (was_cancelled_at Int.ofNat) (fun x : Int => x + 1)
        (fun a b : Int => decide (a = b)) (fun x : Int => x) (fun x : Int => x)
        [(7 : Int), 1, 2, 9, 1, 2] [1, 2] [3, 2]
          [1, 1, 1, 1, 1, 1, 1, 1, 1, 1, 1, 1, 1, 0, 0, 0, 0, 0, 0, 0, 0, 0, 0, 0, 0, 0]) ∧
    find_parallel (was_cancelled_at id) (fun x : Int => x) 1 [(7 : Int), 1, 2, 9, 1, 2] [3, 3]
      [1, 1, 1, 1, 1, 1, 1, 1, 1, 1, 1, 1, 1, 0, 0, 0, 0, 0, 0, 0, 0, 0, 0, 0, 0, 0] = some 1 ∧
    find_if_parallel (was_cancelled_at id) (fun x : Int => decide (x = 1))
      (fun x : Int => x) [(7 : Int), 1, 2, 9, 1, 2] [3, 3]
      [1, 1, 1, 1, 1, 1, 1, 1, 1, 1, 1, 1, 1, 0, 0, 0, 0, 0, 0, 0, 0, 0, 0, 0, 0, 0] = some 1 ∧
    find_if_not_parallel (was_cancelled_at id) (fun x : Int => decide (x = 1))
      (fun x : Int => x) [(7 : Int), 1, 2, 9, 1, 2] [3, 3]
      [1, 1, 1, 1, 1, 1, 1, 1, 1, 1, 1, 1, 1, 0, 0, 0, 0, 0, 0, 0, 0, 0, 0, 0, 0, 0] = some 0 ∧
    find_first_of_parallel (was_cancelled_at id) (fun a b : Int => decide (a = b))
      (fun x : Int => x) (fun x : Int => x) [(7 : Int), 1, 2, 9, 1, 2] [1, 2] [3, 3]
      [1, 1, 1, 1, 1, 1, 1, 1, 1, 1, 1, 1, 1, 0, 0, 0, 0, 0, 0, 0, 0, 0, 0, 0, 0, 0] = some 1 ∧
    find_end_parallel (was_cancelled_at Int.ofNat) (fun x : Int => x + 1)
      (fun a b : Int => decide (a = b)) (fun x : Int => x) (fun x : Int => x)
      [(7 : Int), 1, 2, 9, 1, 2] [1, 2] [3, 2]
      [1, 1, 1, 1, 1, 1, 1, 1, 1, 1, 1, 1, 1, 0, 0, 0, 0, 0, 0, 0, 0, 0, 0, 0, 0, 0] = some 4 := by
  have h := find_family_sentinel (was_cancelled_at id) (was_cancelled_at Int.ofNat)
    (fun x : Int => x) 1 (fun x : Int => decide (x = 1)) (fun a b : Int => decide (a = b))
    (fun x : Int => x) (fun x : Int => x + 1) [(7 : Int), 1, 2, 9, 1, 2] [1, 2] [3, 3] [3, 2]
    [1, 1, 1, 1, 1, 1, 1, 1, 1, 1, 1, 1, 1, 0, 0, 0, 0, 0, 0, 0, 0, 0, 0, 0, 0, 0] (by decide)
  have h1 := h.1
  have h2 := h.2.1
  have h3 := h.2.2.1
  have h4 := h.2.2.2.1 (by decide) (by decide)
  have h5 := h.2.2.2.2 (by decide) (by decide) (by decide)
  refine ⟨by decide, h1, h2, h3, h4, h5, ?_, ?_, ?_, ?_, ?_⟩
  · unfold sentinel_property at h1
    exact (h1.2.2.2.2.2.2.2 (by decide)).trans (by decide)
  · unfold sentinel_property at h2
    exact (h2.2.2.2.2.2.2.2 (by decide)).trans (by decide)
  · unfold sentinel_property at h3
    exact (h3.2.2.2.2.2.2.2 (by decide)).trans (by decide)
  · unfold sentinel_property at h4
    exact (h4.2.2.2.2.2.2.2 (by decide)).trans (by decide)
  · unfold sentinel_property at h5
    exact (h5.2.2.2.2.2.2.2 (by decide)).trans (by decide)

set_option maxRecDepth 4096 in
/-- The runs of the witness, evaluated. Every chunk task is scheduled 13
times, which is `(B + 2) * size + 1` for the largest bound `B = 2`, and every
algorithm returns: `find` and `find_if` report the positions 4 and 1 and return
1, `find_if_not` reports 3 and 0 and returns 0, and `find_first_of` returns
1. -/
theorem find_family_sentinel_runs :
    (∀ j, j < [3, 3].length → (2 + 2) * [3, 3].getD j 0 + 1 ≤
      [1, 1, 1, 1, 1, 1, 1, 1, 1, 1, 1, 1, 1, 0, 0, 0, 0, 0, 0, 0, 0, 0, 0, 0, 0, 0].count j) ∧
    par_reports (loop_idx_n_step (was_cancelled_at id) (find_f1 (fun x : Int => x) 1))
      [1, 1, 1, 1, 1, 1, 1, 1, 1, 1, 1, 1, 1, 0, 0, 0, 0, 0, 0, 0, 0, 0, 0, 0, 0, 0]
      ⟨cancellation_token.create smaller_index_wins 6,
        chunk_tasks [(7 : Int), 1, 2, 9, 1, 2] 0 [3, 3]⟩ = [4, 1] ∧
    find_parallel (was_cancelled_at id) (fun x : Int => x) 1 [(7 : Int), 1, 2, 9, 1, 2] [3, 3]
      [1, 1, 1, 1, 1, 1, 1, 1, 1, 1, 1, 1, 1, 0, 0, 0, 0, 0, 0, 0, 0, 0, 0, 0, 0, 0] = some 1 ∧
    find_if_parallel (was_cancelled_at id) (fun x : Int => decide (x = 1))
      (fun x : Int => x) [(7 : Int), 1, 2, 9, 1, 2] [3, 3]
      [1, 1, 1, 1, 1, 1, 1, 1, 1, 1, 1, 1, 1, 0, 0, 0, 0, 0, 0, 0, 0, 0, 0, 0, 0, 0] = some 1 ∧
    par_reports (loop_idx_n_step (was_cancelled_at id)
        (find_if_not_f1 (fun x : Int => decide (x = 1)) (fun x : Int => x)))
      [1, 1, 1, 1, 1, 1, 1, 1, 1, 1, 1, 1, 1, 0, 0, 0, 0, 0, 0, 0, 0, 0, 0, 0, 0, 0]
      ⟨cancellation_token.create smaller_index_wins 6,
        chunk_tasks [(7 : Int), 1, 2, 9, 1, 2] 0 [3, 3]⟩ = [3, 0] ∧
    find_if_not_parallel (was_cancelled_at id) (fun x : Int => decide (x = 1))
      (fun x : Int => x) [(7 : Int), 1, 2, 9, 1, 2] [3, 3]
      [1, 1, 1, 1, 1, 1, 1, 1, 1, 1, 1, 1, 1, 0, 0, 0, 0, 0, 0, 0, 0, 0, 0, 0, 0, 0] = some 0 ∧
    find_first_of_parallel (was_cancelled_at id) (fun a b : Int => decide (a = b))
      (fun x : Int => x) (fun x : Int => x) [(7 : Int), 1, 2, 9, 1, 2] [1, 2] [3, 3]
      [1, 1, 1, 1, 1, 1, 1, 1, 1, 1, 1, 1, 1, 0, 0, 0, 0, 0, 0, 0, 0, 0, 0, 0, 0, 0] = some 1 := by
  decide

/-- The runs of `find_end` on the range of the witness, evaluated: with the
second chunk task running first it reports 4 and returns 4, with the first
chunk task running first it reports 1 and 4 and returns 4. -/
theorem find_end_sentinel_runs :
    par_reports (loop_idx_n_step (was_cancelled_at Int.ofNat)
        (find_end_f1 (fun x : Int => x + 1) (fun a b : Int => decide (a = b))
          (fun x : Int => x) (fun x : Int => x) [1, 2]))
      [1, 1, 1, 1, 1, 1, 1, 1, 1, 1, 1, 1, 1, 0, 0, 0, 0, 0, 0, 0, 0, 0, 0, 0, 0, 0]
      ⟨cancellation_token.create larger_index_wins (-1),
        chunk_tasks [(7 : Int), 1, 2, 9, 1, 2] 0 [3, 2]⟩ = [4] ∧
    find_end_parallel (was_cancelled_at Int.ofNat) (fun x : Int => x + 1)
      (fun a b : Int => decide (a = b)) (fun x : Int => x) (fun x : Int => x)
      [(7 : Int), 1, 2, 9, 1, 2] [1, 2] [3, 2]
      [1, 1, 1, 1, 1, 1, 1, 1, 1, 1, 1, 1, 1, 0, 0, 0, 0, 0, 0, 0, 0, 0, 0, 0, 0, 0] = some 4 ∧
    par_reports (loop_idx_n_step (was_cancelled_at Int.ofNat)
        (find_end_f1 (fun x : Int => x + 1) (fun a b : Int => decide (a = b))
          (fun x : Int => x) (fun x : Int => x) [1, 2]))
      [0, 0, 0, 0, 0, 0, 0, 0, 0, 0, 0, 0, 0, 1, 1, 1, 1, 1, 1, 1, 1, 1, 1, 1, 1, 1]
      ⟨cancellation_token.create larger_index_wins (-1),
        chunk_tasks [(7 : Int), 1, 2, 9, 1, 2] 0 [3, 2]⟩ = [1, 4] ∧
    find_end_parallel (was_cancelled_at Int.ofNat) (fun x : Int => x + 1)
      (fun a b : Int => decide (a = b)) (fun x : Int => x) (fun x : Int => x)
      [(7 : Int), 1, 2, 9, 1, 2] [1, 2] [3, 2]
      [0, 0, 0, 0, 0, 0, 0, 0, 0, 0, 0, 0, 0, 1, 1, 1, 1, 1, 1, 1, 1, 1, 1, 1, 1, 1] = some 4 := by
  decide

set_option maxRecDepth 4096 in
/-- Runs without a match on the range of the witness, evaluated: nothing is
reported, the combine functions read the sentinels `count` and `-1`, and the
algorithms return `last`. -/
theorem find_family_sentinel_no_match :
    par_reports (loop_idx_n_step (was_cancelled_at id) (find_f1 (fun x : Int => x) 5))
      [1, 1, 1, 1, 1, 1, 1, 1, 1, 1, 1, 1, 1, 0, 0, 0, 0, 0, 0, 0, 0, 0, 0, 0, 0, 0]
      ⟨cancellation_token.create smaller_index_wins 6,
        chunk_tasks [(7 : Int), 1, 2, 9, 1, 2] 0 [3, 3]⟩ = [] ∧
    find_parallel (was_cancelled_at id) (fun x : Int => x) 5 [(7 : Int), 1, 2, 9, 1, 2] [3, 3]
      [1, 1, 1, 1, 1, 1, 1, 1, 1, 1, 1, 1, 1, 0, 0, 0, 0, 0, 0, 0, 0, 0, 0, 0, 0, 0] = some 6 ∧
    par_reports (loop_idx_n_step (was_cancelled_at Int.ofNat)
        (find_end_f1 (fun x : Int => x + 1) (fun a b : Int => decide (a = b))
          (fun x : Int => x) (fun x : Int => x) [5, 6]))
      [1, 1, 1, 1, 1, 1, 1, 1, 1, 1, 1, 1, 1, 0, 0, 0, 0, 0, 0, 0, 0, 0, 0, 0, 0, 0]
      ⟨cancellation_token.create larger_index_wins (-1),
        chunk_tasks [(7 : Int), 1, 2, 9, 1, 2] 0 [3, 2]⟩ = [] ∧
    find_end_parallel (was_cancelled_at Int.ofNat) (fun x : Int => x + 1)
      (fun a b : Int => decide (a = b)) (fun x : Int => x) (fun x : Int => x)
      [(7 : Int), 1, 2, 9, 1, 2] [5, 6] [3, 2]
      [1, 1, 1, 1, 1, 1, 1, 1, 1, 1, 1, 1, 1, 0, 0, 0, 0, 0, 0, 0, 0, 0, 0, 0, 0, 0] = some 6 := by
  decide

end FindFamilySentinel

end Pika
